import Mathlib

/-!
# Laundry analytics server: log store, retention pruning and aggregation

A shallow embedding of `src/backend/server.js`.  The log file is a text whose non-empty
lines are parsed one by one with `JSON.parse`; every handler wraps the treatment of a line
in `try { ... } catch { }`, so a line either contributes or is skipped, and effects made
before a `TypeError` inside the block persist.

The builtins of the JavaScript engine the server relies on (`JSON.parse`, `Date.parse`,
the local calendar, case mapping, trimming, collation and sorting with a comparator that
may throw) are collected in `Runtime`;
every general theorem holds for all runtimes.  A number read from the log is seen through
the text `ToString` gives for it and the time value `new Date` makes of it.
-/

namespace Laundry

/-! ## Data model -/

/-- A JavaScript value as seen at a property the server reads (`timestamp`, `dorm`,
`machine`, `type`, `status`).  `num text time` is a number of a JSON text, carrying the
text that `ToString` gives for it (`5`, `1.5`, `1e+21`) and the time value of `new Date`
on it (`none` when it is out of the range of dates); `obj repr` is any array or plain
object, carrying the text that `ToString` gives for it. -/
inductive JsVal where
  | undefined
  | null
  | bool (b : Bool)
  | num (text : String) (time : Option Int)
  | str (s : String)
  | obj (repr : String)
  deriving DecidableEq, Repr

/-- An element of `entry.machines` that is not `null`, seen through the four properties
the server reads; a property that is absent reads as `undefined`. -/
structure MachineObj where
  dorm : JsVal
  machine : JsVal
  type : JsVal
  status : JsVal
  deriving DecidableEq, Repr

/-- The value of `entry.machines`: an array of elements (`none` is a `null` element, on
which every property read throws), or any other value (`undefined` when absent). -/
inductive MachinesVal where
  | notArray (v : JsVal)
  | array (elems : List (Option MachineObj))
  deriving DecidableEq, Repr

/-- What `JSON.parse(line)` returns, as far as the server inspects it: the literal `null`
(every property read throws), or a value with its `timestamp` and `machines` properties. -/
inductive Parsed where
  | nullLit
  | value (timestamp : JsVal) (machines : MachinesVal)
  deriving DecidableEq, Repr

/-- The engine builtins used by the server. `jsonParse` is `none` where `JSON.parse`
throws; `dateParse` is `none` where `Date.parse` gives `NaN`; `localDay` and `localHour`
are `getDay()` (0 is Sunday) and `getHours()` of a valid time value in local time.
`sort` is `Array.prototype.sort` on an array without holes, with a comparator that may
throw (`none`) and otherwise gives the sign of its result; the language leaves the
sequence of comparator calls to the engine, so which exception surfaces, and the order
under a comparator that is not consistent, are the engine's. -/
structure Runtime where
  jsonParse : String → Option Parsed
  dateParse : String → Option Int
  localDay : Int → Fin 7
  localHour : Int → Fin 24
  toLowerCase : String → String
  trim : String → String
  localeCompare : String → String → Ordering
  sort : {α : Type} → (α → α → Option Ordering) → List α → Option (List α)

/-! ## Dates -/

/-- Largest time value of a `Date`, in milliseconds. -/
def maxTime : Int := 8640000000000000

/-- The time value kept by `new Date(n)` for a number: `NaN` (`none`) out of range. -/
def timeClip (n : Int) : Option Int :=
  if -maxTime ≤ n ∧ n ≤ maxTime then some n else none

/-- The time value of `new Date(v)`; `none` is an Invalid Date. -/
def newDate (rt : Runtime) : JsVal → Option Int
  | .undefined => none
  | .null => some 0
  | .bool b => some (if b then 1 else 0)
  | .num _ time => time
  | .str s => rt.dateParse s
  | .obj r => rt.dateParse r

/-- The comparison `a >= b` of two dates; false when either is invalid. -/
def dateGe : Option Int → Option Int → Bool
  | some a, some b => decide (b ≤ a)
  | _, _ => false

/-- The comparison `a < b` of two dates; false when either is invalid. -/
def dateLt : Option Int → Option Int → Bool
  | some a, some b => decide (a < b)
  | _, _ => false

/-! ## Log store -/

/-- The lines of a log text: `content.split('\n').filter(Boolean)`. -/
def readLines (content : String) : List String :=
  ((content.toList.splitOn '\n').map String.mk).filter (fun l => l ≠ "")

/-- The text written back by pruning: `kept.join('\n') + (kept.length ? '\n' : '')`. -/
def joinLines (kept : List String) : String :=
  String.mk (['\n'].intercalate (kept.map String.toList)
    ++ (if kept.length ≠ 0 then ['\n'] else []))

/-- The lines held by a store; an absent file holds none. -/
def storeLines : Option String → List String
  | none => []
  | some content => readLines content

/-- Retention window of the log: 30 days in milliseconds. -/
def retentionMs : Int := 30 * 24 * 60 * 60 * 1000

/-- The filter of `pruneOldLogEntries`: the line parses and
`new Date(entry.timestamp) >= minDate`; any exception gives `false`. -/
def keepLine (rt : Runtime) (now : Int) (line : String) : Bool :=
  match rt.jsonParse line with
  | none => false
  | some .nullLit => false
  | some (.value ts _) => dateGe (newDate rt ts) (timeClip (now - retentionMs))

/-- The function `pruneOldLogEntries` over the file (`none` when it does not exist) at
the instant `now = Date.now()`: the file afterwards, and whether `writeFileSync` ran. -/
def pruneOldLogEntries (rt : Runtime) (now : Int) : Option String → Option String × Bool
  | none => (none, false)
  | some content =>
    let lines := readLines content
    let kept := lines.filter (keepLine rt now)
    if kept.length ≠ lines.length then (some (joinLines kept), true)
    else (some content, false)

/-- Specification side of retention: the line parses as an entry whose timestamp is a
valid date `t` with `now - t` within the retention window. -/
def Retained (rt : Runtime) (now : Int) (line : String) : Prop :=
  ∃ ts ms t, rt.jsonParse line = some (.value ts ms) ∧ newDate rt ts = some t ∧
    now - t ≤ retentionMs

/-! ## Values, strings and control flow -/

/-- The text of a value inside a template literal (`ToString`). -/
def toStr : JsVal → String
  | .undefined => "undefined"
  | .null => "null"
  | .bool b => if b then "true" else "false"
  | .num text _ => text
  | .str s => s
  | .obj r => r

/-- Whether a value is truthy; `0` and `-0` are the numbers of a JSON text that are not,
and both read `0` as a text. -/
def truthy : JsVal → Bool
  | .undefined => false
  | .null => false
  | .bool b => b
  | .num text _ => text ≠ "0"
  | .str s => s ≠ ""
  | .obj _ => true

/-- The comparison `a === b`; two arrays or objects read from different places are never
identical. -/
def strictEq : JsVal → JsVal → Bool
  | .obj _, .obj _ => false
  | a, b => decide (a = b)

/-- The call `v.toLowerCase()`: `none` is the `TypeError` thrown unless `v` is a string. -/
def toLowerCaseOf (rt : Runtime) : JsVal → Option String
  | .str s => some (rt.toLowerCase s)
  | _ => none

/-- The test `s.includes(sub)`. -/
def includes (s sub : String) : Bool := decide (sub.toList <:+: s.toList)

/-- How a block run inside `try` ended: it completed, or it threw; in both cases the
mutations made so far are in the state. -/
inductive Outcome (σ : Type) where
  | done (s : σ)
  | threw (s : σ)

/-- The state left by a block, whichever way it ended (`catch` swallows the exception). -/
def Outcome.state {σ : Type} : Outcome σ → σ
  | .done s => s
  | .threw s => s

/-- The loop `xs.forEach(f)` with a callback that may throw: the first exception ends the
loop. -/
def forEachTry {σ α : Type} (f : σ → α → Outcome σ) : σ → List α → Outcome σ
  | s, [] => .done s
  | s, x :: xs =>
    match f s x with
    | .done s1 => forEachTry f s1 xs
    | .threw s1 => .threw s1

/-- A plain object used as a map, in insertion order of its keys. -/
abbrev Table (κ β : Type) := List (κ × β)

/-- The read `tbl[key]`. -/
def Table.get? {κ β : Type} [DecidableEq κ] (key : κ) : Table κ β → Option β
  | [] => none
  | (k, v) :: rest => if k = key then some v else Table.get? key rest

/-- The update `tbl[key] = tbl[key] || b` for a truthy-or-absent entry: an existing entry
is kept, a new key goes last. -/
def Table.ensure {κ β : Type} [DecidableEq κ] (key : κ) (b : β) : Table κ β → Table κ β
  | [] => [(key, b)]
  | (k, v) :: rest =>
    if k = key then (k, v) :: rest else (k, v) :: Table.ensure key b rest

/-- The update of the entry of `key` in place. -/
def Table.modify {κ β : Type} [DecidableEq κ] (key : κ) (f : β → β) : Table κ β → Table κ β
  | [] => []
  | (k, v) :: rest =>
    if k = key then (k, f v) :: rest else (k, v) :: Table.modify key f rest

/-- The call `arr.sort(cmp)` with a comparator that does not throw: a stable sort, here
by insertion; `cmp a b <= 0` keeps `a` before `b`. -/
def jsSort {α : Type} (cmp : α → α → Int) (l : List α) : List α :=
  l.insertionSort (fun a b => cmp a b ≤ 0)

/-! ## Calendar keys -/

/-- Weekday names of `toLocaleString('en-US', { weekday: 'long' })`. -/
def longDayName (d : Fin 7) : String :=
  match d.val with
  | 0 => "Sunday"
  | 1 => "Monday"
  | 2 => "Tuesday"
  | 3 => "Wednesday"
  | 4 => "Thursday"
  | 5 => "Friday"
  | _ => "Saturday"

/-- Weekday names of `toLocaleString('en-US', { weekday: 'short' })`. -/
def shortDayName (d : Fin 7) : String :=
  match d.val with
  | 0 => "Sun"
  | 1 => "Mon"
  | 2 => "Tue"
  | 3 => "Wed"
  | 4 => "Thu"
  | 5 => "Fri"
  | _ => "Sat"

/-- The long weekday of a date; an Invalid Date formats as `Invalid Date`. -/
def dayLong (rt : Runtime) : Option Int → String
  | none => "Invalid Date"
  | some t => longDayName (rt.localDay t)

/-- The short weekday of a date; an Invalid Date formats as `Invalid Date`. -/
def dayShort (rt : Runtime) : Option Int → String
  | none => "Invalid Date"
  | some t => shortDayName (rt.localDay t)

/-- The text of `date.getHours()`; `NaN` for an Invalid Date. -/
def hourText (rt : Runtime) : Option Int → String
  | none => "NaN"
  | some t => toString (rt.localHour t).val

/-! ## Best times -/

/-- The key of `hourStats`: the template `day hour:00`. -/
def bestTimesKey (rt : Runtime) (date : Option Int) : String :=
  dayLong rt date ++ " " ++ hourText rt date ++ ":00"

/-- The update `hourStats[key] = (hourStats[key] || 0) + 1`. -/
def bump (key : String) (stats : Table String Nat) : Table String Nat :=
  Table.modify key (fun c => c + 1) (Table.ensure key 0 stats)

/-- The callback of `entry.machines.forEach` in best-times: reading `status` of `null`
throws, `toLowerCase` of a non-string throws, an exact match counts. -/
def bestTimesMachine (rt : Runtime) (key : String) (stats : Table String Nat)
    (m : Option MachineObj) : Outcome (Table String Nat) :=
  match m with
  | none => .threw stats
  | some mo =>
    match toLowerCaseOf rt mo.status with
    | none => .threw stats
    | some s => if s = "available" then .done (bump key stats) else .done stats

/-- The body of `lines.forEach` in best-times, with its `try`/`catch`. -/
def bestTimesLine (rt : Runtime) (stats : Table String Nat) (line : String) :
    Table String Nat :=
  match rt.jsonParse line with
  | none => stats
  | some .nullLit => stats
  | some (.value _ (.notArray _)) => stats
  | some (.value ts (.array elems)) =>
    (forEachTry (bestTimesMachine rt (bestTimesKey rt (newDate rt ts))) stats elems).state

/-- The object `hourStats` after the scan of the log. -/
def hourStatsOf (rt : Runtime) (lines : List String) : Table String Nat :=
  lines.foldl (bestTimesLine rt) []

/-- One item of the `bestTimes` response. -/
structure BestTime where
  time : String
  availableCount : Nat
  deriving DecidableEq, Repr

/-- The list `bestTimes` of `GET /api/laundry/best-times` over the lines of the log:
`Object.entries(hourStats).sort((a, b) => b[1] - a[1]).map(...)`. -/
def bestTimes (rt : Runtime) (lines : List String) : List BestTime :=
  (jsSort (fun a b => (b.2 : Int) - (a.2 : Int)) (hourStatsOf rt lines)).map
    (fun e => { time := e.1, availableCount := e.2 })

/-! ## Machine analytics -/

/-- One row of `machineStats`, and of the `machineAnalytics` response. -/
structure MachineStats where
  dorm : JsVal
  machine : JsVal
  type : JsVal
  available : Nat
  inUse : Nat
  outOfOrder : Nat
  endOfCycle : Nat
  almostDone : Nat
  total : Nat
  deriving DecidableEq, Repr

/-- The category a lower-cased status falls in. -/
inductive Category where
  | available
  | inUse
  | outOfOrder
  | endOfCycle
  | almostDone
  | other
  deriving DecidableEq, Repr

/-- The `if`/`else if` chain over `status.includes(...)`: the first phrase found wins. -/
def classify (status : String) : Category :=
  if includes status "available" then .available
  else if includes status "in use" then .inUse
  else if includes status "out of order" then .outOfOrder
  else if includes status "end of cycle" then .endOfCycle
  else if includes status "almost done" then .almostDone
  else .other

/-- The increments made for one record: its category counter, if any, and `total`. -/
def MachineStats.record (r : MachineStats) (c : Category) : MachineStats :=
  match c with
  | .available => { r with available := r.available + 1, total := r.total + 1 }
  | .inUse => { r with inUse := r.inUse + 1, total := r.total + 1 }
  | .outOfOrder => { r with outOfOrder := r.outOfOrder + 1, total := r.total + 1 }
  | .endOfCycle => { r with endOfCycle := r.endOfCycle + 1, total := r.total + 1 }
  | .almostDone => { r with almostDone := r.almostDone + 1, total := r.total + 1 }
  | .other => { r with total := r.total + 1 }

/-- The grouping key: the template `dorm__machine`. -/
def machineKey (mo : MachineObj) : String :=
  toStr mo.dorm ++ "__" ++ toStr mo.machine

/-- The row created for a key not yet in `machineStats`. -/
def newRow (mo : MachineObj) : MachineStats :=
  { dorm := mo.dorm, machine := mo.machine, type := mo.type, available := 0, inUse := 0,
    outOfOrder := 0, endOfCycle := 0, almostDone := 0, total := 0 }

/-- Keys of the shape `x__y` that every plain object inherits from `Object.prototype`:
`machineStats[key]` is truthy for them, so no row is created, and the increments land on
the inherited value, which `Object.values` does not list. -/
def inheritedKeys : List String :=
  ["__proto__", "__defineGetter__", "__defineSetter__", "__lookupGetter__",
    "__lookupSetter__"]

/-- The callback of `entry.machines.forEach` in machine-analytics: the row is created
before `status.toLowerCase()` is evaluated, the counters are incremented after it. -/
def analyticsMachine (rt : Runtime) (tbl : Table String MachineStats)
    (m : Option MachineObj) : Outcome (Table String MachineStats) :=
  match m with
  | none => .threw tbl
  | some mo =>
    let key := machineKey mo
    if key ∈ inheritedKeys then
      match toLowerCaseOf rt mo.status with
      | none => .threw tbl
      | some _ => .done tbl
    else
      let tbl1 := Table.ensure key (newRow mo) tbl
      match toLowerCaseOf rt mo.status with
      | none => .threw tbl1
      | some status => .done (Table.modify key (fun r => r.record (classify status)) tbl1)

/-- Seven days in milliseconds. -/
def weekMs : Int := 7 * 24 * 60 * 60 * 1000

/-- The `minDate` of machine-analytics: a date when `period === 'week'`, else `null`. -/
def analyticsMinDate (week : Bool) (now : Int) : Option (Option Int) :=
  if week then some (timeClip (now - weekMs)) else none

/-- The test `minDate && new Date(entry.timestamp) < minDate`. -/
def beforeWindow (rt : Runtime) (minDate : Option (Option Int)) (ts : JsVal) : Bool :=
  match minDate with
  | none => false
  | some md => dateLt (newDate rt ts) md

/-- The body of `lines.forEach` in machine-analytics, with its `try`/`catch`. -/
def analyticsLine (rt : Runtime) (minDate : Option (Option Int))
    (tbl : Table String MachineStats) (line : String) : Table String MachineStats :=
  match rt.jsonParse line with
  | none => tbl
  | some .nullLit => tbl
  | some (.value ts ms) =>
    if beforeWindow rt minDate ts then tbl
    else
      match ms with
      | .notArray _ => tbl
      | .array elems => (forEachTry (analyticsMachine rt) tbl elems).state

/-- The object `machineStats` after the scan of the log. -/
def machineStatsOf (rt : Runtime) (week : Bool) (now : Int) (lines : List String) :
    Table String MachineStats :=
  lines.foldl (analyticsLine rt (analyticsMinDate week now)) []

/-- The call `a.localeCompare(b)`: a `TypeError` (`none`) unless `a` is a string; the
argument is converted to text. -/
def localeCompareOf (rt : Runtime) (a b : JsVal) : Option Ordering :=
  match a with
  | .str s => some (rt.localeCompare s (toStr b))
  | _ => none

/-- The comparator of the final sort: by `dorm`, then by `machine`. -/
def compareStats (rt : Runtime) (a b : MachineStats) : Option Ordering :=
  if strictEq a.dorm b.dorm then localeCompareOf rt a.machine b.machine
  else localeCompareOf rt a.dorm b.dorm

/-- The list `machineAnalytics` of `GET /api/laundry/machine-analytics` over the lines of
the log; `week` is `period === 'week'`; `none` when the sort ends with an exception of the
comparator. -/
def machineAnalytics (rt : Runtime) (week : Bool) (now : Int) (lines : List String) :
    Option (List MachineStats) :=
  rt.sort (compareStats rt) ((machineStatsOf rt week now lines).map (fun e => e.2))

/-! ## Weekly times -/

/-- The sums kept in `weekStats[weekday][hour]`. -/
structure Sums where
  available : Nat
  inUse : Nat
  total : Nat
  deriving DecidableEq, Repr

/-- One bucket of the `weekStats` response. -/
structure WeekCell where
  available : Rat
  inUse : Rat
  total : Rat
  count : Nat
  deriving DecidableEq

/-- The key of a bucket: weekday name and hour property; the nested objects
`weekStats[weekday][hour]` are kept as one table over the pairs. -/
abbrev WeekKey := String × String

/-- The query parameters `dorm`, `type` and `status`, when given as text. -/
structure Filters where
  dorm : Option String
  type : Option String
  status : Option String

/-- The filter value `q ? q.trim().toLowerCase() : null`. -/
def filterParam (rt : Runtime) : Option String → Option String
  | none => none
  | some q => if q = "" then none else some (rt.toLowerCase (rt.trim q))

/-- The name `(v || '').trim().toLowerCase()`; `none` is the `TypeError` of a truthy
value that is not a string. -/
def fieldName (rt : Runtime) (v : JsVal) : Option String :=
  if truthy v then
    match v with
    | .str s => some (rt.toLowerCase (rt.trim s))
    | _ => none
  else some (rt.toLowerCase (rt.trim ""))

/-- The negation of `filter && name !== filter`. -/
def passes (filter : Option String) (name : String) : Bool :=
  match filter with
  | none => true
  | some f => f = "" || name = f

/-- The callback of `entry.machines.filter`; `none` when it throws. -/
def keepMachine (rt : Runtime) (f : Filters) (m : Option MachineObj) : Option Bool :=
  match m with
  | none => none
  | some mo =>
    match fieldName rt mo.dorm, fieldName rt mo.type, fieldName rt mo.status with
    | some d, some t, some s =>
      some (passes (filterParam rt f.dorm) d && passes (filterParam rt f.type) t
        && passes (filterParam rt f.status) s)
    | _, _, _ => none

/-- The call `xs.filter(p)` with a callback that may throw (`none`). -/
def filterTry {α : Type} (p : α → Option Bool) : List α → Option (List α)
  | [] => some []
  | x :: xs =>
    match p x with
    | none => none
    | some b =>
      match filterTry p xs with
      | none => none
      | some r => some (if b then x :: r else r)

/-- The loop over `filteredMachines` that counts into the local variables `available`,
`inUse` and `total`; `none` when `status.toLowerCase()` throws. -/
def tallyMachines (rt : Runtime) : List (Option MachineObj) → Sums → Option Sums
  | [], acc => some acc
  | none :: _, _ => none
  | some mo :: rest, acc =>
    match toLowerCaseOf rt mo.status with
    | none => none
    | some status =>
      tallyMachines rt rest
        (if includes status "available" then
          { acc with available := acc.available + 1, total := acc.total + 1 }
        else if includes status "in use" then
          { acc with inUse := acc.inUse + 1, total := acc.total + 1 }
        else { acc with total := acc.total + 1 })

/-- The two objects `weekStats` and `weekStatsCounts`. -/
structure WeekState where
  stats : Table WeekKey Sums
  counts : Table WeekKey Nat

/-- The body of `lines.forEach` in weekly-times, with its `try`/`catch`: the bucket is
created before the machines are filtered. -/
def weeklyLine (rt : Runtime) (minDate : Option Int) (f : Filters) (st : WeekState)
    (line : String) : WeekState :=
  match rt.jsonParse line with
  | none => st
  | some .nullLit => st
  | some (.value ts ms) =>
    let date := newDate rt ts
    if dateLt date minDate then st
    else
      let key : WeekKey := (dayShort rt date, hourText rt date)
      let st1 : WeekState :=
        { stats := Table.ensure key { available := 0, inUse := 0, total := 0 } st.stats,
          counts := Table.ensure key 0 st.counts }
      match ms with
      | .notArray _ => st1
      | .array elems =>
        match filterTry (keepMachine rt f) elems with
        | none => st1
        | some filtered =>
          if filtered.length > 0 then
            match tallyMachines rt filtered { available := 0, inUse := 0, total := 0 } with
            | none => st1
            | some t =>
              { stats := Table.modify key (fun b =>
                  { available := b.available + t.available, inUse := b.inUse + t.inUse,
                    total := b.total + t.total }) st1.stats,
                counts := Table.modify key (fun c => c + 1) st1.counts }
          else st1

/-- The state after the scan of the log in weekly-times. -/
def weekStateOf (rt : Runtime) (now : Int) (f : Filters) (lines : List String) : WeekState :=
  lines.foldl (weeklyLine rt (timeClip (now - weekMs)) f) { stats := [], counts := [] }

/-- The divisor `weekStatsCounts[weekday][hour] || 1`. -/
def divisor (counts : Table WeekKey Nat) (key : WeekKey) : Nat :=
  match Table.get? key counts with
  | none => 1
  | some c => if c = 0 then 1 else c

/-- The object `weekStats` of `GET /api/laundry/weekly-times` over the lines of the log,
as a table from bucket key to averaged cell. -/
def weeklyTimes (rt : Runtime) (now : Int) (f : Filters) (lines : List String) :
    Table WeekKey WeekCell :=
  let st := weekStateOf rt now f lines
  st.stats.map (fun e =>
    let count := divisor st.counts e.1
    (e.1, { available := (e.2.available : Rat) / count, inUse := (e.2.inUse : Rat) / count,
            total := (e.2.total : Rat) / count, count := count }))

/-! ## Well-formed logs -/

/-- A machine record as the scraper writes it: four non-empty texts. -/
def wellFormedMachine : Option MachineObj → Bool
  | some { dorm := .str d, machine := .str k, type := .str t, status := .str s } =>
    d ≠ "" && k ≠ "" && t ≠ "" && s ≠ ""
  | _ => false

/-- A line that parses as an entry with a valid textual timestamp and an array of
well-formed machine records. -/
def wellFormedLine (rt : Runtime) (line : String) : Bool :=
  match rt.jsonParse line with
  | some (.value (.str ts) (.array ms)) => (rt.dateParse ts).isSome && ms.all wellFormedMachine
  | _ => false

/-- A log all of whose lines are well-formed entries. -/
def wellFormedLog (rt : Runtime) (lines : List String) : Bool :=
  lines.all (wellFormedLine rt)

/-! ## Specification side of best times -/

/-- How many statuses the best-times loop counts among the machines of one entry: the
exact matches of `available` before the first element on which the callback throws. -/
def availableHits (rt : Runtime) : List (Option MachineObj) → Nat
  | [] => 0
  | none :: _ => 0
  | some mo :: rest =>
    match toLowerCaseOf rt mo.status with
    | none => 0
    | some s => (if s = "available" then 1 else 0) + availableHits rt rest

/-- The keys counted for one line, one per counted machine. -/
def lineSightings (rt : Runtime) (line : String) : List String :=
  match rt.jsonParse line with
  | some (.value ts (.array elems)) =>
    List.replicate (availableHits rt elems) (bestTimesKey rt (newDate rt ts))
  | _ => []

/-- The keys counted over the log, in log order: the order in which keys are seen. -/
def sightings (rt : Runtime) (lines : List String) : List String :=
  (lines.map (lineSightings rt)).flatten

/-- Counting a sequence of keys into a table. -/
def tally (keys : List String) (stats : Table String Nat) : Table String Nat :=
  keys.foldl (fun t k => bump k t) stats

/-- The key text of weekday `d` and hour `h`. -/
def slotKey (d : Fin 7) (h : Fin 24) : String :=
  longDayName d ++ " " ++ toString h.val ++ ":00"

/-- A record whose status, lower-cased, is exactly `available`. -/
def exactAvailable (rt : Runtime) (m : Option MachineObj) : Bool :=
  match m with
  | some { dorm := _, machine := _, type := _, status := .str s } =>
    rt.toLowerCase s = "available"
  | _ => false

/-- The number of machine records with status exactly `available` in one entry, when its
timestamp falls on weekday `d` at hour `h` in local time. -/
def availableInLine (rt : Runtime) (d : Fin 7) (h : Fin 24) (line : String) : Nat :=
  match rt.jsonParse line with
  | some (.value ts (.array elems)) =>
    match newDate rt ts with
    | some t =>
      if rt.localDay t = d ∧ rt.localHour t = h then (elems.filter (exactAvailable rt)).length
      else 0
    | none => 0
  | _ => 0

/-- The number of machine records with status exactly `available` in the entries of the
log whose timestamp falls on weekday `d` at hour `h` in local time. -/
def availableAt (rt : Runtime) (d : Fin 7) (h : Fin 24) (lines : List String) : Nat :=
  (lines.map (availableInLine rt d h)).sum

/-! ## Machine analytics: the scan as a fold over records -/

/-- The machine elements of a line that the scan of machine-analytics goes through: the
line parses, the test of the handler does not put it before `minDate`, and it has an array
of machines. -/
def scanElems (rt : Runtime) (minDate : Option (Option Int)) (line : String) :
    List (Option MachineObj) :=
  match rt.jsonParse line with
  | some (.value ts (.array elems)) => if beforeWindow rt minDate ts then [] else elems
  | _ => []

/-- The machine records the scan goes through, in log order. -/
def scanRecords (rt : Runtime) (week : Bool) (now : Int) (lines : List String) :
    List MachineObj :=
  ((lines.map (scanElems rt (analyticsMinDate week now))).flatten).filterMap id

/-- The category of a record with a textual status. -/
def categoryOf (rt : Runtime) (mo : MachineObj) : Category :=
  match toLowerCaseOf rt mo.status with
  | some s => classify s
  | none => .other

/-- The grouping key of a row, rebuilt from its `dorm` and `machine`. -/
def rowKey (r : MachineStats) : String :=
  toStr r.dorm ++ "__" ++ toStr r.machine

/-- The row of key `k` after a run of records none of which throws, from the row `start`
present before. -/
def rowFold (rt : Runtime) (k : String) (start : Option MachineStats)
    (recs : List MachineObj) : Option MachineStats :=
  recs.foldl (fun acc mo =>
    if machineKey mo = k then some ((acc.getD (newRow mo)).record (categoryOf rt mo))
    else acc) start

/-- The sum of the five category counters of a row. -/
def MachineStats.matched (r : MachineStats) : Nat :=
  r.available + r.inUse + r.outOfOrder + r.endOfCycle + r.almostDone

/-- An element of a machines array that is a record with a textual status. -/
def hasTextStatus : Option MachineObj → Bool
  | some { dorm := _, machine := _, type := _, status := .str _ } => true
  | _ => false

/-- A log in which every element of every machines array is a record with a textual
status. -/
def textualStatus (rt : Runtime) (lines : List String) : Bool :=
  lines.all (fun line =>
    match rt.jsonParse line with
    | some (.value _ (.array elems)) => elems.all hasTextStatus
    | _ => true)

/-- A record whose `dorm` and `machine` are texts. -/
def textualIds (mo : MachineObj) : Bool :=
  match mo.dorm, mo.machine with
  | .str _, .str _ => true
  | _, _ => false

/-! ## Specification side of machine analytics -/

/-- An entry time inside the window of a request: any time for `all time`, and for the
last seven days a time at most seven days before `now`. -/
def inWindow (week : Bool) (now t : Int) : Bool :=
  !week || decide (now - t ≤ weekMs)

/-- The machine records of a line that is an entry with a valid timestamp inside the
window. -/
def entryRecords (rt : Runtime) (week : Bool) (now : Int) (line : String) : List MachineObj :=
  match rt.jsonParse line with
  | some (.value ts (.array elems)) =>
    match newDate rt ts with
    | some t => if inWindow week now t then elems.filterMap id else []
    | none => []
  | _ => []

/-- The machine records of the log inside the window, in log order. -/
def windowRecords (rt : Runtime) (week : Bool) (now : Int) (lines : List String) :
    List MachineObj :=
  (lines.map (entryRecords rt week now)).flatten

/-- The in-window records of one machine: those whose location and machine id are the
ones of the pair. -/
def machineRecords (rt : Runtime) (week : Bool) (now : Int) (lines : List String)
    (dorm machine : JsVal) : List MachineObj :=
  (windowRecords rt week now lines).filter (fun mo => mo.dorm = dorm ∧ mo.machine = machine)

/-- The five category phrases, in the order they are tried. -/
def phrases : List String :=
  ["available", "in use", "out of order", "end of cycle", "almost done"]

/-- The first category phrase that is part of a lower-cased status, if any. -/
def firstPhrase (status : String) : Option String :=
  phrases.find? (fun p => includes status p)

/-- The first category phrase found in the lower-cased status of a record; none when
the status is not a text. -/
def matchedPhrase (rt : Runtime) (mo : MachineObj) : Option String :=
  match toLowerCaseOf rt mo.status with
  | some s => firstPhrase s
  | none => none

/-- Records among which the grouping key tells machines apart: two records with the same
key have the same location and the same machine id. -/
def SeparateKeys (recs : List MachineObj) : Prop :=
  ∀ a ∈ recs, ∀ b ∈ recs, machineKey a = machineKey b → a.dorm = b.dorm ∧ a.machine = b.machine

/-- The laws of a collation: comparing the other way round swaps the sign, and the order
is transitive. -/
structure Collation (rt : Runtime) : Prop where
  swap : ∀ a b, rt.localeCompare a b = .gt ↔ rt.localeCompare b a = .lt
  trans : ∀ a b c, rt.localeCompare a b ≠ .gt → rt.localeCompare b c ≠ .gt →
    rt.localeCompare a c ≠ .gt

/-- The order of two rows in a list sorted by location and then machine name. -/
def RowOrder (rt : Runtime) (a b : MachineStats) : Prop :=
  rt.localeCompare (toStr a.dorm) (toStr b.dorm) = .lt ∨
    (a.dorm = b.dorm ∧ rt.localeCompare (toStr a.machine) (toStr b.machine) ≠ .gt)

/-- A comparator that is consistent on the elements of a list: it never throws, an
element it puts before another is not put after it the other way round, and `not after`
is transitive. -/
structure Consistent {α : Type} (cmp : α → α → Option Ordering) (l : List α) : Prop where
  total : ∀ a ∈ l, ∀ b ∈ l, (cmp a b).isSome = true
  asymm : ∀ a ∈ l, ∀ b ∈ l, cmp a b = some .lt → cmp b a ≠ some .lt
  trans : ∀ a ∈ l, ∀ b ∈ l, ∀ c ∈ l, cmp b a ≠ some .lt → cmp c b ≠ some .lt →
    cmp c a ≠ some .lt

/-- What the language promises of `Array.prototype.sort`: the result holds the elements
of the array; the call returns when the comparator never throws on them; and under a
consistent comparator no element of the result is put by the comparator before one that
precedes it. -/
structure SortLaws (rt : Runtime) : Prop where
  perm : ∀ {α : Type} (cmp : α → α → Option Ordering) (l r : List α),
    rt.sort cmp l = some r → r.Perm l
  returns : ∀ {α : Type} (cmp : α → α → Option Ordering) (l : List α),
    (∀ a ∈ l, ∀ b ∈ l, (cmp a b).isSome = true) → (rt.sort cmp l).isSome = true
  sorted : ∀ {α : Type} (cmp : α → α → Option Ordering) (l r : List α),
    Consistent cmp l → rt.sort cmp l = some r → r.Pairwise (fun a b => cmp b a ≠ some .lt)

/-! ## Specification side of weekly times -/

/-- The bucket a line opens in weekly-times: the line parses to a value other than `null`
whose date is not before the start of the window. -/
def bucketOf (rt : Runtime) (minDate : Option Int) (line : String) : Option WeekKey :=
  match rt.jsonParse line with
  | some (.value ts _) =>
    if dateLt (newDate rt ts) minDate then none
    else some (dayShort rt (newDate rt ts), hourText rt (newDate rt ts))
  | _ => none

/-! ## Specification side of weekly averages -/

/-- An element of a machines array that is a record with textual `dorm`, `type` and
`status`. -/
def textualFields : Option MachineObj → Bool
  | some { dorm := .str _, machine := _, type := .str _, status := .str _ } => true
  | _ => false

/-- A line whose machines, when it has an array of them, have textual `dorm`, `type` and
`status`. -/
def textualLine (rt : Runtime) (line : String) : Bool :=
  match rt.jsonParse line with
  | some (.value _ (.array elems)) => elems.all textualFields
  | _ => true

/-- A log in which every element of every machines array has textual `dorm`, `type` and
`status`. -/
def textualLog (rt : Runtime) (lines : List String) : Bool :=
  lines.all (textualLine rt)

/-- Whether a record passes the three filters: each given filter equals the trimmed,
lower-cased text of the field. -/
def passesFilters (rt : Runtime) (f : Filters) : Option MachineObj → Bool
  | some { dorm := .str d, machine := _, type := .str t, status := .str s } =>
    passes (filterParam rt f.dorm) (rt.toLowerCase (rt.trim d))
      && passes (filterParam rt f.type) (rt.toLowerCase (rt.trim t))
      && passes (filterParam rt f.status) (rt.toLowerCase (rt.trim s))
  | _ => false

/-- The lower-cased status of a record with a textual status. -/
def lowerStatus (rt : Runtime) : Option MachineObj → String
  | some { dorm := _, machine := _, type := _, status := .str s } => rt.toLowerCase s
  | _ => ""

/-- The numbers of one entry: the filtered machines whose status contains `available`,
those whose status contains `in use` and not `available`, and all of them. -/
def entrySums (rt : Runtime) (filtered : List (Option MachineObj)) : Sums :=
  { available := (filtered.filter (fun m => includes (lowerStatus rt m) "available")).length,
    inUse := (filtered.filter (fun m =>
      !includes (lowerStatus rt m) "available" && includes (lowerStatus rt m) "in use")).length,
    total := filtered.length }

/-- The contribution of a line: its bucket and its numbers, when it opens a bucket and
its machine list is non-empty after filtering. -/
def contribution (rt : Runtime) (minDate : Option Int) (f : Filters) (line : String) :
    Option (WeekKey × Sums) :=
  match bucketOf rt minDate line with
  | none => none
  | some key =>
    match rt.jsonParse line with
    | some (.value _ (.array elems)) =>
      if (elems.filter (passesFilters rt f)).length > 0 then
        some (key, entrySums rt (elems.filter (passesFilters rt f)))
      else none
    | _ => none

/-- The numbers of the entries that contribute to a bucket, in log order. -/
def contributions (rt : Runtime) (minDate : Option Int) (f : Filters) (lines : List String)
    (key : WeekKey) : List Sums :=
  ((lines.filterMap (contribution rt minDate f)).filter (fun e => e.1 = key)).map (fun e => e.2)

/-- The sums of the numbers of a list of entries. -/
def totalsOf (cs : List Sums) : Sums :=
  { available := (cs.map (fun c => c.available)).sum,
    inUse := (cs.map (fun c => c.inUse)).sum,
    total := (cs.map (fun c => c.total)).sum }

/-! ## Snapshot cache and refresh -/

/-- The object `SNAPSHOT`; `machines` is `none` while it is `null`. -/
structure Snapshot where
  machines : Option MachinesVal
  lastUpdated : JsVal
  deriving DecidableEq, Repr

/-- The value of `SNAPSHOT` at process start. -/
def Snapshot.initial : Snapshot := { machines := none, lastUpdated := .null }

/-- The value `v || []` for the `machines` property. -/
def machinesOrEmpty : MachinesVal → MachinesVal
  | .notArray v => if truthy v then .notArray v else .array []
  | .array elems => .array elems

/-- The test `!SNAPSHOT.machines`. -/
def machinesFalsy : Option MachinesVal → Bool
  | none => true
  | some (.notArray v) => !truthy v
  | some (.array _) => false

/-- The function `readLastLogSnapshot` over the file (`none` when it does not exist): the
last non-empty line of the trimmed text is parsed; any exception gives `null`. -/
def readLastLogSnapshot (rt : Runtime) : Option String → Option Snapshot
  | none => none
  | some content =>
    let data := rt.trim content
    if data = "" then none
    else
      match (readLines data).getLast? with
      | none => none
      | some lastLine =>
        match rt.jsonParse lastLine with
        | none => none
        | some .nullLit => none
        | some (.value ts ms) => some { machines := some (machinesOrEmpty ms), lastUpdated := ts }

/-- Staleness threshold of the snapshot: 30 minutes in milliseconds. -/
def staleMs : Int := 30 * 60 * 1000

/-- The seeding step of a cached read: `if (!SNAPSHOT.machines)` the snapshot is taken
from `readLastLogSnapshot()` when that is not `null`. -/
def seedSnapshot (rt : Runtime) (store : Option String) (s : Snapshot) : Snapshot :=
  if machinesFalsy s.machines then
    match readLastLogSnapshot rt store with
    | some last => { machines := last.machines, lastUpdated := last.lastUpdated }
    | none => s
  else s

/-- The value `isStale`: true without a truthy `lastUpdated`, else
`Date.now() - new Date(lastUpdated).getTime() > 30 * 60 * 1000`, false for an Invalid
Date. -/
def isStale (rt : Runtime) (now : Int) (s : Snapshot) : Bool :=
  if truthy s.lastUpdated then
    match newDate rt s.lastUpdated with
    | some t => decide (now - t > staleMs)
    | none => false
  else true

/-- The body `{ machines: SNAPSHOT.machines || [], lastUpdated: SNAPSHOT.lastUpdated }`. -/
structure CachedResponse where
  machines : MachinesVal
  lastUpdated : JsVal
  deriving DecidableEq, Repr

/-- The response built from a snapshot. -/
def responseOf (s : Snapshot) : CachedResponse :=
  { machines :=
      match s.machines with
      | none => .array []
      | some m => machinesOrEmpty m,
    lastUpdated := s.lastUpdated }

/-- The handler of `GET /api/laundry?cached=1` and of `GET /api/laundry/snapshot` at the
instant `now`: the snapshot after the seeding step, whether `fetchAndLogLaundry()` is
launched in the background, and the response, which is sent without waiting for it. -/
def cachedRead (rt : Runtime) (now : Int) (store : Option String) (s : Snapshot) :
    Snapshot × Bool × CachedResponse :=
  let s1 := seedSnapshot rt store s
  (s1, isStale rt now s1, responseOf s1)

/-- The builtins that write an entry: `toISOString()` of a time value and
`JSON.stringify` of the entry with a timestamp text and its machines. -/
structure Codec where
  toISOString : Int → String
  stringifyEntry : String → List MachineObj → String

/-- What the outside world does during one refresh cycle: `locations` is `none` when
`getDormLinks()` throws, else one outcome per location in order, `none` when the fetch of
that location throws; `appendOk` tells whether `fs.appendFile` succeeds. -/
structure FetchOutcome where
  locations : Option (List (Option (List MachineObj)))
  appendOk : Bool

/-- One turn of the loop over the locations: `allMachines = allMachines.concat(machines)`,
or nothing when the fetch of the location throws and its `catch` logs the error. -/
def addLocation (all : List MachineObj) (o : Option (List MachineObj)) : List MachineObj :=
  match o with
  | some ms => all ++ ms
  | none => all

/-- The value of `allMachines` after the loop over the locations. -/
def allMachinesOf (outcomes : List (Option (List MachineObj))) : List MachineObj :=
  outcomes.foldl addLocation []

/-- The mutable state of the server: the snapshot and the log file. -/
structure ServerState where
  snapshot : Snapshot
  log : Option String

/-- The function `fetchAndLogLaundry` run to completion: `now` is the instant of the
entry, `pruneNow` the instant at which the append callback prunes.  It returns the new
state and the machines, or `null` (`none`) when the list of locations cannot be got. -/
def fetchAndLogLaundry (rt : Runtime) (cd : Codec) (now pruneNow : Int) (out : FetchOutcome)
    (st : ServerState) : ServerState × Option (List MachineObj) :=
  match out.locations with
  | none => (st, none)
  | some outcomes =>
    let allMachines := allMachinesOf outcomes
    let stamp := cd.toISOString now
    let line := cd.stringifyEntry stamp allMachines
    let log1 :=
      if out.appendOk then
        (pruneOldLogEntries rt pruneNow (some (st.log.getD "" ++ line ++ "\n"))).1
      else st.log
    ({ snapshot := { machines := some (.array (allMachines.map some)),
                     lastUpdated := .str stamp },
       log := log1 }, some allMachines)

/-- The response of the live `GET /api/laundry`. -/
inductive LiveResponse where
  | ok (machines : List MachineObj)
  | serverError
  deriving DecidableEq, Repr

/-- The live handler of `GET /api/laundry`: it awaits `fetchAndLogLaundry()` and answers
500 when the result is `null`. -/
def liveRead (rt : Runtime) (cd : Codec) (now pruneNow : Int) (out : FetchOutcome)
    (st : ServerState) : ServerState × LiveResponse :=
  match fetchAndLogLaundry rt cd now pruneNow out st with
  | (st1, some machines) => (st1, .ok machines)
  | (st1, none) => (st1, .serverError)

/-- The server between events: its state and the number of calls of
`fetchAndLogLaundry` that have been launched and have not completed. -/
structure System where
  state : ServerState
  inFlight : Nat

/-- The events of the server: the hourly timer fires, a cached read or a live read
arrives, a launched refresh completes. -/
inductive Event where
  | timerTick
  | cachedRead (now : Int)
  | liveRead
  | refreshDone (now pruneNow : Int) (out : FetchOutcome)

/-- One event.  The timer and the live read call `fetchAndLogLaundry()` unconditionally, a
cached read calls it when the snapshot is stale; no call looks at the calls in flight. -/
def step (rt : Runtime) (cd : Codec) (sys : System) : Event → System
  | .timerTick => { sys with inFlight := sys.inFlight + 1 }
  | .cachedRead now =>
    let r := cachedRead rt now sys.state.log sys.state.snapshot
    { state := { sys.state with snapshot := r.1 },
      inFlight := if r.2.1 then sys.inFlight + 1 else sys.inFlight }
  | .liveRead => { sys with inFlight := sys.inFlight + 1 }
  | .refreshDone now pruneNow out =>
    if sys.inFlight = 0 then sys
    else
      { state := (fetchAndLogLaundry rt cd now pruneNow out sys.state).1,
        inFlight := sys.inFlight - 1 }

/-- A run of events. -/
def run (rt : Runtime) (cd : Codec) (sys : System) (events : List Event) : System :=
  events.foldl (step rt cd) sys

/-- The server right after `app.listen`: an empty snapshot and the first
`fetchAndLogLaundry()` launched. -/
def System.start (log : Option String) : System :=
  { state := { snapshot := Snapshot.initial, log := log }, inFlight := 1 }

/-! ## A concrete runtime and sample log lines -/

/-- Sample line: an entry of Monday 2024-01-01 08:00 UTC. -/
def lineMon8 : String :=
  "\x7b\"timestamp\":\"2024-01-01T08:00:00.000Z\",\"machines\":[\x7b\"dorm\":\"A\",\"machine\":\"W1\",\"type\":\"Washer\",\"status\":\"Available\"\x7d,\x7b\"dorm\":\"A\",\"machine\":\"D1\",\"type\":\"Dryer\",\"status\":\"In Use\"\x7d]\x7d"

/-- Sample line: an entry of Sunday 2023-12-31 08:00 UTC. -/
def lineSun8 : String :=
  "\x7b\"timestamp\":\"2023-12-31T08:00:00.000Z\",\"machines\":[\x7b\"dorm\":\"A\",\"machine\":\"W1\",\"type\":\"Washer\",\"status\":\"Available\"\x7d]\x7d"

/-- Sample line: an entry of Wednesday 2023-11-01 08:00 UTC. -/
def lineOld : String :=
  "\x7b\"timestamp\":\"2023-11-01T08:00:00.000Z\",\"machines\":[\x7b\"dorm\":\"A\",\"machine\":\"W1\",\"type\":\"Washer\",\"status\":\"Unavailable\"\x7d]\x7d"

/-- Sample line: valid JSON without `timestamp`. -/
def lineNoTimestamp : String :=
  "\x7b\"machines\":[\x7b\"dorm\":\"A\",\"machine\":\"W1\",\"type\":\"Washer\",\"status\":\"Available\"\x7d]\x7d"

/-- Sample line: an entry whose first machine has no `status`. -/
def lineNoStatus : String :=
  "\x7b\"timestamp\":\"2024-01-01T08:00:00.000Z\",\"machines\":[\x7b\"dorm\":\"A\",\"machine\":\"W2\",\"type\":\"Washer\"\x7d,\x7b\"dorm\":\"A\",\"machine\":\"W1\",\"type\":\"Washer\",\"status\":\"Idle\"\x7d]\x7d"

/-- Sample line: an entry with no machines, as written when every location fetch failed. -/
def lineEmpty : String :=
  "\x7b\"timestamp\":\"2024-01-01T08:00:00.000Z\",\"machines\":[]\x7d"

/-- Sample line: an entry with two machines whose names contain the separator of the grouping key. -/
def lineSeparator : String :=
  "\x7b\"timestamp\":\"2024-01-01T08:00:00.000Z\",\"machines\":[\x7b\"dorm\":\"a__b\",\"machine\":\"c\",\"type\":\"Washer\",\"status\":\"Available\"\x7d,\x7b\"dorm\":\"a\",\"machine\":\"b__c\",\"type\":\"Dryer\",\"status\":\"In Use\"\x7d]\x7d"

/-- Sample line: a line cut short by a crash: not valid JSON. -/
def lineTruncated : String :=
  "\x7b\"timestamp\":\"2024-01-01T09:00:00.000Z\",\"machines\":[\x7b\"dorm\":"

/-- Sample line: a second entry of Monday 2024-01-01, at 08:30 UTC, with two available washers. -/
def lineMon830 : String :=
  "\x7b\"timestamp\":\"2024-01-01T08:30:00.000Z\",\"machines\":[\x7b\"dorm\":\"A\",\"machine\":\"W1\",\"type\":\"Washer\",\"status\":\"Available\"\x7d,\x7b\"dorm\":\"A\",\"machine\":\"W2\",\"type\":\"Washer\",\"status\":\"Available\"\x7d]\x7d"

/-- Sample line: an entry of Sunday 2023-12-31 08:30 UTC. -/
def lineSun830 : String :=
  "\x7b\"timestamp\":\"2023-12-31T08:30:00.000Z\",\"machines\":[\x7b\"dorm\":\"A\",\"machine\":\"W1\",\"type\":\"Washer\",\"status\":\"Available\"\x7d]\x7d"

/-- Sample line: an entry of Sunday 2023-12-31 09:00 UTC, one hour after `lineSun8`. -/
def lineSun9 : String :=
  "\x7b\"timestamp\":\"2023-12-31T09:00:00.000Z\",\"machines\":[\x7b\"dorm\":\"A\",\"machine\":\"W1\",\"type\":\"Washer\",\"status\":\"Available\"\x7d]\x7d"

/-- Sample line: an entry whose second machine has no `status`. -/
def linePartial : String :=
  "\x7b\"timestamp\":\"2024-01-01T08:00:00.000Z\",\"machines\":[\x7b\"dorm\":\"A\",\"machine\":\"W1\",\"type\":\"Washer\",\"status\":\"Available\"\x7d,\x7b\"dorm\":\"A\",\"machine\":\"W2\",\"type\":\"Washer\"\x7d,\x7b\"dorm\":\"A\",\"machine\":\"W3\",\"type\":\"Washer\",\"status\":\"In Use\"\x7d]\x7d"

/-- Sample line: the entry written by the sample refresh at 2024-01-02 00:00 UTC. -/
def lineRefresh : String :=
  "\x7b\"timestamp\":\"2024-01-02T00:00:00.000Z\",\"machines\":[\x7b\"dorm\":\"A\",\"machine\":\"W1\",\"type\":\"Washer\",\"status\":\"Available\"\x7d]\x7d"

/-- Sample line: an entry in which the machine `b__c` of `a`, whose key is the key of
machine `c` of `a__b`, has a status with none of the category phrases. -/
def lineSeparatorIdle : String :=
  "\x7b\"timestamp\":\"2024-01-01T08:00:00.000Z\",\"machines\":[\x7b\"dorm\":\"a__b\",\"machine\":\"c\",\"type\":\"Washer\",\"status\":\"Available\"\x7d,\x7b\"dorm\":\"a\",\"machine\":\"b__c\",\"type\":\"Dryer\",\"status\":\"Idle\"\x7d]\x7d"

/-- Sample line: an entry with three machines of one location whose name is spelt with
the single letter `U+00E9` in the first and third record and with `e` followed by the
combining accent `U+0301` in the second. -/
def lineSpellings : String :=
  "\x7b\"timestamp\":\"2024-01-01T08:00:00.000Z\",\"machines\":[\x7b\"dorm\":\"\u00e9\",\"machine\":\"b\",\"type\":\"Washer\",\"status\":\"Available\"\x7d,\x7b\"dorm\":\"e\u0301\",\"machine\":\"a\",\"type\":\"Washer\",\"status\":\"Available\"\x7d,\x7b\"dorm\":\"\u00e9\",\"machine\":\"a\",\"type\":\"Washer\",\"status\":\"Available\"\x7d]\x7d"

/-- A textual machine record. -/
def textMachine (d k t s : String) : Option MachineObj :=
  some { dorm := .str d, machine := .str k, type := .str t, status := .str s }

/-- The value of `JSON.parse` on the sample lines; a `SyntaxError` on `lineTruncated`.
Other texts are not tabulated and read as unparseable. -/
def sampleParse (line : String) : Option Parsed :=
  if line = lineMon8 then
    some (.value (.str "2024-01-01T08:00:00.000Z")
      (.array [textMachine "A" "W1" "Washer" "Available", textMachine "A" "D1" "Dryer" "In Use"]))
  else if line = lineSun8 then
    some (.value (.str "2023-12-31T08:00:00.000Z")
      (.array [textMachine "A" "W1" "Washer" "Available"]))
  else if line = lineOld then
    some (.value (.str "2023-11-01T08:00:00.000Z")
      (.array [textMachine "A" "W1" "Washer" "Unavailable"]))
  else if line = lineNoTimestamp then
    some (.value .undefined (.array [textMachine "A" "W1" "Washer" "Available"]))
  else if line = lineNoStatus then
    some (.value (.str "2024-01-01T08:00:00.000Z")
      (.array [some { dorm := .str "A", machine := .str "W2", type := .str "Washer",
                      status := .undefined },
               textMachine "A" "W1" "Washer" "Idle"]))
  else if line = lineEmpty then
    some (.value (.str "2024-01-01T08:00:00.000Z") (.array []))
  else if line = lineSeparator then
    some (.value (.str "2024-01-01T08:00:00.000Z")
      (.array [textMachine "a__b" "c" "Washer" "Available",
               textMachine "a" "b__c" "Dryer" "In Use"]))
  else if line = lineMon830 then
    some (.value (.str "2024-01-01T08:30:00.000Z")
      (.array [textMachine "A" "W1" "Washer" "Available",
               textMachine "A" "W2" "Washer" "Available"]))
  else if line = lineSun830 then
    some (.value (.str "2023-12-31T08:30:00.000Z")
      (.array [textMachine "A" "W1" "Washer" "Available"]))
  else if line = lineSun9 then
    some (.value (.str "2023-12-31T09:00:00.000Z")
      (.array [textMachine "A" "W1" "Washer" "Available"]))
  else if line = linePartial then
    some (.value (.str "2024-01-01T08:00:00.000Z")
      (.array [textMachine "A" "W1" "Washer" "Available",
               some { dorm := .str "A", machine := .str "W2", type := .str "Washer",
                      status := .undefined },
               textMachine "A" "W3" "Washer" "In Use"]))
  else if line = lineRefresh then
    some (.value (.str "2024-01-02T00:00:00.000Z")
      (.array [textMachine "A" "W1" "Washer" "Available"]))
  else if line = lineSeparatorIdle then
    some (.value (.str "2024-01-01T08:00:00.000Z")
      (.array [textMachine "a__b" "c" "Washer" "Available",
               textMachine "a" "b__c" "Dryer" "Idle"]))
  else if line = lineSpellings then
    some (.value (.str "2024-01-01T08:00:00.000Z")
      (.array [textMachine "\u00e9" "b" "Washer" "Available",
               textMachine "e\u0301" "a" "Washer" "Available",
               textMachine "\u00e9" "a" "Washer" "Available"]))
  else none

/-- The value of `Date.parse` on the timestamps of the sample lines, in milliseconds. -/
def sampleDateParse (s : String) : Option Int :=
  if s = "2024-01-01T08:00:00.000Z" then some 1704096000000
  else if s = "2023-12-31T08:00:00.000Z" then some 1704009600000
  else if s = "2023-11-01T08:00:00.000Z" then some 1698825600000
  else if s = "2024-01-01T08:30:00.000Z" then some 1704097800000
  else if s = "2023-12-31T08:30:00.000Z" then some 1704011400000
  else if s = "2023-12-31T09:00:00.000Z" then some 1704013200000
  else if s = "2024-01-02T00:00:00.000Z" then some 1704153600000
  else none

/-- The instant 2024-01-02 00:00 UTC, used as `Date.now()` in the examples. -/
def sampleNow : Int := 1704153600000

/-- Weekday of a time value on a clock set to UTC; 1970-01-01 was a Thursday. -/
def utcDay (t : Int) : Fin 7 := Fin.ofNat ((t / 86400000 + 4) % 7).toNat

/-- Hour of a time value on a clock set to UTC. -/
def utcHour (t : Int) : Fin 24 := Fin.ofNat ((t / 3600000) % 24).toNat

/-- Lower-casing of ASCII letters. -/
def asciiLower (s : String) : String := String.mk (s.toList.map Char.toLower)

/-- Removal of leading and trailing white space. -/
def asciiTrim (s : String) : String :=
  String.mk ((s.toList.dropWhile Char.isWhitespace).reverse.dropWhile Char.isWhitespace).reverse

/-- How far the run at the start of an array extends in the sort of V8: the number of
further elements taken, each compared with the one before it as `cmp current previous`;
a descending run goes on while the result is negative, an ascending one while it is not. -/
def countRun {α : Type} (cmp : α → α → Option Ordering) (descending : Bool) :
    α → List α → Option Nat
  | _, [] => some 0
  | previous, current :: rest =>
    match cmp current previous with
    | none => none
    | some o =>
      if descending = decide (o = .lt) then
        match countRun cmp descending current rest with
        | none => none
        | some n => some (n + 1)
      else some 0

/-- The step `CountAndMakeRun` of the sort of V8: the run at the start of the array, put
in ascending order, and the elements after it.  The first comparison is
`cmp second first`; a negative result makes the run a descending one. -/
def countAndMakeRun {α : Type} (cmp : α → α → Option Ordering) :
    List α → Option (List α × List α)
  | [] => some ([], [])
  | [a] => some ([a], [])
  | a :: b :: rest =>
    match cmp b a with
    | none => none
    | some o =>
      match countRun cmp (decide (o = .lt)) b rest with
      | none => none
      | some n =>
        some (if o = .lt then (a :: b :: rest.take n).reverse else a :: b :: rest.take n,
          rest.drop n)

/-- The binary search of `BinaryInsertionSort` for the place of `pivot` in the sorted
part, between `left` and `right`: `cmp pivot sorted[mid]` negative moves `right` to `mid`,
any other result moves `left` past `mid`.  The first argument bounds the number of
steps. -/
def searchPlace {α : Type} (cmp : α → α → Option Ordering) (pivot : α) (sorted : List α) :
    Nat → Nat → Nat → Option Nat
  | 0, left, _ => some left
  | steps + 1, left, right =>
    if left < right then
      match sorted.get? (left + (right - left) / 2) with
      | none => some left
      | some x =>
        match cmp pivot x with
        | none => none
        | some .lt => searchPlace cmp pivot sorted steps left (left + (right - left) / 2)
        | some _ => searchPlace cmp pivot sorted steps (left + (right - left) / 2 + 1) right
    else some left

/-- One round of `BinaryInsertionSort`: the pivot is put at the place found. -/
def binaryInsert {α : Type} (cmp : α → α → Option Ordering) (sorted : List α) (pivot : α) :
    Option (List α) :=
  match searchPlace cmp pivot sorted sorted.length 0 sorted.length with
  | none => none
  | some place => some (sorted.take place ++ pivot :: sorted.drop place)

/-- The rounds of `BinaryInsertionSort` over the elements after the sorted part. -/
def insertRest {α : Type} (cmp : α → α → Option Ordering) : List α → List α → Option (List α)
  | sorted, [] => some sorted
  | sorted, pivot :: rest =>
    match binaryInsert cmp sorted pivot with
    | none => none
    | some next => insertRest cmp next rest

/-- The sort of V8 on an array of fewer than 64 elements: the run at the start, then
binary insertion of the other elements; an exception of the comparator ends it. -/
def shortSort {α : Type} (cmp : α → α → Option Ordering) (l : List α) : Option (List α) :=
  match countAndMakeRun cmp l with
  | none => none
  | some (run, rest) => insertRest cmp run rest

/-- A runtime on a UTC clock with ASCII case mapping, code-point collation and the sort of
V8 for short arrays. -/
def sampleRuntime : Runtime :=
  { jsonParse := sampleParse
    dateParse := sampleDateParse
    localDay := utcDay
    localHour := utcHour
    toLowerCase := asciiLower
    trim := asciiTrim
    localeCompare := fun a b => compare a b
    sort := shortSort }

/-- The letter `U+00E9` put for every `e` followed by the combining accent `U+0301`: the
composed form of the texts of the examples. -/
def composeAcute : List Char → List Char
  | [] => []
  | [c] => [c]
  | c :: d :: rest =>
    if c = Char.ofNat 0x65 ∧ d = Char.ofNat 0x301 then Char.ofNat 0xe9 :: composeAcute rest
    else c :: composeAcute (d :: rest)

/-- The sample runtime with a collation that, like `localeCompare`, compares texts up to
canonical equivalence: the two spellings of `lineSpellings` compare equal. -/
def canonRuntime : Runtime :=
  { jsonParse := sampleParse
    dateParse := sampleDateParse
    localDay := utcDay
    localHour := utcHour
    toLowerCase := asciiLower
    trim := asciiTrim
    localeCompare := fun a b =>
      compare (String.mk (composeAcute a.toList)) (String.mk (composeAcute b.toList))
    sort := shortSort }

/-- A request without query parameters. -/
def noFilters : Filters := { dorm := none, type := none, status := none }

/-- A store holding an expired entry, a fresh one, a truncated line and an entry without
timestamp, with a blank line in between. -/
def sampleStore : Option String :=
  some (lineOld ++ "\n" ++ lineMon8 ++ "\n\n" ++ lineTruncated ++ "\n" ++ lineNoTimestamp ++ "\n")

/-- The text of `toISOString()` for the sample instant; other instants are not tabulated. -/
def sampleISO (t : Int) : String :=
  if t = 1704153600000 then "2024-01-02T00:00:00.000Z" else ""

/-- The JSON text of a textual value. -/
def sampleQuote : JsVal → String
  | .str s => "\"" ++ s ++ "\""
  | _ => "null"

/-- The JSON text of a machine record through its four properties. -/
def sampleMachineText (mo : MachineObj) : String :=
  "\x7b\"dorm\":" ++ sampleQuote mo.dorm ++ ",\"machine\":" ++ sampleQuote mo.machine
    ++ ",\"type\":" ++ sampleQuote mo.type ++ ",\"status\":" ++ sampleQuote mo.status ++ "\x7d"

/-- The JSON text of an entry. -/
def sampleStringify (stamp : String) (machines : List MachineObj) : String :=
  "\x7b\"timestamp\":\"" ++ stamp ++ "\",\"machines\":["
    ++ ",".intercalate (machines.map sampleMachineText) ++ "]\x7d"

/-- A codec for the sample runtime. -/
def sampleCodec : Codec :=
  { toISOString := sampleISO, stringifyEntry := sampleStringify }

/-- A store whose last line was cut short after a valid entry. -/
def storeTruncatedLast : Option String :=
  some (lineMon8 ++ "\n" ++ lineTruncated ++ "\n")

/-- A refresh cycle in which the first location answers with one available washer and
the second location cannot be fetched; the append succeeds. -/
def sampleOutcome : FetchOutcome :=
  { locations := some [some [{ dorm := .str "A", machine := .str "W1", type := .str "Washer",
                               status := .str "Available" }], none],
    appendOk := true }

/-- A refresh cycle in which the list of locations cannot be got. -/
def failedOutcome : FetchOutcome := { locations := none, appendOk := true }

/-! ## Tables -/

section TableLemmas
variable {κ β : Type} [DecidableEq κ]

theorem Table.get?_ensure (key k : κ) (b : β) (t : Table κ β) :
    Table.get? k (Table.ensure key b t)
      = if k = key then some ((Table.get? key t).getD b) else Table.get? k t := by
  induction t with
  | nil =>
    by_cases h : k = key
    · subst h; simp [Table.ensure, Table.get?]
    · have h2 : ¬ key = k := fun e => h e.symm
      simp [Table.ensure, Table.get?, h, h2]
  | cons e rest ih =>
    obtain ⟨k0, v0⟩ := e
    by_cases h0 : k0 = key
    · subst h0
      by_cases h : k = k0
      · subst h; simp [Table.ensure, Table.get?]
      · have h2 : ¬ k0 = k := fun e => h e.symm
        simp [Table.ensure, Table.get?, h, h2]
    · by_cases h : k = key
      · subst h
        simp [Table.ensure, Table.get?, h0, ih]
      · by_cases h3 : k0 = k
        · simp [Table.ensure, Table.get?, h0, h3, h]
        · simp [Table.ensure, Table.get?, h0, h3, h, ih]

theorem Table.get?_modify (key k : κ) (f : β → β) (t : Table κ β) :
    Table.get? k (Table.modify key f t)
      = if k = key then (Table.get? key t).map f else Table.get? k t := by
  induction t with
  | nil => simp [Table.modify, Table.get?]
  | cons e rest ih =>
    obtain ⟨k0, v0⟩ := e
    by_cases h0 : k0 = key
    · subst h0
      by_cases h : k = k0
      · subst h; simp [Table.modify, Table.get?]
      · have h2 : ¬ k0 = k := fun e => h e.symm
        simp [Table.modify, Table.get?, h, h2]
    · by_cases h : k = key
      · subst h
        simp [Table.modify, Table.get?, h0, ih]
      · by_cases h3 : k0 = k
        · simp [Table.modify, Table.get?, h0, h3, h]
        · simp [Table.modify, Table.get?, h0, h3, h, ih]

theorem Table.keys_modify (key : κ) (f : β → β) (t : Table κ β) :
    (Table.modify key f t).map Prod.fst = t.map Prod.fst := by
  induction t with
  | nil => rfl
  | cons e rest ih =>
    obtain ⟨k0, v0⟩ := e
    by_cases h0 : k0 = key
    · simp [Table.modify, h0]
    · simp [Table.modify, h0, ih]

theorem Table.keys_ensure (key : κ) (b : β) (t : Table κ β) :
    (Table.ensure key b t).map Prod.fst
      = if key ∈ t.map Prod.fst then t.map Prod.fst else t.map Prod.fst ++ [key] := by
  induction t with
  | nil => simp [Table.ensure]
  | cons e rest ih =>
    obtain ⟨k0, v0⟩ := e
    by_cases h0 : k0 = key
    · simp [Table.ensure, h0]
    · have h1 : ¬ key = k0 := fun e => h0 e.symm
      simp only [Table.ensure, h0, if_false, List.map_cons, ih, List.mem_cons, h1, false_or]
      split <;> simp

theorem Table.get?_eq_none (k : κ) (t : Table κ β) :
    Table.get? k t = none ↔ k ∉ t.map Prod.fst := by
  induction t with
  | nil => simp [Table.get?]
  | cons e rest ih =>
    obtain ⟨k0, v0⟩ := e
    by_cases h0 : k0 = k
    · simp [Table.get?, h0]
    · have h1 : ¬ k = k0 := fun e => h0 e.symm
      simp [Table.get?, h0, h1, ih]

theorem Table.mem_of_get? (k : κ) (v : β) (t : Table κ β) (h : Table.get? k t = some v) :
    (k, v) ∈ t := by
  induction t with
  | nil => simp [Table.get?] at h
  | cons e rest ih =>
    obtain ⟨k0, v0⟩ := e
    by_cases h0 : k0 = k
    · simp [Table.get?, h0] at h
      simp [h0, h]
    · simp only [Table.get?, h0, if_false] at h
      exact List.mem_cons_of_mem _ (ih h)

theorem Table.get?_of_mem (k : κ) (v : β) (t : Table κ β) (hnd : (t.map Prod.fst).Nodup)
    (h : (k, v) ∈ t) : Table.get? k t = some v := by
  induction t with
  | nil => simp at h
  | cons e rest ih =>
    obtain ⟨k0, v0⟩ := e
    rw [List.map_cons, List.nodup_cons] at hnd
    rcases List.mem_cons.mp h with h | h
    · cases h
      simp [Table.get?]
    · have hk : k ∈ rest.map Prod.fst := List.mem_map.mpr ⟨(k, v), h, rfl⟩
      have h0 : ¬ k0 = k := fun e => hnd.1 (e ▸ hk)
      simp only [Table.get?, h0, if_false]
      exact ih hnd.2 h

theorem Table.nodup_ensure (key : κ) (b : β) (t : Table κ β) (h : (t.map Prod.fst).Nodup) :
    ((Table.ensure key b t).map Prod.fst).Nodup := by
  rw [Table.keys_ensure]
  split
  · exact h
  · rename_i hk
    exact List.Nodup.append h (List.nodup_singleton _) (by simpa using hk)

end TableLemmas
/-! ## Lemmas on the log store -/

theorem not_mem_of_mem_splitOn (a : Char) (xs l : List Char) (h : l ∈ xs.splitOn a) :
    a ∉ l := by
  induction xs generalizing l with
  | nil =>
    simp [List.splitOn_nil] at h
    simp [h]
  | cons x xs ih =>
    unfold List.splitOn at h ih
    rw [List.splitOnP_cons] at h
    by_cases hx : (x == a) = true
    · simp only [hx, if_true, List.mem_cons] at h
      rcases h with h | h
      · simp [h]
      · exact ih l h
    · simp only [hx] at h
      have hne := List.splitOnP_ne_nil (fun c => c == a) xs
      cases hs : List.splitOnP (fun c => c == a) xs with
      | nil => exact absurd hs hne
      | cons y ys =>
        rw [hs] at h ih
        simp only [Bool.false_eq_true, if_false, List.modifyHead, List.mem_cons] at h
        rcases h with h | h
        · subst h
          have hy := ih y (by simp)
          intro hmem
          rcases List.mem_cons.mp hmem with hax | hay
          · exact hx (by simp [hax])
          · exact hy hay
        · exact ih l (by simp [h])

theorem intercalate_append_nil (sep : List Char) (ks : List (List Char)) (h : ks ≠ []) :
    sep.intercalate (ks ++ [[]]) = sep.intercalate ks ++ sep := by
  induction ks with
  | nil => exact absurd rfl h
  | cons k ks ih =>
    cases ks with
    | nil => simp [List.intercalate, List.intersperse]
    | cons k2 ks2 =>
      have := ih (by simp)
      simp only [List.intercalate, List.cons_append, List.intersperse, List.flatten_cons,
        List.append_assoc, List.append_eq] at this ⊢
      rw [this]

theorem mem_readLines (content l : String) (h : l ∈ readLines content) :
    l ≠ "" ∧ '\n' ∉ l.toList := by
  unfold readLines at h
  rw [List.mem_filter, List.mem_map] at h
  obtain ⟨⟨cs, hcs, rfl⟩, hne⟩ := h
  exact ⟨by simpa using hne, not_mem_of_mem_splitOn '\n' _ cs hcs⟩

/-- Reading back what pruning writes gives the kept lines. -/
theorem readLines_joinLines (kept : List String)
    (h : ∀ l ∈ kept, l ≠ "" ∧ '\n' ∉ l.toList) : readLines (joinLines kept) = kept := by
  cases kept with
  | nil => decide
  | cons k ks =>
    have hne : (k :: ks).map String.toList ≠ [] := by simp
    have hsplit : ((joinLines (k :: ks)).toList).splitOn '\n'
        = (k :: ks).map String.toList ++ [[]] := by
      have h1 : (joinLines (k :: ks)).toList
          = ['\n'].intercalate ((k :: ks).map String.toList ++ [[]]) := by
        rw [intercalate_append_nil _ _ hne]
        simp [joinLines]
      rw [h1]
      apply List.splitOn_intercalate
      · intro l hl
        rcases List.mem_append.mp hl with hl | hl
        · obtain ⟨s, hs, rfl⟩ := List.mem_map.mp hl
          exact (h s hs).2
        · simp at hl
          simp [hl]
      · simp
    unfold readLines
    rw [hsplit, List.map_append, List.filter_append]
    have h2 : ∀ l : List String, (l.map String.toList).map String.mk = l := by
      intro l
      induction l with
      | nil => rfl
      | cons a l ih => simpa using ih
    rw [h2]
    have h3 : (k :: ks).filter (fun l => decide (l ≠ "")) = k :: ks :=
      List.filter_eq_self.mpr (fun l hl => by simpa using (h l hl).1)
    rw [h3]
    simp

/-! ## Best times: the scan as a tally of sightings -/

theorem bestTimes_forEach_state (rt : Runtime) (key : String) (stats : Table String Nat)
    (elems : List (Option MachineObj)) :
    (forEachTry (bestTimesMachine rt key) stats elems).state
      = tally (List.replicate (availableHits rt elems) key) stats := by
  induction elems generalizing stats with
  | nil => rfl
  | cons m rest ih =>
    cases m with
    | none => rfl
    | some mo =>
      cases hs : toLowerCaseOf rt mo.status with
      | none => simp [forEachTry, bestTimesMachine, availableHits, hs, Outcome.state, tally]
      | some s =>
        by_cases ha : s = "available"
        · simp only [forEachTry, bestTimesMachine, availableHits, hs, ha, if_true]
          rw [ih]
          simp [tally, Nat.add_comm 1, List.replicate_succ]
        · simp only [forEachTry, bestTimesMachine, availableHits, hs, ha, if_false]
          rw [ih]
          simp

theorem bestTimesLine_eq_tally (rt : Runtime) (stats : Table String Nat) (line : String) :
    bestTimesLine rt stats line = tally (lineSightings rt line) stats := by
  unfold bestTimesLine lineSightings
  cases hp : rt.jsonParse line with
  | none => rfl
  | some e =>
    cases e with
    | nullLit => rfl
    | value ts ms =>
      cases ms with
      | notArray v => rfl
      | array elems => exact bestTimes_forEach_state rt _ stats elems

theorem tally_append (ks1 ks2 : List String) (stats : Table String Nat) :
    tally (ks1 ++ ks2) stats = tally ks2 (tally ks1 stats) := by
  simp [tally, List.foldl_append]

theorem foldl_bestTimesLine (rt : Runtime) (lines : List String) (stats : Table String Nat) :
    lines.foldl (bestTimesLine rt) stats = tally (sightings rt lines) stats := by
  induction lines generalizing stats with
  | nil => rfl
  | cons l rest ih =>
    rw [List.foldl_cons, ih, bestTimesLine_eq_tally]
    simp [sightings, tally_append]

theorem hourStatsOf_eq_tally (rt : Runtime) (lines : List String) :
    hourStatsOf rt lines = tally (sightings rt lines) [] :=
  foldl_bestTimesLine rt lines []

theorem keys_bump (key : String) (t : Table String Nat) :
    (bump key t).map Prod.fst
      = if key ∈ t.map Prod.fst then t.map Prod.fst else t.map Prod.fst ++ [key] := by
  unfold bump
  rw [Table.keys_modify, Table.keys_ensure]

theorem get?_bump (key k : String) (t : Table String Nat) :
    Table.get? k (bump key t)
      = if k = key then some ((Table.get? key t).getD 0 + 1) else Table.get? k t := by
  unfold bump
  rw [Table.get?_modify, Table.get?_ensure]
  by_cases h : k = key
  · simp [h, Table.get?_ensure]
  · simp [h, Table.get?_ensure]

theorem tally_snoc (ks : List String) (k : String) :
    tally (ks ++ [k]) [] = bump k (tally ks []) := by
  simp [tally, List.foldl_append]

/-- The keys of a tally are the keys seen, once each, in order of first sighting. -/
theorem tally_keys (ks : List String) :
    ((tally ks []).map Prod.fst).Nodup ∧
    (∀ k, k ∈ (tally ks []).map Prod.fst ↔ k ∈ ks) ∧
    ((tally ks []).map Prod.fst).Pairwise (fun a b => ks.indexOf a < ks.indexOf b) := by
  induction ks using List.reverseRecOn with
  | nil => simp [tally]
  | append_singleton ks k ih =>
    obtain ⟨hnd, hmem, hord⟩ := ih
    rw [tally_snoc, keys_bump]
    by_cases hk : k ∈ (tally ks []).map Prod.fst
    · rw [if_pos hk]
      refine ⟨hnd, ?_, ?_⟩
      · intro x
        rw [hmem, List.mem_append, List.mem_singleton]
        constructor
        · exact fun h => Or.inl h
        · rintro (h | h)
          · exact h
          · exact h ▸ (hmem k).mp hk
      · refine hord.imp_of_mem ?_
        intro a b ha hb hab
        rw [List.indexOf_append_of_mem ((hmem a).mp ha),
          List.indexOf_append_of_mem ((hmem b).mp hb)]
        exact hab
    · rw [if_neg hk]
      have hk2 : k ∉ ks := fun h => hk ((hmem k).mpr h)
      refine ⟨List.Nodup.append hnd (List.nodup_singleton _) (by simpa using hk), ?_, ?_⟩
      · intro x
        simp only [List.mem_append, List.mem_singleton, hmem]
      · rw [List.pairwise_append]
        refine ⟨?_, List.pairwise_singleton _ _, ?_⟩
        · refine hord.imp_of_mem ?_
          intro a b ha hb hab
          rw [List.indexOf_append_of_mem ((hmem a).mp ha),
            List.indexOf_append_of_mem ((hmem b).mp hb)]
          exact hab
        · intro a ha b hb
          rw [List.mem_singleton] at hb
          subst hb
          rw [List.indexOf_append_of_mem ((hmem a).mp ha),
            List.indexOf_append_of_not_mem hk2]
          have := List.indexOf_lt_length.mpr ((hmem a).mp ha)
          simp
          omega

/-- The count of a key in a tally is the number of its sightings. -/
theorem tally_get? (ks : List String) (k : String) :
    Table.get? k (tally ks []) = if ks.count k = 0 then none else some (ks.count k) := by
  induction ks using List.reverseRecOn with
  | nil => simp [tally, Table.get?]
  | append_singleton ks x ih =>
    rw [tally_snoc, get?_bump, List.count_append]
    by_cases h : k = x
    · subst h
      rw [ih]
      by_cases hc : List.count k ks = 0
      · simp [hc]
      · simp [hc]
    · have h2 : ¬ x = k := fun e => h e.symm
      rw [if_neg h, ih]
      simp [List.count_cons, h2]


/-! ## Stable sorting -/

theorem orderedInsert_stable {α : Type} (r : α → α → Prop) [DecidableRel r]
    (S : α → α → Prop) (htot : ∀ a b, r a b ∨ r b a) (htr : ∀ a b c, r a b → r b c → r a c)
    (a : α) (l : List α) (hl : l.Pairwise (fun x y => r x y ∧ (r y x → S x y)))
    (ha : ∀ b ∈ l, S a b) :
    (l.orderedInsert r a).Pairwise (fun x y => r x y ∧ (r y x → S x y)) := by
  induction l with
  | nil => simp
  | cons b l ih =>
    rw [List.pairwise_cons] at hl
    by_cases hab : r a b
    · rw [List.orderedInsert, if_pos hab, List.pairwise_cons]
      refine ⟨?_, List.pairwise_cons.mpr hl⟩
      intro x hx
      rcases List.mem_cons.mp hx with hx | hx
      · subst hx
        exact ⟨hab, fun _ => ha x (List.mem_cons_self _ _)⟩
      · exact ⟨htr a b x hab (hl.1 x hx).1, fun _ => ha x (List.mem_cons_of_mem _ hx)⟩
    · rw [List.orderedInsert, if_neg hab, List.pairwise_cons]
      refine ⟨?_, ih hl.2 (fun x hx => ha x (List.mem_cons_of_mem _ hx))⟩
      intro x hx
      rcases (List.mem_orderedInsert r).mp hx with hx | hx
      · subst hx
        exact ⟨(htot x b).resolve_left hab, fun h => absurd h hab⟩
      · exact hl.1 x hx

/-- Sorting by insertion is stable: elements the relation does not separate keep the
order `S` they had. -/
theorem insertionSort_stable {α : Type} (r : α → α → Prop) [DecidableRel r]
    (S : α → α → Prop) (htot : ∀ a b, r a b ∨ r b a) (htr : ∀ a b c, r a b → r b c → r a c)
    (l : List α) (hl : l.Pairwise S) :
    (l.insertionSort r).Pairwise (fun x y => r x y ∧ (r y x → S x y)) := by
  induction l with
  | nil => simp
  | cons a l ih =>
    rw [List.pairwise_cons] at hl
    rw [List.insertionSort]
    apply orderedInsert_stable r S htot htr a _ (ih hl.2)
    intro b hb
    exact hl.1 b ((List.mem_insertionSort r).mp hb)

theorem bestTimes_eq (rt : Runtime) (lines : List String) :
    bestTimes rt lines
      = ((tally (sightings rt lines) []).insertionSort
          (fun a b => (b.2 : Int) - (a.2 : Int) ≤ 0)).map
          (fun e => { time := e.1, availableCount := e.2 }) := by
  rw [bestTimes, jsSort, hourStatsOf_eq_tally]

/-! ## Retention pruning -/

theorem keepLine_iff_retained (rt : Runtime) (now : Int) (line : String)
    (hnow : -maxTime ≤ now - retentionMs ∧ now - retentionMs ≤ maxTime) :
    keepLine rt now line = true ↔ Retained rt now line := by
  have hclip : timeClip (now - retentionMs) = some (now - retentionMs) := by
    unfold timeClip
    rw [if_pos]
    unfold maxTime retentionMs at *
    omega
  unfold keepLine Retained
  rw [hclip]
  cases hp : rt.jsonParse line with
  | none => simp
  | some e =>
    cases e with
    | nullLit => simp
    | value ts ms =>
      cases hd : newDate rt ts with
      | none => simp [dateGe, hd]
      | some t =>
        simp only [hd, dateGe, decide_eq_true_eq, Option.some.injEq, Parsed.value.injEq]
        constructor
        · intro h
          exact ⟨ts, ms, t, ⟨rfl, rfl⟩, hd, by omega⟩
        · rintro ⟨ts2, ms2, t2, ⟨rfl, rfl⟩, h2, h3⟩
          rw [hd] at h2
          cases h2
          omega

theorem storeLines_prune (rt : Runtime) (now : Int) (store : Option String) :
    storeLines (pruneOldLogEntries rt now store).1
      = (storeLines store).filter (keepLine rt now) := by
  cases store with
  | none => rfl
  | some content =>
    by_cases hlen : ((readLines content).filter (keepLine rt now)).length
        ≠ (readLines content).length
    · have hp : pruneOldLogEntries rt now (some content)
          = (some (joinLines ((readLines content).filter (keepLine rt now))), true) := by
        simp only [pruneOldLogEntries]
        rw [if_pos hlen]
      rw [hp]
      apply readLines_joinLines
      intro l hl
      exact mem_readLines content l (List.mem_filter.mp hl).1
    · have hp : pruneOldLogEntries rt now (some content) = (some content, false) := by
        simp only [pruneOldLogEntries]
        rw [if_neg hlen]
      rw [hp]
      have heq : ((readLines content).filter (keepLine rt now)).length
          = (readLines content).length := by
        by_contra hne
        exact hlen hne
      exact (List.filter_eq_self.mpr (List.filter_length_eq_length.mp heq)).symm

/-- C1: after `pruneOldLogEntries` at an instant `now` (one for which `minDate`, 30 days
earlier, is a valid date), the store holds exactly the lines
of the original store, in their order, that parse as an entry whose timestamp is a valid
date `t` with `now - t` at most 30 days: every remaining line satisfies the bound, no line
satisfying it is removed, and nothing else remains. -/
theorem prune_keeps_exactly_retained (rt : Runtime) (now : Int) (store : Option String)
    (hnow : -maxTime ≤ now - retentionMs ∧ now - retentionMs ≤ maxTime) :
    (∃ p : String → Bool, (∀ l, p l = true ↔ Retained rt now l) ∧
      storeLines (pruneOldLogEntries rt now store).1 = (storeLines store).filter p) ∧
    (∀ l ∈ storeLines (pruneOldLogEntries rt now store).1, Retained rt now l) ∧
    (∀ l ∈ storeLines store, Retained rt now l →
      l ∈ storeLines (pruneOldLogEntries rt now store).1) ∧
    List.Sublist (storeLines (pruneOldLogEntries rt now store).1) (storeLines store) := by
  have h := storeLines_prune rt now store
  refine ⟨⟨keepLine rt now, fun l => keepLine_iff_retained rt now l hnow, h⟩, ?_, ?_, ?_⟩
  · intro l hl
    rw [h] at hl
    exact (keepLine_iff_retained rt now l hnow).mp (List.mem_filter.mp hl).2
  · intro l hl hr
    rw [h]
    exact List.mem_filter.mpr ⟨hl, (keepLine_iff_retained rt now l hnow).mpr hr⟩
  · rw [h]
    exact List.filter_sublist _

set_option maxRecDepth 100000 in
theorem prune_keeps_exactly_retained_witness :
    (-maxTime ≤ sampleNow - retentionMs ∧ sampleNow - retentionMs ≤ maxTime) ∧
    storeLines sampleStore = [lineOld, lineMon8, lineTruncated, lineNoTimestamp] ∧
    storeLines (pruneOldLogEntries sampleRuntime sampleNow sampleStore).1 = [lineMon8] ∧
    List.Sublist (storeLines (pruneOldLogEntries sampleRuntime sampleNow sampleStore).1)
      (storeLines sampleStore) :=
  ⟨by decide, by decide, by decide,
    (prune_keeps_exactly_retained sampleRuntime sampleNow sampleStore (by decide)).2.2.2⟩

/-- C2: pruning is idempotent: a second `pruneOldLogEntries` at the same instant on the
pruned store leaves the file as it is and does not take the write branch. -/
theorem prune_idempotent (rt : Runtime) (now : Int) (store : Option String) :
    pruneOldLogEntries rt now (pruneOldLogEntries rt now store).1
      = ((pruneOldLogEntries rt now store).1, false) := by
  have h := storeLines_prune rt now store
  generalize (pruneOldLogEntries rt now store).1 = s1 at h
  cases s1 with
  | none => rfl
  | some c1 =>
    simp only [storeLines] at h
    have hfix : (readLines c1).filter (keepLine rt now) = readLines c1 := by
      rw [h, List.filter_filter]
      simp
    simp only [pruneOldLogEntries, hfix]
    simp

/-! ## Malformed lines in the read operations -/

theorem bestTimesLine_unparseable (rt : Runtime) (line : String)
    (h : rt.jsonParse line = none) (stats : Table String Nat) :
    bestTimesLine rt stats line = stats := by
  simp [bestTimesLine, h]

theorem analyticsLine_unparseable (rt : Runtime) (md : Option (Option Int)) (line : String)
    (h : rt.jsonParse line = none) (tbl : Table String MachineStats) :
    analyticsLine rt md tbl line = tbl := by
  simp [analyticsLine, h]

theorem weeklyLine_unparseable (rt : Runtime) (md : Option Int) (f : Filters) (line : String)
    (h : rt.jsonParse line = none) (st : WeekState) :
    weeklyLine rt md f st line = st := by
  simp [weeklyLine, h]

/-- C3, as amended: a line that `JSON.parse` rejects is excluded from every read
operation: `bestTimes`, `machineAnalytics` for both periods and `weeklyTimes` give the
same output as on the log with that line removed. -/
theorem unparseable_line_excluded (rt : Runtime) (now : Int) (f : Filters)
    (pre post : List String) (line : String) (h : rt.jsonParse line = none) :
    bestTimes rt (pre ++ line :: post) = bestTimes rt (pre ++ post) ∧
    (∀ week, machineAnalytics rt week now (pre ++ line :: post)
      = machineAnalytics rt week now (pre ++ post)) ∧
    weeklyTimes rt now f (pre ++ line :: post) = weeklyTimes rt now f (pre ++ post) := by
  refine ⟨?_, ?_, ?_⟩
  · simp only [bestTimes, hourStatsOf, List.foldl_append, List.foldl_cons,
      bestTimesLine_unparseable rt line h]
  · intro week
    simp only [machineAnalytics, machineStatsOf, List.foldl_append, List.foldl_cons,
      analyticsLine_unparseable rt _ line h]
  · simp only [weeklyTimes, weekStateOf, List.foldl_append, List.foldl_cons,
      weeklyLine_unparseable rt _ f line h]

set_option maxRecDepth 100000 in
theorem unparseable_line_excluded_witness :
    sampleRuntime.jsonParse lineTruncated = none ∧
    bestTimes sampleRuntime ([lineSun8] ++ lineTruncated :: [lineMon8])
      = bestTimes sampleRuntime ([lineSun8] ++ [lineMon8]) :=
  ⟨by decide,
    (unparseable_line_excluded sampleRuntime sampleNow noFilters [lineSun8] [lineMon8]
      lineTruncated (by decide)).1⟩

set_option maxRecDepth 100000 in
/-- C3 as stated fails: a line that is valid JSON but has no `timestamp` is counted by
all three read operations, under the key of an Invalid Date where a key is used. -/
theorem missing_timestamp_line_is_counted :
    sampleRuntime.jsonParse lineNoTimestamp
      = some (.value .undefined (.array [textMachine "A" "W1" "Washer" "Available"])) ∧
    bestTimes sampleRuntime [lineNoTimestamp]
      = [{ time := "Invalid Date NaN:00", availableCount := 1 }] ∧
    bestTimes sampleRuntime [] = [] ∧
    (∀ week, machineAnalytics sampleRuntime week sampleNow [lineNoTimestamp]
      = some [{ dorm := .str "A", machine := .str "W1", type := .str "Washer",
                available := 1, inUse := 0, outOfOrder := 0, endOfCycle := 0,
                almostDone := 0, total := 1 }]) ∧
    (∀ week, machineAnalytics sampleRuntime week sampleNow [] = some []) ∧
    (weeklyTimes sampleRuntime sampleNow noFilters [lineNoTimestamp]).map
      (fun e => (e.1, e.2.count)) = [(("Invalid Date", "NaN"), 1)] ∧
    (weeklyTimes sampleRuntime sampleNow noFilters []).map
      (fun e => (e.1, e.2.count)) = [] := by
  refine ⟨by decide, by decide, by decide, ?_, ?_, by decide, by decide⟩
  · intro week
    cases week <;> decide
  · intro week
    cases week <;> decide

/-! ## Order of the best-times list -/

/-- C4, as amended: the `bestTimes` list is sorted descending by `availableCount`, and
items with equal counts appear in the order in which their keys were first counted in the
log. -/
theorem bestTimes_sorted_ties_first_seen (rt : Runtime) (lines : List String) :
    (bestTimes rt lines).Pairwise (fun a b => b.availableCount ≤ a.availableCount) ∧
    (bestTimes rt lines).Pairwise (fun a b =>
      a.availableCount = b.availableCount →
        (sightings rt lines).indexOf a.time < (sightings rt lines).indexOf b.time) := by
  have hkeys := (tally_keys (sightings rt lines)).2.2
  rw [List.pairwise_map] at hkeys
  have hst := insertionSort_stable (fun a b : String × Nat => (b.2 : Int) - (a.2 : Int) ≤ 0)
    (fun a b => (sightings rt lines).indexOf a.1 < (sightings rt lines).indexOf b.1)
    (fun a b => by omega) (fun a b c h1 h2 => by omega) _ hkeys
  rw [bestTimes_eq, List.pairwise_map, List.pairwise_map]
  constructor
  · exact hst.imp (fun h => by have := h.1; dsimp only; omega)
  · exact hst.imp (fun h heq => h.2 (by dsimp only at heq; omega))

set_option maxRecDepth 100000 in
/-- C4 as stated fails: two keys with equal counts come out in the order of the log, here
Monday before Sunday, and in the opposite order when the two lines are swapped. -/
theorem bestTimes_ties_not_chronological :
    bestTimes sampleRuntime [lineMon8, lineSun8]
      = [{ time := slotKey 1 8, availableCount := 1 },
         { time := slotKey 0 8, availableCount := 1 }] ∧
    bestTimes sampleRuntime [lineSun8, lineMon8]
      = [{ time := slotKey 0 8, availableCount := 1 },
         { time := slotKey 1 8, availableCount := 1 }] ∧
    slotKey 1 8 = "Monday 8:00" ∧ slotKey 0 8 = "Sunday 8:00" := by
  refine ⟨by decide, by decide, by decide, by decide⟩

/-! ## Keys of weekday and hour -/

set_option maxRecDepth 1000000 in
theorem slotKey_prefix : ∀ d : Fin 7, ∀ h : Fin 24,
    (slotKey d h).toList.take 2 = (longDayName d).toList.take 2 := by
  decide

set_option maxRecDepth 1000000 in
theorem longDayName_prefix_injective : ∀ d d2 : Fin 7,
    (longDayName d).toList.take 2 = (longDayName d2).toList.take 2 → d = d2 := by
  decide

set_option maxRecDepth 1000000 in
theorem slotKey_hour_injective : ∀ d : Fin 7, ∀ h h2 : Fin 24,
    slotKey d h = slotKey d h2 → h = h2 := by
  decide

/-- The key text determines the weekday and the hour. -/
theorem slotKey_injective (d d2 : Fin 7) (h h2 : Fin 24) (heq : slotKey d h = slotKey d2 h2) :
    d = d2 ∧ h = h2 := by
  have hd : d = d2 := by
    apply longDayName_prefix_injective
    rw [← slotKey_prefix d h, ← slotKey_prefix d2 h2, heq]
  subst hd
  exact ⟨rfl, slotKey_hour_injective d h h2 heq⟩

set_option maxRecDepth 1000000 in
theorem shortDayName_injective : ∀ d d2 : Fin 7, shortDayName d = shortDayName d2 → d = d2 := by
  decide

set_option maxRecDepth 1000000 in
theorem hourKey_injective : ∀ h h2 : Fin 24, toString h.val = toString h2.val → h = h2 := by
  decide

set_option maxRecDepth 1000000 in
theorem shortDayName_valid : ∀ d : Fin 7, shortDayName d ≠ "Invalid Date" := by
  decide

/-! ## Best times on well-formed logs -/

theorem wellFormedMachine_elim (m : Option MachineObj) (h : wellFormedMachine m = true) :
    ∃ d k t s, m = some { dorm := .str d, machine := .str k, type := .str t, status := .str s }
      ∧ d ≠ "" ∧ k ≠ "" ∧ t ≠ "" ∧ s ≠ "" := by
  unfold wellFormedMachine at h
  split at h
  · rename_i d k t s
    simp only [Bool.and_eq_true, decide_eq_true_eq] at h
    exact ⟨d, k, t, s, rfl, h.1.1.1, h.1.1.2, h.1.2, h.2⟩
  · exact absurd h (by simp)

theorem wellFormedLine_elim (rt : Runtime) (line : String) (h : wellFormedLine rt line = true) :
    ∃ ts ms t, rt.jsonParse line = some (.value (.str ts) (.array ms)) ∧
      rt.dateParse ts = some t ∧ ∀ m ∈ ms, wellFormedMachine m = true := by
  unfold wellFormedLine at h
  split at h
  · rename_i ts ms hp
    simp only [Bool.and_eq_true, List.all_eq_true] at h
    obtain ⟨t, ht⟩ := Option.isSome_iff_exists.mp h.1
    exact ⟨ts, ms, t, hp, ht, h.2⟩
  · exact absurd h (by simp)

theorem availableHits_wellFormed (rt : Runtime) (elems : List (Option MachineObj))
    (h : ∀ m ∈ elems, wellFormedMachine m = true) :
    availableHits rt elems = (elems.filter (exactAvailable rt)).length := by
  induction elems with
  | nil => rfl
  | cons m rest ih =>
    obtain ⟨d, k, t, s, rfl, -⟩ := wellFormedMachine_elim m (h m (List.mem_cons_self _ _))
    have ih2 := ih (fun x hx => h x (List.mem_cons_of_mem _ hx))
    by_cases ha : rt.toLowerCase s = "available"
    · simp [availableHits, toLowerCaseOf, exactAvailable, ha, ih2, List.filter_cons, Nat.add_comm]
    · simp [availableHits, toLowerCaseOf, exactAvailable, ha, ih2, List.filter_cons]

theorem lineSightings_count (rt : Runtime) (line : String) (d : Fin 7) (h : Fin 24)
    (hwf : wellFormedLine rt line = true) :
    (lineSightings rt line).count (slotKey d h) = availableInLine rt d h line := by
  obtain ⟨ts, ms, t, hp, ht, hms⟩ := wellFormedLine_elim rt line hwf
  have hkey : bestTimesKey rt (some t) = slotKey (rt.localDay t) (rt.localHour t) := rfl
  simp only [lineSightings, availableInLine, hp, newDate, ht, hkey, List.count_replicate,
    availableHits_wellFormed rt ms hms]
  by_cases hdh : rt.localDay t = d ∧ rt.localHour t = h
  · obtain ⟨rfl, rfl⟩ := hdh
    simp
  · have hne : ¬ slotKey (rt.localDay t) (rt.localHour t) = slotKey d h := by
      intro heq
      exact hdh (slotKey_injective _ _ _ _ heq)
    simp [hdh, hne]

theorem sightings_count (rt : Runtime) (lines : List String) (d : Fin 7) (h : Fin 24)
    (hwf : wellFormedLog rt lines = true) :
    (sightings rt lines).count (slotKey d h) = availableAt rt d h lines := by
  induction lines with
  | nil => rfl
  | cons l rest ih =>
    simp only [wellFormedLog, List.all_cons, Bool.and_eq_true] at hwf
    have ih2 := ih (by simpa [wellFormedLog] using hwf.2)
    simp only [sightings, List.map_cons, List.flatten_cons, List.count_append] at ih2 ⊢
    rw [ih2, lineSightings_count rt l d h hwf.1]
    simp [availableAt]

theorem mem_sightings_slot (rt : Runtime) (lines : List String) (k : String)
    (hwf : wellFormedLog rt lines = true) (hk : k ∈ sightings rt lines) :
    ∃ d h, k = slotKey d h := by
  simp only [sightings, List.mem_flatten, List.mem_map] at hk
  obtain ⟨l, ⟨line, hline, rfl⟩, hkl⟩ := hk
  simp only [wellFormedLog, List.all_eq_true] at hwf
  obtain ⟨ts, ms, t, hp, ht, -⟩ := wellFormedLine_elim rt line (hwf line hline)
  simp only [lineSightings, hp, newDate, ht] at hkl
  exact ⟨rt.localDay t, rt.localHour t, (List.eq_of_mem_replicate hkl)⟩

theorem filter_key_singleton {β : Type} (l : List (String × β)) (k : String) (v : β)
    (hnd : (l.map Prod.fst).Nodup) (h : (k, v) ∈ l) :
    l.filter (fun e => decide (e.1 = k)) = [(k, v)] := by
  induction l with
  | nil => simp at h
  | cons e rest ih =>
    rw [List.map_cons, List.nodup_cons] at hnd
    rcases List.mem_cons.mp h with h | h
    · subst h
      have hrest : rest.filter (fun e => decide (e.1 = k)) = [] := by
        rw [List.filter_eq_nil_iff]
        intro x hx hxk
        simp only [decide_eq_true_eq] at hxk
        exact hnd.1 (List.mem_map.mpr ⟨x, hx, hxk⟩)
      simp [List.filter_cons, hrest]
    · have hne : ¬ e.1 = k := by
        intro heq
        exact hnd.1 (List.mem_map.mpr ⟨(k, v), h, heq.symm⟩)
      simp [List.filter_cons, hne, ih hnd.2 h]

theorem bestTimes_filter_key (rt : Runtime) (lines : List String) (k : String) (c : Nat)
    (h : Table.get? k (tally (sightings rt lines) []) = some c) :
    (bestTimes rt lines).filter (fun i => decide (i.time = k))
      = [{ time := k, availableCount := c }] := by
  have hnd := (tally_keys (sightings rt lines)).1
  have hperm := List.perm_insertionSort
    (fun a b : String × Nat => (b.2 : Int) - (a.2 : Int) ≤ 0) (tally (sightings rt lines) [])
  have hnd2 := ((hperm.map Prod.fst).nodup_iff).mpr hnd
  have hmem := hperm.mem_iff.mpr (Table.mem_of_get? k c _ h)
  rw [bestTimes_eq, List.filter_map]
  have hf := filter_key_singleton _ k c hnd2 hmem
  have hfun : ((fun i : BestTime => decide (i.time = k)) ∘
      fun e : String × Nat => ({ time := e.1, availableCount := e.2 } : BestTime))
      = fun e => decide (e.1 = k) := rfl
  rw [hfun, hf]
  rfl

theorem mem_bestTimes (rt : Runtime) (lines : List String) (i : BestTime)
    (h : i ∈ bestTimes rt lines) :
    i.time ∈ sightings rt lines ∧ i.availableCount = (sightings rt lines).count i.time := by
  rw [bestTimes_eq, List.mem_map] at h
  obtain ⟨e, he, rfl⟩ := h
  have he2 := (List.mem_insertionSort _).mp he
  have hnd := (tally_keys (sightings rt lines)).1
  have hk : e.1 ∈ (tally (sightings rt lines) []).map Prod.fst := List.mem_map.mpr ⟨e, he2, rfl⟩
  have hget := Table.get?_of_mem e.1 e.2 _ hnd he2
  rw [tally_get?] at hget
  refine ⟨((tally_keys (sightings rt lines)).2.1 e.1).mp hk, ?_⟩
  by_cases hc : List.count e.1 (sightings rt lines) = 0
  · simp [hc] at hget
  · simp only [hc, if_false, Option.some.injEq] at hget
    exact hget.symm

/-- C5: on a log of well-formed entries `bestTimes` has exactly one item for every weekday
and hour with a positive count and no other item, and the count is the number of machine
records, over all entries at that local weekday and hour, whose lower-cased status is
exactly `available`; a status that only contains `available` as a proper part is not
counted here, while machine-analytics and weekly-times classify it as available. -/
theorem bestTimes_counts_exact_available (rt : Runtime) (lines : List String)
    (hwf : wellFormedLog rt lines = true) :
    (∀ d h, 0 < availableAt rt d h lines →
      (bestTimes rt lines).filter (fun i => decide (i.time = slotKey d h))
        = [{ time := slotKey d h, availableCount := availableAt rt d h lines }]) ∧
    (∀ d h, availableAt rt d h lines = 0 →
      ∀ i ∈ bestTimes rt lines, i.time ≠ slotKey d h) ∧
    (∀ i ∈ bestTimes rt lines, ∃ d h, i.time = slotKey d h ∧
      i.availableCount = availableAt rt d h lines ∧ 0 < i.availableCount) ∧
    (∀ mo s key stats, mo.status = .str s → includes (rt.toLowerCase s) "available" = true →
      rt.toLowerCase s ≠ "available" →
        exactAvailable rt (some mo) = false ∧
        bestTimesMachine rt key stats (some mo) = .done stats ∧
        classify (rt.toLowerCase s) = .available ∧
        tallyMachines rt [some mo] { available := 0, inUse := 0, total := 0 }
          = some { available := 1, inUse := 0, total := 1 }) := by
  refine ⟨?_, ?_, ?_, ?_⟩
  · intro d h hpos
    apply bestTimes_filter_key
    rw [tally_get?, sightings_count rt lines d h hwf]
    simp [Nat.ne_of_gt hpos]
  · intro d h hzero i hi heq
    have hm := (mem_bestTimes rt lines i hi).1
    rw [heq] at hm
    have hc := List.count_pos_iff.mpr hm
    rw [sightings_count rt lines d h hwf] at hc
    omega
  · intro i hi
    obtain ⟨hm, hc⟩ := mem_bestTimes rt lines i hi
    obtain ⟨d, h, hk⟩ := mem_sightings_slot rt lines i.time hwf hm
    refine ⟨d, h, hk, ?_, ?_⟩
    · rw [hc, hk, sightings_count rt lines d h hwf]
    · rw [hc]
      exact List.count_pos_iff.mpr hm
  · intro mo s key stats hs hinc hne
    obtain ⟨d0, k0, t0, s0⟩ := mo
    simp only at hs
    subst hs
    refine ⟨?_, ?_, ?_, ?_⟩
    · simp [exactAvailable, hne]
    · simp [bestTimesMachine, toLowerCaseOf, hne]
    · simp [classify, hinc]
    · simp [tallyMachines, toLowerCaseOf, hinc]

set_option maxRecDepth 100000 in
theorem bestTimes_counts_exact_available_witness :
    wellFormedLog sampleRuntime [lineOld, lineMon8, lineSun8, lineMon8] = true ∧
    availableAt sampleRuntime 1 8 [lineOld, lineMon8, lineSun8, lineMon8] = 2 ∧
    availableAt sampleRuntime 3 8 [lineOld, lineMon8, lineSun8, lineMon8] = 0 ∧
    (bestTimes sampleRuntime [lineOld, lineMon8, lineSun8, lineMon8]).filter
        (fun i => decide (i.time = slotKey 1 8))
      = [{ time := slotKey 1 8,
           availableCount := availableAt sampleRuntime 1 8 [lineOld, lineMon8, lineSun8, lineMon8] }] :=
  ⟨by decide, by decide, by decide,
    (bestTimes_counts_exact_available sampleRuntime [lineOld, lineMon8, lineSun8, lineMon8]
      (by decide)).1 1 8 (by decide)⟩

/-! ## Machine analytics: invariants of the scan -/

theorem Table.mem_ensure {κ β : Type} [DecidableEq κ] (key : κ) (b : β) (t : Table κ β)
    (e : κ × β) (h : e ∈ Table.ensure key b t) : e ∈ t ∨ e = (key, b) := by
  induction t with
  | nil =>
    simp only [Table.ensure, List.mem_singleton] at h
    exact Or.inr h
  | cons x rest ih =>
    obtain ⟨k0, v0⟩ := x
    by_cases h0 : k0 = key
    · simp only [Table.ensure, h0, if_true] at h
      left
      simpa [h0] using h
    · simp only [Table.ensure, h0, if_false, List.mem_cons] at h
      rcases h with h | h
      · left
        simp [h]
      · rcases ih h with h2 | h2
        · left
          exact List.mem_cons_of_mem _ h2
        · exact Or.inr h2

theorem Table.mem_modify {κ β : Type} [DecidableEq κ] (key : κ) (f : β → β) (t : Table κ β)
    (e : κ × β) (h : e ∈ Table.modify key f t) :
    e ∈ t ∨ ∃ v, (key, v) ∈ t ∧ e = (key, f v) := by
  induction t with
  | nil => simp [Table.modify] at h
  | cons x rest ih =>
    obtain ⟨k0, v0⟩ := x
    by_cases h0 : k0 = key
    · simp only [Table.modify, h0, if_true, List.mem_cons] at h
      rcases h with h | h
      · right
        exact ⟨v0, by simp [h0], h⟩
      · left
        exact List.mem_cons_of_mem _ h
    · simp only [Table.modify, h0, if_false, List.mem_cons] at h
      rcases h with h | h
      · left
        simp [h]
      · rcases ih h with h2 | ⟨v, hv, he⟩
        · left
          exact List.mem_cons_of_mem _ h2
        · right
          exact ⟨v, List.mem_cons_of_mem _ hv, he⟩

theorem forEachTry_invariant {σ α : Type} (f : σ → α → Outcome σ) (P : σ → Prop)
    (xs : List α) (hstep : ∀ s, ∀ x ∈ xs, P s → P (f s x).state) (s : σ) (h : P s) :
    P (forEachTry f s xs).state := by
  induction xs generalizing s with
  | nil => exact h
  | cons x rest ih =>
    have hx := hstep s x (List.mem_cons_self _ _) h
    simp only [forEachTry]
    cases hf : f s x with
    | done s1 =>
      rw [hf] at hx
      exact ih (fun s y hy => hstep s y (List.mem_cons_of_mem _ hy)) s1 hx
    | threw s1 =>
      rw [hf] at hx
      exact hx

theorem foldl_invariant {σ α : Type} (f : σ → α → σ) (P : σ → Prop)
    (xs : List α) (hstep : ∀ s, ∀ x ∈ xs, P s → P (f s x)) (s : σ) (h : P s) :
    P (xs.foldl f s) := by
  induction xs generalizing s with
  | nil => exact h
  | cons x rest ih =>
    exact ih (fun s y hy => hstep s y (List.mem_cons_of_mem _ hy)) _
      (hstep s x (List.mem_cons_self _ _) h)

theorem analyticsLine_eq (rt : Runtime) (md : Option (Option Int))
    (tbl : Table String MachineStats) (line : String) :
    analyticsLine rt md tbl line
      = (forEachTry (analyticsMachine rt) tbl (scanElems rt md line)).state := by
  unfold analyticsLine scanElems
  cases hp : rt.jsonParse line with
  | none => rfl
  | some e =>
    cases e with
    | nullLit => rfl
    | value ts ms =>
      cases ms with
      | notArray v =>
        simp only
        split <;> rfl
      | array elems =>
        simp only
        split <;> rfl

theorem mem_scanRecords (rt : Runtime) (week : Bool) (now : Int) (lines : List String)
    (mo : MachineObj) :
    mo ∈ scanRecords rt week now lines ↔
      ∃ line ∈ lines, some mo ∈ scanElems rt (analyticsMinDate week now) line := by
  simp only [scanRecords, List.mem_filterMap, List.mem_flatten, List.mem_map, id]
  constructor
  · rintro ⟨m, ⟨l, ⟨line, hline, rfl⟩, hm⟩, rfl⟩
    exact ⟨line, hline, hm⟩
  · rintro ⟨line, hline, hm⟩
    exact ⟨some mo, ⟨_, ⟨line, hline, rfl⟩, hm⟩, rfl⟩

/-- A property of the entries of `machineStats` that holds for a fresh row and is kept by
the increments holds for every entry after the scan. -/
theorem analyticsMachine_entries (rt : Runtime) (Q : String × MachineStats → Prop)
    (m : Option MachineObj)
    (hnew : ∀ mo, m = some mo → machineKey mo ∉ inheritedKeys → Q (machineKey mo, newRow mo))
    (hrec : ∀ k r c, Q (k, r) → Q (k, r.record c))
    (tbl : Table String MachineStats) (h : ∀ e ∈ tbl, Q e) :
    ∀ e ∈ (analyticsMachine rt tbl m).state, Q e := by
  cases m with
  | none => exact h
  | some mo =>
    by_cases hk : machineKey mo ∈ inheritedKeys
    · simp only [analyticsMachine, hk, if_true]
      cases toLowerCaseOf rt mo.status <;> exact h
    · have h1 : ∀ e ∈ Table.ensure (machineKey mo) (newRow mo) tbl, Q e := by
        intro e he
        rcases Table.mem_ensure _ _ _ e he with he | he
        · exact h e he
        · rw [he]
          exact hnew mo rfl hk
      simp only [analyticsMachine, hk, if_false]
      cases toLowerCaseOf rt mo.status with
      | none => exact h1
      | some s =>
        intro e he
        rcases Table.mem_modify _ _ _ e he with he | ⟨v, hv, he⟩
        · exact h1 e he
        · rw [he]
          exact hrec _ _ _ (h1 _ hv)

theorem machineStatsOf_entries (rt : Runtime) (week : Bool) (now : Int) (lines : List String)
    (Q : String × MachineStats → Prop)
    (hnew : ∀ mo ∈ scanRecords rt week now lines, machineKey mo ∉ inheritedKeys →
      Q (machineKey mo, newRow mo))
    (hrec : ∀ k r c, Q (k, r) → Q (k, r.record c)) :
    ∀ e ∈ machineStatsOf rt week now lines, Q e := by
  unfold machineStatsOf
  apply foldl_invariant _ (fun tbl => ∀ e ∈ tbl, Q e)
  · intro tbl line hline htbl
    rw [analyticsLine_eq]
    apply forEachTry_invariant _ (fun tbl => ∀ e ∈ tbl, Q e)
    · intro s m hm hs
      apply analyticsMachine_entries rt Q m _ hrec s hs
      intro mo hmo
      subst hmo
      exact hnew mo ((mem_scanRecords rt week now lines mo).mpr ⟨line, hline, hm⟩)
    · exact htbl
  · intro e he
    simp at he

theorem analyticsMachine_nodup (rt : Runtime) (tbl : Table String MachineStats)
    (m : Option MachineObj) (h : (tbl.map Prod.fst).Nodup) :
    (((analyticsMachine rt tbl m).state).map Prod.fst).Nodup := by
  cases m with
  | none => exact h
  | some mo =>
    by_cases hk : machineKey mo ∈ inheritedKeys
    · simp only [analyticsMachine, hk, if_true]
      cases toLowerCaseOf rt mo.status <;> exact h
    · simp only [analyticsMachine, hk, if_false]
      cases toLowerCaseOf rt mo.status with
      | none => exact Table.nodup_ensure _ _ _ h
      | some s =>
        simp only [Outcome.state]
        rw [Table.keys_modify]
        exact Table.nodup_ensure _ _ _ h

theorem machineStatsOf_nodup (rt : Runtime) (week : Bool) (now : Int) (lines : List String) :
    ((machineStatsOf rt week now lines).map Prod.fst).Nodup := by
  unfold machineStatsOf
  apply foldl_invariant _ (fun tbl : Table String MachineStats => (tbl.map Prod.fst).Nodup)
  · intro tbl line _ htbl
    rw [analyticsLine_eq]
    apply forEachTry_invariant _
      (fun tbl : Table String MachineStats => (tbl.map Prod.fst).Nodup)
    · intro s m _ hs
      exact analyticsMachine_nodup rt s m hs
    · exact htbl
  · simp

theorem record_dorm (r : MachineStats) (c : Category) : (r.record c).dorm = r.dorm := by
  cases c <;> rfl

theorem record_machine (r : MachineStats) (c : Category) :
    (r.record c).machine = r.machine := by
  cases c <;> rfl

theorem record_total (r : MachineStats) (c : Category) :
    (r.record c).total = r.total + 1 := by
  cases c <;> rfl

theorem record_matched (r : MachineStats) (c : Category) :
    (r.record c).matched = r.matched + (if c = .other then 0 else 1) := by
  cases c <;> simp [MachineStats.record, MachineStats.matched] <;> omega

/-- Every row sits under the key rebuilt from its own `dorm` and `machine`. -/
theorem machineStatsOf_rowKey (rt : Runtime) (week : Bool) (now : Int) (lines : List String) :
    ∀ e ∈ machineStatsOf rt week now lines, e.1 = rowKey e.2 ∧ e.1 ∉ inheritedKeys := by
  apply machineStatsOf_entries rt week now lines
    (fun e => e.1 = rowKey e.2 ∧ e.1 ∉ inheritedKeys)
  · intro mo _ hk
    exact ⟨rfl, hk⟩
  · intro k r c h
    refine ⟨?_, h.2⟩
    have h1 := h.1
    simp only [rowKey, record_dorm, record_machine] at h1 ⊢
    exact h1

/-! ## Machine analytics: the row of a key -/

theorem hasTextStatus_elim (m : Option MachineObj) (h : hasTextStatus m = true) :
    ∃ mo s, m = some mo ∧ mo.status = .str s := by
  unfold hasTextStatus at h
  split at h
  · rename_i d k t s
    exact ⟨_, s, rfl, rfl⟩
  · exact absurd h (by simp)

theorem analyticsMachine_get? (rt : Runtime) (tbl : Table String MachineStats)
    (mo : MachineObj) (s : String) (k : String) (hs : mo.status = .str s)
    (hk : k ∉ inheritedKeys) :
    ∃ tbl2, analyticsMachine rt tbl (some mo) = .done tbl2 ∧
      Table.get? k tbl2
        = if machineKey mo = k then
            some (((Table.get? k tbl).getD (newRow mo)).record (categoryOf rt mo))
          else Table.get? k tbl := by
  by_cases hin : machineKey mo ∈ inheritedKeys
  · refine ⟨tbl, ?_, ?_⟩
    · simp [analyticsMachine, hin, hs, toLowerCaseOf]
    · have hne : ¬ machineKey mo = k := fun e => hk (e ▸ hin)
      simp [hne]
  · refine ⟨Table.modify (machineKey mo) (fun r => r.record (classify (rt.toLowerCase s)))
      (Table.ensure (machineKey mo) (newRow mo) tbl), ?_, ?_⟩
    · simp only [analyticsMachine, hin, if_false, hs, toLowerCaseOf]
    · rw [Table.get?_modify, Table.get?_ensure]
      by_cases hkk : machineKey mo = k
      · subst hkk
        simp [categoryOf, hs, toLowerCaseOf]
      · have hkk2 : ¬ k = machineKey mo := fun e => hkk e.symm
        simp [hkk, hkk2, Table.get?_ensure]

theorem forEachTry_get? (rt : Runtime) (k : String) (hk : k ∉ inheritedKeys)
    (elems : List (Option MachineObj)) (h : ∀ m ∈ elems, hasTextStatus m = true)
    (tbl : Table String MachineStats) :
    Table.get? k (forEachTry (analyticsMachine rt) tbl elems).state
      = rowFold rt k (Table.get? k tbl) (elems.filterMap id) := by
  induction elems generalizing tbl with
  | nil => rfl
  | cons m rest ih =>
    obtain ⟨mo, s, rfl, hs⟩ := hasTextStatus_elim m (h m (List.mem_cons_self _ _))
    obtain ⟨tbl2, h1, h2⟩ := analyticsMachine_get? rt tbl mo s k hs hk
    simp only [forEachTry, h1]
    rw [ih (fun x hx => h x (List.mem_cons_of_mem _ hx)) tbl2, h2]
    simp [rowFold]

theorem rowFold_append (rt : Runtime) (k : String) (start : Option MachineStats)
    (r1 r2 : List MachineObj) :
    rowFold rt k start (r1 ++ r2) = rowFold rt k (rowFold rt k start r1) r2 := by
  simp [rowFold, List.foldl_append]

theorem scanElems_text (rt : Runtime) (md : Option (Option Int)) (lines : List String)
    (htext : textualStatus rt lines = true) (line : String) (hline : line ∈ lines) :
    ∀ m ∈ scanElems rt md line, hasTextStatus m = true := by
  simp only [textualStatus, List.all_eq_true] at htext
  have h := htext line hline
  intro m hm
  unfold scanElems at hm
  split at hm
  · rename_i ts elems hp
    rw [hp] at h
    simp only [List.all_eq_true] at h
    split at hm
    · simp at hm
    · exact h m hm
  · simp at hm

theorem foldl_analytics_get? (rt : Runtime) (md : Option (Option Int)) (k : String)
    (hk : k ∉ inheritedKeys) (lines : List String)
    (h : ∀ line ∈ lines, ∀ m ∈ scanElems rt md line, hasTextStatus m = true)
    (tbl : Table String MachineStats) :
    Table.get? k (lines.foldl (analyticsLine rt md) tbl)
      = rowFold rt k (Table.get? k tbl)
          (((lines.map (scanElems rt md)).flatten).filterMap id) := by
  induction lines generalizing tbl with
  | nil => rfl
  | cons l rest ih =>
    rw [List.foldl_cons, ih (fun x hx => h x (List.mem_cons_of_mem _ hx)), analyticsLine_eq,
      forEachTry_get? rt k hk _ (h l (List.mem_cons_self _ _))]
    simp [rowFold_append, List.filterMap_append]

/-- With textual statuses, the row found under a key is the fold of the scanned records
of that key. -/
theorem machineStatsOf_get? (rt : Runtime) (week : Bool) (now : Int) (lines : List String)
    (htext : textualStatus rt lines = true) (k : String) (hk : k ∉ inheritedKeys) :
    Table.get? k (machineStatsOf rt week now lines)
      = rowFold rt k none (scanRecords rt week now lines) := by
  unfold machineStatsOf scanRecords
  rw [foldl_analytics_get? rt _ k hk lines
    (fun line hline => scanElems_text rt _ lines htext line hline)]
  rfl

/-- A counter that starts at zero and grows by `w c` with every record of category `c`
ends as the sum of `w` over the records of the key. -/
theorem rowFold_measure (rt : Runtime) (k : String) (μ : MachineStats → Nat)
    (w : Category → Nat) (hnew : ∀ mo, μ (newRow mo) = 0)
    (hrec : ∀ r c, μ (r.record c) = μ r + w c)
    (recs : List MachineObj) (start : Option MachineStats) (row : MachineStats)
    (h : rowFold rt k start recs = some row) :
    μ row = (start.map μ).getD 0
      + ((recs.filter (fun mo => machineKey mo = k)).map (fun mo => w (categoryOf rt mo))).sum := by
  induction recs generalizing start with
  | nil =>
    simp only [rowFold, List.foldl_nil] at h
    simp [h]
  | cons mo rest ih =>
    simp only [rowFold, List.foldl_cons] at h
    by_cases hkk : machineKey mo = k
    · simp only [hkk, if_true] at h
      have := ih _ h
      rw [this]
      cases start with
      | none => simp [hkk, hrec, hnew]
      | some r0 => simp [hkk, hrec, Nat.add_assoc]
    · simp only [hkk, if_false] at h
      rw [ih _ h]
      simp [hkk]

/-! ## Machine analytics: the rows of the output -/

theorem mem_machineAnalytics (rt : Runtime) (hs : SortLaws rt) (week : Bool) (now : Int)
    (lines : List String)
    (rows : List MachineStats) (h : machineAnalytics rt week now lines = some rows)
    (row : MachineStats) :
    row ∈ rows ↔ (rowKey row, row) ∈ machineStatsOf rt week now lines := by
  have hp := hs.perm _ _ _ h
  rw [hp.mem_iff, List.mem_map]
  constructor
  · rintro ⟨e, he, rfl⟩
    have := (machineStatsOf_rowKey rt week now lines e he).1
    rw [← this]
    exact he
  · intro hm
    exact ⟨_, hm, rfl⟩

/-! ## Machine analytics: counters -/

theorem sum_indicator {α : Type} (l : List α) (p : α → Bool) :
    (l.map (fun x => if p x = true then 1 else 0)).sum = (l.filter p).length := by
  induction l with
  | nil => rfl
  | cons x rest ih =>
    by_cases hp : p x = true
    · simp [hp, ih, List.filter_cons, Nat.add_comm]
    · simp [hp, ih, List.filter_cons]

/-- The `if`/`else if` chain picks the first phrase of the list that the status
contains. -/
theorem classify_eq_firstPhrase (s : String) :
    (classify s = .available ↔ firstPhrase s = some "available") ∧
    (classify s = .inUse ↔ firstPhrase s = some "in use") ∧
    (classify s = .outOfOrder ↔ firstPhrase s = some "out of order") ∧
    (classify s = .endOfCycle ↔ firstPhrase s = some "end of cycle") ∧
    (classify s = .almostDone ↔ firstPhrase s = some "almost done") ∧
    (classify s = .other ↔ firstPhrase s = none) := by
  unfold classify firstPhrase phrases
  simp only [List.find?]
  cases includes s "available" <;> cases includes s "in use" <;>
    cases includes s "out of order" <;> cases includes s "end of cycle" <;>
    cases includes s "almost done" <;> simp

theorem categoryOf_eq_matchedPhrase (rt : Runtime) (mo : MachineObj) :
    (categoryOf rt mo = .available ↔ matchedPhrase rt mo = some "available") ∧
    (categoryOf rt mo = .inUse ↔ matchedPhrase rt mo = some "in use") ∧
    (categoryOf rt mo = .outOfOrder ↔ matchedPhrase rt mo = some "out of order") ∧
    (categoryOf rt mo = .endOfCycle ↔ matchedPhrase rt mo = some "end of cycle") ∧
    (categoryOf rt mo = .almostDone ↔ matchedPhrase rt mo = some "almost done") ∧
    (categoryOf rt mo = .other ↔ matchedPhrase rt mo = none) := by
  unfold categoryOf matchedPhrase
  cases toLowerCaseOf rt mo.status with
  | none => simp
  | some s => exact classify_eq_firstPhrase s

theorem rowFold_count (rt : Runtime) (k : String) (μ : MachineStats → Nat) (c0 : Category)
    (p : MachineObj → Bool) (hp : ∀ mo, p mo = true ↔ categoryOf rt mo = c0)
    (hnew : ∀ mo, μ (newRow mo) = 0)
    (hrec : ∀ r c, μ (r.record c) = μ r + (if c = c0 then 1 else 0))
    (recs : List MachineObj) (row : MachineStats) (h : rowFold rt k none recs = some row) :
    μ row = ((recs.filter (fun mo => machineKey mo = k)).filter p).length := by
  have hm := rowFold_measure rt k μ (fun c => if c = c0 then 1 else 0) hnew hrec recs none row h
  rw [hm, ← sum_indicator]
  simp only [Option.map_none', Option.getD_none, Nat.zero_add]
  congr 1
  apply List.map_congr_left
  intro mo _
  by_cases hc : categoryOf rt mo = c0
  · simp [hc, (hp mo).mpr hc]
  · have : ¬ p mo = true := fun h => hc ((hp mo).mp h)
    simp [hc, this]

theorem rowFold_total (rt : Runtime) (k : String) (recs : List MachineObj)
    (row : MachineStats) (h : rowFold rt k none recs = some row) :
    row.total = (recs.filter (fun mo => machineKey mo = k)).length := by
  have hm := rowFold_measure rt k (fun r => r.total) (fun _ => 1) (fun _ => rfl)
    (fun r c => record_total r c) recs none row h
  simp only at hm
  rw [hm]
  simp

theorem rowFold_matched (rt : Runtime) (k : String) (recs : List MachineObj)
    (row : MachineStats) (h : rowFold rt k none recs = some row) :
    row.matched = ((recs.filter (fun mo => machineKey mo = k)).filter
      (fun mo => decide (matchedPhrase rt mo ≠ none))).length := by
  have hm := rowFold_measure rt k (fun r => r.matched) (fun c => if c = .other then 0 else 1)
    (fun _ => rfl) (fun r c => record_matched r c) recs none row h
  simp only at hm
  rw [hm, ← sum_indicator]
  simp only [Option.map_none', Option.getD_none, Nat.zero_add]
  congr 1
  apply List.map_congr_left
  intro mo _
  have hiff := (categoryOf_eq_matchedPhrase rt mo).2.2.2.2.2
  by_cases hc : categoryOf rt mo = .other
  · simp [hc, hiff.mp hc]
  · have : ¬ matchedPhrase rt mo = none := fun h => hc (hiff.mpr h)
    simp [hc, this]

theorem matched_le_total (rt : Runtime) (week : Bool) (now : Int) (lines : List String) :
    ∀ e ∈ machineStatsOf rt week now lines, e.2.matched ≤ e.2.total := by
  apply machineStatsOf_entries rt week now lines (fun e => e.2.matched ≤ e.2.total)
  · intro mo _ _
    exact Nat.le_refl 0
  · intro k r c h
    simp only [record_matched, record_total] at h ⊢
    split <;> omega

/-- With textual statuses, a row of the output is the fold of its group. -/
theorem row_eq_rowFold (rt : Runtime) (hs : SortLaws rt) (week : Bool) (now : Int)
    (lines : List String)
    (htext : textualStatus rt lines = true) (rows : List MachineStats)
    (h : machineAnalytics rt week now lines = some rows) (row : MachineStats)
    (hrow : row ∈ rows) :
    rowFold rt (rowKey row) none (scanRecords rt week now lines) = some row := by
  have hmem := (mem_machineAnalytics rt hs week now lines rows h row).mp hrow
  have hk := (machineStatsOf_rowKey rt week now lines _ hmem).2
  rw [← machineStatsOf_get? rt week now lines htext (rowKey row) hk]
  exact Table.get?_of_mem _ _ _ (machineStatsOf_nodup rt week now lines) hmem

/-! ## Machine analytics: well-formed logs and the grouping key -/

theorem wellFormed_textualStatus (rt : Runtime) (lines : List String)
    (hwf : wellFormedLog rt lines = true) : textualStatus rt lines = true := by
  simp only [wellFormedLog, textualStatus, List.all_eq_true] at hwf ⊢
  intro line hline
  obtain ⟨ts, ms, t, hp, -, hms⟩ := wellFormedLine_elim rt line (hwf line hline)
  rw [hp]
  simp only [List.all_eq_true]
  intro m hm
  obtain ⟨d, k, t2, s, rfl, -⟩ := wellFormedMachine_elim m (hms m hm)
  rfl

theorem wellFormed_textualIds (rt : Runtime) (week : Bool) (now : Int) (lines : List String)
    (hwf : wellFormedLog rt lines = true) :
    ∀ mo ∈ scanRecords rt week now lines, textualIds mo = true := by
  intro mo hmo
  obtain ⟨line, hline, hm⟩ := (mem_scanRecords rt week now lines mo).mp hmo
  simp only [wellFormedLog, List.all_eq_true] at hwf
  obtain ⟨ts, ms, t, hp, -, hms⟩ := wellFormedLine_elim rt line (hwf line hline)
  simp only [scanElems, hp] at hm
  split at hm
  · simp at hm
  · obtain ⟨d, k, t2, s, heq, -⟩ := wellFormedMachine_elim _ (hms _ hm)
    cases heq
    rfl

theorem textualIds_elim (mo : MachineObj) (h : textualIds mo = true) :
    ∃ d m, mo.dorm = .str d ∧ mo.machine = .str m := by
  unfold textualIds at h
  split at h
  · rename_i d m hd hm
    exact ⟨d, m, hd, hm⟩
  · exact absurd h (by simp)

/-- Every row carries the `dorm` and `machine` of a record the scan went through. -/
theorem machineStatsOf_from_record (rt : Runtime) (week : Bool) (now : Int)
    (lines : List String) :
    ∀ e ∈ machineStatsOf rt week now lines, ∃ mo ∈ scanRecords rt week now lines,
      e.2.dorm = mo.dorm ∧ e.2.machine = mo.machine := by
  apply machineStatsOf_entries rt week now lines
    (fun e => ∃ mo ∈ scanRecords rt week now lines,
      e.2.dorm = mo.dorm ∧ e.2.machine = mo.machine)
  · intro mo hmo _
    exact ⟨mo, hmo, rfl, rfl⟩
  · intro k r c h
    simpa only [record_dorm, record_machine] using h

theorem compareStats_text (rt : Runtime) (a b : MachineStats) (d1 m1 d2 m2 : String)
    (ha : a.dorm = .str d1) (ha2 : a.machine = .str m1) (hb : b.dorm = .str d2)
    (hb2 : b.machine = .str m2) :
    compareStats rt a b
      = some (if d1 = d2 then rt.localeCompare m1 m2 else rt.localeCompare d1 d2) := by
  unfold compareStats
  rw [ha, ha2, hb, hb2]
  by_cases h : d1 = d2
  · simp [strictEq, localeCompareOf, toStr, h]
  · simp [strictEq, localeCompareOf, toStr, h]

set_option maxRecDepth 100000 in
/-- C9 fails on `lineSeparator`: the records of machine `c` in `a__b` and of machine
`b__c` in `a` share the key `a__b__c` and are accumulated into one row. -/
theorem separator_merges_two_machines :
    windowRecords sampleRuntime false sampleNow [lineSeparator]
      = [{ dorm := .str "a__b", machine := .str "c", type := .str "Washer",
           status := .str "Available" },
         { dorm := .str "a", machine := .str "b__c", type := .str "Dryer",
           status := .str "In Use" }] ∧
    machineAnalytics sampleRuntime false sampleNow [lineSeparator]
      = some [{ dorm := .str "a__b", machine := .str "c", type := .str "Washer",
                available := 1, inUse := 1, outOfOrder := 0, endOfCycle := 0,
                almostDone := 0, total := 2 }] := by
  refine ⟨by decide, by decide⟩

/-! ## Collation and the order of rows -/

theorem Collation.lt_trans {rt : Runtime} (hcol : Collation rt) (a b c : String)
    (h1 : rt.localeCompare a b = .lt) (h2 : rt.localeCompare b c = .lt) :
    rt.localeCompare a c = .lt := by
  by_contra hne
  have hca : rt.localeCompare c a ≠ .gt := fun h => hne ((hcol.swap c a).mp h)
  have hab : rt.localeCompare a b ≠ .gt := by rw [h1]; decide
  have hcb := hcol.trans c a b hca hab
  exact hcb ((hcol.swap c b).mpr h2)

theorem RowOrder.trans {rt : Runtime} (hcol : Collation rt) (x y z : MachineStats)
    (h1 : RowOrder rt x y) (h2 : RowOrder rt y z) : RowOrder rt x z := by
  rcases h1 with h1 | ⟨hd1, hm1⟩
  · rcases h2 with h2 | ⟨hd2, hm2⟩
    · exact Or.inl (hcol.lt_trans _ _ _ h1 h2)
    · left
      rw [← hd2]
      exact h1
  · rcases h2 with h2 | ⟨hd2, hm2⟩
    · left
      rw [hd1]
      exact h2
    · exact Or.inr ⟨hd1.trans hd2, hcol.trans _ _ _ hm1 hm2⟩

theorem sampleRuntime_collation : Collation sampleRuntime := by
  constructor
  · intro a b
    show compare a b = .gt ↔ compare b a = .lt
    rw [compare_gt_iff_gt, compare_lt_iff_lt]
  · intro a b c h1 h2
    show compare a c ≠ .gt
    have h3 : compare a b ≠ .gt := h1
    have h4 : compare b c ≠ .gt := h2
    rw [Ne, compare_gt_iff_gt, not_lt] at h3 h4 ⊢
    exact le_trans h3 h4

/-! ## Weekly times: which buckets appear -/

theorem Table.mem_keys_ensure {κ β : Type} [DecidableEq κ] (key k : κ) (b : β)
    (t : Table κ β) :
    k ∈ (Table.ensure key b t).map Prod.fst ↔ k ∈ t.map Prod.fst ∨ k = key := by
  rw [Table.keys_ensure]
  split
  · rename_i h
    constructor
    · exact fun hk => Or.inl hk
    · rintro (hk | hk)
      · exact hk
      · exact hk ▸ h
  · simp

theorem weeklyLine_keys (rt : Runtime) (md : Option Int) (f : Filters) (st : WeekState)
    (line : String) (k : WeekKey) :
    k ∈ (weeklyLine rt md f st line).stats.map Prod.fst
      ↔ k ∈ st.stats.map Prod.fst ∨ bucketOf rt md line = some k := by
  unfold weeklyLine bucketOf
  cases hp : rt.jsonParse line with
  | none => simp
  | some e =>
    cases e with
    | nullLit => simp
    | value ts ms =>
      by_cases hlt : dateLt (newDate rt ts) md = true
      · simp [hlt]
      · simp only [hlt, Bool.false_eq_true, if_false, Option.some.injEq]
        have hens := Table.mem_keys_ensure (dayShort rt (newDate rt ts), hourText rt (newDate rt ts))
          k ({ available := 0, inUse := 0, total := 0 } : Sums) st.stats
        have hfix : (k ∈ st.stats.map Prod.fst ∨
            (dayShort rt (newDate rt ts), hourText rt (newDate rt ts)) = k)
            ↔ (k ∈ st.stats.map Prod.fst ∨
              k = (dayShort rt (newDate rt ts), hourText rt (newDate rt ts))) := by
          constructor <;> rintro (h | h)
          · exact Or.inl h
          · exact Or.inr h.symm
          · exact Or.inl h
          · exact Or.inr h.symm
        rw [hfix, ← hens]
        cases ms with
        | notArray v => rfl
        | array elems =>
          simp only
          cases filterTry (keepMachine rt f) elems with
          | none => rfl
          | some filtered =>
            simp only
            split
            · cases tallyMachines rt filtered { available := 0, inUse := 0, total := 0 } with
              | none => rfl
              | some t =>
                simp only
                rw [Table.keys_modify]
            · rfl

theorem weekState_keys (rt : Runtime) (md : Option Int) (f : Filters) (lines : List String)
    (st : WeekState) (k : WeekKey) :
    k ∈ (lines.foldl (weeklyLine rt md f) st).stats.map Prod.fst
      ↔ k ∈ st.stats.map Prod.fst ∨ ∃ line ∈ lines, bucketOf rt md line = some k := by
  induction lines generalizing st with
  | nil => simp
  | cons l rest ih =>
    rw [List.foldl_cons, ih, weeklyLine_keys]
    constructor
    · rintro ((h | h) | ⟨line, hline, h⟩)
      · exact Or.inl h
      · exact Or.inr ⟨l, List.mem_cons_self _ _, h⟩
      · exact Or.inr ⟨line, List.mem_cons_of_mem _ hline, h⟩
    · rintro (h | ⟨line, hline, h⟩)
      · exact Or.inl (Or.inl h)
      · rcases List.mem_cons.mp hline with hl | hl
        · subst hl
          exact Or.inl (Or.inr h)
        · exact Or.inr ⟨line, hl, h⟩

theorem weeklyTimes_keys (rt : Runtime) (now : Int) (f : Filters) (lines : List String)
    (k : WeekKey) :
    k ∈ (weeklyTimes rt now f lines).map Prod.fst
      ↔ ∃ line ∈ lines, bucketOf rt (timeClip (now - weekMs)) line = some k := by
  have h := weekState_keys rt (timeClip (now - weekMs)) f lines { stats := [], counts := [] } k
  simp only [List.map_nil, List.not_mem_nil, false_or] at h
  rw [← h]
  simp [weeklyTimes, weekStateOf, List.map_map, Function.comp_def]

theorem bucketOf_slot (rt : Runtime) (now : Int)
    (hnow : -maxTime ≤ now - weekMs ∧ now - weekMs ≤ maxTime)
    (line : String) (d : Fin 7) (h : Fin 24) :
    bucketOf rt (timeClip (now - weekMs)) line = some (shortDayName d, toString h.val)
      ↔ ∃ ts ms t, rt.jsonParse line = some (.value ts ms) ∧ newDate rt ts = some t ∧
          now - t ≤ weekMs ∧ rt.localDay t = d ∧ rt.localHour t = h := by
  have hclip : timeClip (now - weekMs) = some (now - weekMs) := by
    unfold timeClip
    rw [if_pos]
    unfold maxTime weekMs at *
    omega
  rw [hclip]
  unfold bucketOf
  cases hp : rt.jsonParse line with
  | none => simp
  | some e =>
    cases e with
    | nullLit => simp
    | value ts ms =>
      cases hd : newDate rt ts with
      | none =>
        simp only [hd, dateLt, dayShort, hourText, Bool.false_eq_true, if_false,
          Option.some.injEq, Prod.mk.injEq, Parsed.value.injEq]
        constructor
        · rintro ⟨h1, -⟩
          exact absurd h1.symm (shortDayName_valid d)
        · rintro ⟨ts2, ms2, t, ⟨rfl, rfl⟩, h2, -⟩
          rw [hd] at h2
          cases h2
      | some t =>
        simp only [hd, dateLt, dayShort, hourText, decide_eq_true_eq, Option.some.injEq,
          Parsed.value.injEq]
        by_cases hlt : t < now - weekMs
        · rw [if_pos hlt]
          constructor
          · intro hb
            cases hb
          · rintro ⟨ts2, ms2, t2, ⟨rfl, rfl⟩, h2, h3, -⟩
            rw [hd] at h2
            cases h2
            omega
        · rw [if_neg hlt]
          simp only [Option.some.injEq, Prod.mk.injEq]
          constructor
          · intro hb
            exact ⟨ts, ms, t, ⟨rfl, rfl⟩, hd, by omega,
              shortDayName_injective _ _ hb.1, hourKey_injective _ _ hb.2⟩
          · rintro ⟨ts2, ms2, t2, ⟨rfl, rfl⟩, h2, h3, h4, h5⟩
            rw [hd] at h2
            cases h2
            rw [h4, h5]
            exact ⟨rfl, rfl⟩

/-- C10, as amended (for an instant `now` whose `minDate`, 7 days earlier, is a valid
date): a bucket of weekday and hour appears in `weekStats` exactly when at
least one entry with a valid timestamp inside the trailing 7 days falls in it, whether or
not any machine of the entry passes the filters; an entry whose filtered list is empty
only opens its bucket, with zero sums and a zero sample counter when the bucket is new,
and changes no sum or counter. -/
theorem weeklyTimes_bucket_appears_iff (rt : Runtime) (now : Int) (f : Filters)
    (lines : List String) (hnow : -maxTime ≤ now - weekMs ∧ now - weekMs ≤ maxTime) :
    (∀ (d : Fin 7) (h : Fin 24),
      (shortDayName d, toString h.val) ∈ (weeklyTimes rt now f lines).map Prod.fst ↔
        ∃ line ∈ lines, ∃ ts ms t, rt.jsonParse line = some (.value ts ms) ∧
          newDate rt ts = some t ∧ now - t ≤ weekMs ∧ rt.localDay t = d ∧
          rt.localHour t = h) ∧
    (∀ (st : WeekState) (line : String) (ts : JsVal) (elems : List (Option MachineObj)),
      rt.jsonParse line = some (.value ts (.array elems)) →
      dateLt (newDate rt ts) (timeClip (now - weekMs)) = false →
      filterTry (keepMachine rt f) elems = some [] →
        weeklyLine rt (timeClip (now - weekMs)) f st line
          = { stats := Table.ensure (dayShort rt (newDate rt ts), hourText rt (newDate rt ts))
                { available := 0, inUse := 0, total := 0 } st.stats,
              counts := Table.ensure (dayShort rt (newDate rt ts), hourText rt (newDate rt ts))
                0 st.counts }) := by
  constructor
  · intro d h
    rw [weeklyTimes_keys]
    constructor
    · rintro ⟨line, hline, hb⟩
      exact ⟨line, hline, (bucketOf_slot rt now hnow line d h).mp hb⟩
    · rintro ⟨line, hline, hb⟩
      exact ⟨line, hline, (bucketOf_slot rt now hnow line d h).mpr hb⟩
  · intro st line ts elems hp hlt hfil
    simp [weeklyLine, hp, hlt, hfil]

set_option maxRecDepth 100000 in
theorem weeklyTimes_bucket_appears_iff_witness :
    (-maxTime ≤ sampleNow - weekMs ∧ sampleNow - weekMs ≤ maxTime) ∧
    (weeklyTimes sampleRuntime sampleNow noFilters [lineOld, lineMon8]).map Prod.fst
      = [("Mon", "8")] ∧
    (((shortDayName 1, toString (8 : Fin 24).val) ∈
        (weeklyTimes sampleRuntime sampleNow noFilters [lineOld, lineMon8]).map Prod.fst) ↔
      ∃ line ∈ [lineOld, lineMon8], ∃ ts ms t,
        sampleRuntime.jsonParse line = some (.value ts ms) ∧
        newDate sampleRuntime ts = some t ∧ sampleNow - t ≤ weekMs ∧
        sampleRuntime.localDay t = 1 ∧ sampleRuntime.localHour t = 8) :=
  ⟨by decide, by decide,
    (weeklyTimes_bucket_appears_iff sampleRuntime sampleNow noFilters [lineOld, lineMon8]
      (by decide)).1 1 8⟩

set_option maxRecDepth 100000 in
/-- C10 as stated fails: the only entry of the log has an empty machine list, yet its
bucket appears in the output, with zero averages and `count` 1. -/
theorem weeklyTimes_emits_zero_sample_bucket :
    sampleRuntime.jsonParse lineEmpty
      = some (.value (.str "2024-01-01T08:00:00.000Z") (.array [])) ∧
    weeklyTimes sampleRuntime sampleNow noFilters [lineEmpty]
      = [(("Mon", "8"), { available := 0, inUse := 0, total := 0, count := 1 })] := by
  have hs : (weekStateOf sampleRuntime sampleNow noFilters [lineEmpty]).stats
      = [(("Mon", "8"), { available := 0, inUse := 0, total := 0 })] := by decide
  have hc : (weekStateOf sampleRuntime sampleNow noFilters [lineEmpty]).counts
      = [(("Mon", "8"), 0)] := by decide
  have hd : divisor [(("Mon", "8"), 0)] ("Mon", "8") = 1 := by decide
  refine ⟨by decide, ?_⟩
  unfold weeklyTimes
  simp only [hs, hc, List.map, hd]
  simp
  decide

/-! ## Keys of well-formed records -/

theorem separator_at (d m k : List Char) (h : d ++ '_' :: '_' :: m = k) :
    (k.drop d.length).take 2 = ['_', '_'] ∧ k.length = d.length + 2 + m.length := by
  subst h
  simp
  omega

set_option maxRecDepth 100000 in
theorem inheritedKeys_shape : ∀ k ∈ inheritedKeys, ∀ n < k.toList.length,
    0 < n → (k.toList.drop n).take 2 = ['_', '_'] → k.toList.length = n + 2 := by
  decide

/-- The key of a record with non-empty `dorm` and `machine` texts is not one of the
inherited keys. -/
theorem machineKey_not_inherited (d m t s : String) (hd : d ≠ "") (hm : m ≠ "") :
    machineKey { dorm := .str d, machine := .str m, type := .str t, status := .str s }
      ∉ inheritedKeys := by
  intro hin
  have hkey : (d ++ "__" ++ m).toList = d.toList ++ '_' :: '_' :: m.toList := by
    simp
  obtain ⟨h1, h2⟩ := separator_at d.toList m.toList _ hkey.symm
  have hdl : 0 < d.toList.length := by
    cases hdd : d.toList with
    | nil => exact absurd (String.ext hdd) hd
    | cons c cs => simp
  have hml : 0 < m.toList.length := by
    cases hmm : m.toList with
    | nil => exact absurd (String.ext hmm) hm
    | cons c cs => simp
  have hin2 : d ++ "__" ++ m ∈ inheritedKeys := hin
  have := inheritedKeys_shape _ hin2 d.toList.length (by omega) hdl h1
  omega

theorem rowFold_isSome (rt : Runtime) (k : String) (recs : List MachineObj)
    (start : Option MachineStats) (h : start.isSome ∨ ∃ mo ∈ recs, machineKey mo = k) :
    (rowFold rt k start recs).isSome := by
  induction recs generalizing start with
  | nil =>
    rcases h with h | ⟨mo, hmo, -⟩
    · exact h
    · simp at hmo
  | cons x rest ih =>
    simp only [rowFold, List.foldl_cons]
    by_cases hx : machineKey x = k
    · simp only [hx, if_true]
      exact ih _ (Or.inl rfl)
    · simp only [hx, if_false]
      apply ih
      rcases h with h | ⟨mo, hmo, hk⟩
      · exact Or.inl h
      · rcases List.mem_cons.mp hmo with hmo | hmo
        · subst hmo
          exact absurd hk hx
        · exact Or.inr ⟨mo, hmo, hk⟩

theorem wellFormed_records (rt : Runtime) (week : Bool) (now : Int) (lines : List String)
    (hwf : wellFormedLog rt lines = true) :
    ∀ mo ∈ scanRecords rt week now lines, wellFormedMachine (some mo) = true := by
  intro mo hmo
  obtain ⟨line, hline, hm⟩ := (mem_scanRecords rt week now lines mo).mp hmo
  simp only [wellFormedLog, List.all_eq_true] at hwf
  obtain ⟨ts, ms, t, hp, -, hms⟩ := wellFormedLine_elim rt line (hwf line hline)
  simp only [scanElems, hp] at hm
  split at hm
  · simp at hm
  · exact hms _ hm

/-! ## End-to-end scenarios -/

theorem bestTimesLine_single (rt : Runtime) (line : String) (ts : JsVal) (m : MachineObj)
    (s : String) (stats : Table String Nat)
    (hp : rt.jsonParse line = some (.value ts (.array [some m])))
    (hs : m.status = .str s) (ha : rt.toLowerCase s = "available") :
    bestTimesLine rt stats line = bump (bestTimesKey rt (newDate rt ts)) stats := by
  simp [bestTimesLine, hp, forEachTry, bestTimesMachine, hs, toLowerCaseOf, ha, Outcome.state]

/-- C13, as amended: for a log of two entries, each holding one machine whose status is
exactly `available` up to case, `bestTimes` yields one item with `availableCount` 2 when
the two timestamps fall in the same local weekday and hour, and otherwise one item with
`availableCount` 1 for each of the two hours, in log order. -/
theorem bestTimes_pair (rt : Runtime) (l1 l2 : String) (ts1 ts2 : JsVal) (t1 t2 : Int)
    (m1 m2 : MachineObj) (s1 s2 : String)
    (hp1 : rt.jsonParse l1 = some (.value ts1 (.array [some m1])))
    (hp2 : rt.jsonParse l2 = some (.value ts2 (.array [some m2])))
    (hd1 : newDate rt ts1 = some t1) (hd2 : newDate rt ts2 = some t2)
    (hs1 : m1.status = .str s1) (hs2 : m2.status = .str s2)
    (ha1 : rt.toLowerCase s1 = "available") (ha2 : rt.toLowerCase s2 = "available") :
    ((rt.localDay t1 = rt.localDay t2 ∧ rt.localHour t1 = rt.localHour t2) →
      bestTimes rt [l1, l2]
        = [{ time := slotKey (rt.localDay t1) (rt.localHour t1), availableCount := 2 }]) ∧
    (¬ (rt.localDay t1 = rt.localDay t2 ∧ rt.localHour t1 = rt.localHour t2) →
      bestTimes rt [l1, l2]
        = [{ time := slotKey (rt.localDay t1) (rt.localHour t1), availableCount := 1 },
           { time := slotKey (rt.localDay t2) (rt.localHour t2), availableCount := 1 }]) := by
  have hk1 : bestTimesKey rt (some t1) = slotKey (rt.localDay t1) (rt.localHour t1) := rfl
  have hk2 : bestTimesKey rt (some t2) = slotKey (rt.localDay t2) (rt.localHour t2) := rfl
  have hstats : hourStatsOf rt [l1, l2]
      = bump (slotKey (rt.localDay t2) (rt.localHour t2))
          (bump (slotKey (rt.localDay t1) (rt.localHour t1)) []) := by
    simp only [hourStatsOf, List.foldl_cons, List.foldl_nil]
    rw [bestTimesLine_single rt l1 ts1 m1 s1 [] hp1 hs1 ha1,
      bestTimesLine_single rt l2 ts2 m2 s2 _ hp2 hs2 ha2, hd1, hd2, hk1, hk2]
  constructor
  · rintro ⟨hd, hh⟩
    rw [bestTimes, hstats, ← hd, ← hh]
    simp [bump, Table.ensure, Table.modify, jsSort]
  · intro hne
    have hkne : ¬ slotKey (rt.localDay t1) (rt.localHour t1)
        = slotKey (rt.localDay t2) (rt.localHour t2) :=
      fun h => hne (slotKey_injective _ _ _ _ h)
    rw [bestTimes, hstats]
    simp [bump, Table.ensure, Table.modify, jsSort, hkne]

theorem fieldName_str (rt : Runtime) (s : String) :
    fieldName rt (.str s) = some (rt.toLowerCase (rt.trim s)) := by
  by_cases h : s = ""
  · simp [fieldName, truthy, h]
  · simp [fieldName, truthy, h]

theorem keepMachine_noFilters (rt : Runtime) (d ty s : String) (x : JsVal) :
    keepMachine rt noFilters
      (some { dorm := .str d, machine := x, type := .str ty, status := .str s }) = some true := by
  simp [keepMachine, fieldName_str, noFilters, filterParam, passes]

/-- C12, as amended: for a log with two in-window entries in the same bucket, the first
holding one available and one in-use machine and the second two available machines,
`weeklyTimes` without filters returns for that bucket available 1.5, inUse 0.5, total 2
and count 2. -/
theorem weeklyTimes_two_entries (rt : Runtime) (now : Int) (l1 l2 : String) (ts1 ts2 : JsVal)
    (key : WeekKey) (d1 d2 d3 d4 y1 y2 y3 y4 s1 s2 s3 s4 : String) (x1 x2 x3 x4 : JsVal)
    (hp1 : rt.jsonParse l1 = some (.value ts1 (.array
      [some { dorm := .str d1, machine := x1, type := .str y1, status := .str s1 },
       some { dorm := .str d2, machine := x2, type := .str y2, status := .str s2 }])))
    (hp2 : rt.jsonParse l2 = some (.value ts2 (.array
      [some { dorm := .str d3, machine := x3, type := .str y3, status := .str s3 },
       some { dorm := .str d4, machine := x4, type := .str y4, status := .str s4 }])))
    (hw1 : dateLt (newDate rt ts1) (timeClip (now - weekMs)) = false)
    (hw2 : dateLt (newDate rt ts2) (timeClip (now - weekMs)) = false)
    (hk1 : (dayShort rt (newDate rt ts1), hourText rt (newDate rt ts1)) = key)
    (hk2 : (dayShort rt (newDate rt ts2), hourText rt (newDate rt ts2)) = key)
    (ha1 : includes (rt.toLowerCase s1) "available" = true)
    (hn2 : includes (rt.toLowerCase s2) "available" = false)
    (hu2 : includes (rt.toLowerCase s2) "in use" = true)
    (ha3 : includes (rt.toLowerCase s3) "available" = true)
    (ha4 : includes (rt.toLowerCase s4) "available" = true) :
    weeklyTimes rt now noFilters [l1, l2]
      = [(key, { available := 3 / 2, inUse := 1 / 2, total := 2, count := 2 })] := by
  have hst : weekStateOf rt now noFilters [l1, l2]
      = { stats := [(key, { available := 3, inUse := 1, total := 4 })],
          counts := [(key, 2)] } := by
    simp [weekStateOf, weeklyLine, hp1, hp2, hw1, hw2, hk1, hk2, filterTry,
      keepMachine_noFilters, tallyMachines, toLowerCaseOf, ha1, hn2, hu2, ha3, ha4,
      Table.ensure, Table.modify]
  unfold weeklyTimes
  rw [hst]
  simp [divisor, Table.get?]
  norm_num

set_option maxRecDepth 100000 in
theorem weeklyTimes_two_entries_witness :
    weeklyTimes sampleRuntime sampleNow noFilters [lineMon8, lineMon830]
      = [(("Mon", "8"), { available := 3 / 2, inUse := 1 / 2, total := 2, count := 2 })] :=
  weeklyTimes_two_entries sampleRuntime sampleNow lineMon8 lineMon830
    (.str "2024-01-01T08:00:00.000Z") (.str "2024-01-01T08:30:00.000Z") ("Mon", "8")
    "A" "A" "A" "A" "Washer" "Dryer" "Washer" "Washer" "Available" "In Use" "Available"
    "Available" (.str "W1") (.str "D1") (.str "W1") (.str "W2")
    (by decide) (by decide) (by decide) (by decide) (by decide) (by decide) (by decide)
    (by decide) (by decide) (by decide) (by decide)

/-- The output for a scan that ends with a single bucket. -/
theorem weeklyTimes_single_bucket (rt : Runtime) (now : Int) (f : Filters) (lines : List String)
    (k : WeekKey) (b : Sums) (c : Nat)
    (hs : (weekStateOf rt now f lines).stats = [(k, b)])
    (hc : (weekStateOf rt now f lines).counts = [(k, c)]) (hc0 : c ≠ 0) :
    weeklyTimes rt now f lines
      = [(k, { available := (b.available : Rat) / c, inUse := (b.inUse : Rat) / c,
               total := (b.total : Rat) / c, count := c })] := by
  unfold weeklyTimes
  simp only [hs, hc, List.map_cons, List.map_nil]
  have hd : divisor [(k, c)] k = c := by
    simp [divisor, Table.get?, hc0]
  rw [hd]

set_option maxRecDepth 100000 in
/-- C12 as stated fails: in the scenario the two entries hold two machines each, so the
mean of `total` is 2, not 1.5. -/
theorem weeklyTimes_scenario_total_is_two :
    weeklyTimes sampleRuntime sampleNow noFilters [lineMon8, lineMon830]
      = [(("Mon", "8"), { available := 3 / 2, inUse := 1 / 2, total := 2, count := 2 })] ∧
    (2 : Rat) ≠ 3 / 2 := by
  refine ⟨?_, by norm_num⟩
  rw [weeklyTimes_single_bucket sampleRuntime sampleNow noFilters [lineMon8, lineMon830]
    ("Mon", "8") { available := 3, inUse := 1, total := 4 } 2 (by decide) (by decide)
    (by decide)]
  norm_num

set_option maxRecDepth 100000 in
theorem bestTimes_pair_witness :
    bestTimes sampleRuntime [lineSun8, lineSun830]
      = [{ time := slotKey (sampleRuntime.localDay 1704009600000)
                     (sampleRuntime.localHour 1704009600000), availableCount := 2 }] :=
  (bestTimes_pair sampleRuntime lineSun8 lineSun830 (.str "2023-12-31T08:00:00.000Z")
    (.str "2023-12-31T08:30:00.000Z") 1704009600000 1704011400000
    { dorm := .str "A", machine := .str "W1", type := .str "Washer", status := .str "Available" }
    { dorm := .str "A", machine := .str "W1", type := .str "Washer", status := .str "Available" }
    "Available" "Available" (by decide) (by decide) (by decide) (by decide) rfl rfl
    (by decide) (by decide)).1 (by decide)

set_option maxRecDepth 100000 in
/-- C13 as stated fails: two entries one hour apart, each with one washer of location `A`
whose status is exactly `Available`, fall in two hours and give two items with count 1. -/
theorem bestTimes_one_hour_apart_two_items :
    sampleDateParse "2023-12-31T09:00:00.000Z" = some (1704009600000 + 60 * 60 * 1000) ∧
    sampleDateParse "2023-12-31T08:00:00.000Z" = some 1704009600000 ∧
    bestTimes sampleRuntime [lineSun8, lineSun9]
      = [{ time := "Sunday 8:00", availableCount := 1 },
         { time := "Sunday 9:00", availableCount := 1 }] := by
  refine ⟨by decide, by decide, by decide⟩

set_option maxRecDepth 100000 in
/-- C18 fails on `linePartial`: the first machine of the entry is counted, the row of the
second is created and then `status.toLowerCase()` throws, so that row has `total` 0 and
the third machine of the same entry is not counted. -/
theorem analytics_partial_entry_zero_total :
    sampleRuntime.jsonParse linePartial
      = some (.value (.str "2024-01-01T08:00:00.000Z")
          (.array [textMachine "A" "W1" "Washer" "Available",
                   some { dorm := .str "A", machine := .str "W2", type := .str "Washer",
                          status := .undefined },
                   textMachine "A" "W3" "Washer" "In Use"])) ∧
    (∀ week, machineAnalytics sampleRuntime week sampleNow [linePartial]
      = some [{ dorm := .str "A", machine := .str "W1", type := .str "Washer", available := 1,
                inUse := 0, outOfOrder := 0, endOfCycle := 0, almostDone := 0, total := 1 },
              { dorm := .str "A", machine := .str "W2", type := .str "Washer", available := 0,
                inUse := 0, outOfOrder := 0, endOfCycle := 0, almostDone := 0,
                total := 0 }]) := by
  refine ⟨by decide, ?_⟩
  intro week
  cases week <;> decide

/-! ## Snapshot cache -/

theorem isStale_iff (rt : Runtime) (now : Int) (s : Snapshot) :
    isStale rt now s = true ↔
      (truthy s.lastUpdated = false ∨ ∃ t, newDate rt s.lastUpdated = some t ∧ now - t > staleMs) := by
  unfold isStale
  by_cases ht : truthy s.lastUpdated = true
  · rw [if_pos ht]
    cases hd : newDate rt s.lastUpdated with
    | none => simp [ht]
    | some t => simp [ht]
  · rw [if_neg ht]
    simp [ht]

theorem refresh_snapshot (rt : Runtime) (cd : Codec) (now pruneNow : Int) (out : FetchOutcome)
    (st : ServerState) (outcomes : List (Option (List MachineObj)))
    (h : out.locations = some outcomes) :
    (fetchAndLogLaundry rt cd now pruneNow out st).1.snapshot
      = { machines := some (.array ((allMachinesOf outcomes).map some)),
          lastUpdated := .str (cd.toISOString now) } ∧
    (fetchAndLogLaundry rt cd now pruneNow out st).2 = some (allMachinesOf outcomes) := by
  simp [fetchAndLogLaundry, h]

/-- C14: a cached read (`GET /api/laundry?cached=1` or `GET /api/laundry/snapshot`)
launches a background refresh exactly when the snapshot, as it stands after the seeding
step of the read, has no `lastUpdated` or is older than 30 minutes (an age of exactly 30
minutes is not stale); the response is that snapshot, built before the refresh can change
anything, and a snapshot that already has machines is returned as it was.  In particular
a cached read at most 30 minutes after a successful refresh returns the machines of that
refresh and launches no refresh. -/
theorem cachedRead_refresh_iff_stale (rt : Runtime) (now : Int) (store : Option String)
    (s : Snapshot) :
    ((cachedRead rt now store s).2.1 = true ↔
      (truthy (cachedRead rt now store s).1.lastUpdated = false ∨
        ∃ t, newDate rt (cachedRead rt now store s).1.lastUpdated = some t ∧
          now - t > staleMs)) ∧
    (cachedRead rt now store s).2.2 = responseOf (cachedRead rt now store s).1 ∧
    (cachedRead rt now store s).1 = seedSnapshot rt store s ∧
    (machinesFalsy s.machines = false → (cachedRead rt now store s).1 = s) ∧
    (∀ (cd : Codec) (now0 pruneNow : Int) (out : FetchOutcome) (st : ServerState)
        (outcomes : List (Option (List MachineObj))),
      out.locations = some outcomes →
      rt.dateParse (cd.toISOString now0) = some now0 → cd.toISOString now0 ≠ "" →
      now - now0 ≤ staleMs →
        (cachedRead rt now (fetchAndLogLaundry rt cd now0 pruneNow out st).1.log
            (fetchAndLogLaundry rt cd now0 pruneNow out st).1.snapshot).2.1 = false ∧
        (cachedRead rt now (fetchAndLogLaundry rt cd now0 pruneNow out st).1.log
            (fetchAndLogLaundry rt cd now0 pruneNow out st).1.snapshot).2.2
          = { machines := .array ((allMachinesOf outcomes).map some),
              lastUpdated := .str (cd.toISOString now0) }) := by
  refine ⟨isStale_iff rt now _, rfl, rfl, ?_, ?_⟩
  · intro h
    simp [cachedRead, seedSnapshot, h]
  · intro cd now0 pruneNow out st outcomes hloc hparse hne hage
    rw [(refresh_snapshot rt cd now0 pruneNow out st outcomes hloc).1]
    have hseed : ∀ store2, seedSnapshot rt store2
        { machines := some (.array ((allMachinesOf outcomes).map some)),
          lastUpdated := .str (cd.toISOString now0) }
        = { machines := some (.array ((allMachinesOf outcomes).map some)),
            lastUpdated := .str (cd.toISOString now0) } := by
      intro store2
      simp [seedSnapshot, machinesFalsy]
    constructor
    · simp only [cachedRead, hseed, isStale, truthy, newDate, hparse]
      simp [hne]
      omega
    · simp only [cachedRead, hseed]
      rfl

set_option maxRecDepth 100000 in
theorem cachedRead_refresh_iff_stale_witness :
    (cachedRead sampleRuntime (sampleNow + staleMs)
        (fetchAndLogLaundry sampleRuntime sampleCodec sampleNow sampleNow sampleOutcome
          { snapshot := Snapshot.initial, log := some (lineMon8 ++ "\n") }).1.log
        (fetchAndLogLaundry sampleRuntime sampleCodec sampleNow sampleNow sampleOutcome
          { snapshot := Snapshot.initial, log := some (lineMon8 ++ "\n") }).1.snapshot).2.1
      = false ∧
    (cachedRead sampleRuntime (sampleNow + staleMs)
        (fetchAndLogLaundry sampleRuntime sampleCodec sampleNow sampleNow sampleOutcome
          { snapshot := Snapshot.initial, log := some (lineMon8 ++ "\n") }).1.log
        (fetchAndLogLaundry sampleRuntime sampleCodec sampleNow sampleNow sampleOutcome
          { snapshot := Snapshot.initial, log := some (lineMon8 ++ "\n") }).1.snapshot).2.2
      = { machines := .array ((allMachinesOf
            [some [{ dorm := .str "A", machine := .str "W1", type := .str "Washer",
                     status := .str "Available" }], none]).map some),
          lastUpdated := .str (sampleCodec.toISOString sampleNow) } :=
  (cachedRead_refresh_iff_stale sampleRuntime (sampleNow + staleMs) none Snapshot.initial).2.2.2.2
    sampleCodec sampleNow sampleNow sampleOutcome
    { snapshot := Snapshot.initial, log := some (lineMon8 ++ "\n") }
    [some [{ dorm := .str "A", machine := .str "W1", type := .str "Washer",
             status := .str "Available" }], none]
    rfl (by decide) (by decide) (by decide)

/-! ## Warm start from the log -/

/-- C15, as amended: `readLastLogSnapshot` looks at the last non-empty line of the
trimmed file only: when that line parses as an entry, the entry is returned and seeds an
empty snapshot; when it does not parse, the result is `null` whatever the earlier lines
are; the result is also `null` when the file is missing or blank. -/
theorem readLastLogSnapshot_last_line_only (rt : Runtime) :
    readLastLogSnapshot rt none = none ∧
    (∀ content, rt.trim content = "" → readLastLogSnapshot rt (some content) = none) ∧
    (∀ (content : String) (pre : List String) (last : String),
      rt.trim content ≠ "" → readLines (rt.trim content) = pre ++ [last] →
        (∀ ts ms, rt.jsonParse last = some (.value ts ms) →
          readLastLogSnapshot rt (some content)
            = some { machines := some (machinesOrEmpty ms), lastUpdated := ts } ∧
          seedSnapshot rt (some content) Snapshot.initial
            = { machines := some (machinesOrEmpty ms), lastUpdated := ts }) ∧
        ((rt.jsonParse last = none ∨ rt.jsonParse last = some .nullLit) →
          readLastLogSnapshot rt (some content) = none ∧
          seedSnapshot rt (some content) Snapshot.initial = Snapshot.initial)) := by
  refine ⟨rfl, ?_, ?_⟩
  · intro content h
    simp [readLastLogSnapshot, h]
  · intro content pre last hdata hlines
    have hlast : (readLines (rt.trim content)).getLast? = some last := by
      rw [hlines]
      simp
    constructor
    · intro ts ms hp
      have h1 : readLastLogSnapshot rt (some content)
          = some { machines := some (machinesOrEmpty ms), lastUpdated := ts } := by
        simp [readLastLogSnapshot, hdata, hlast, hp]
      refine ⟨h1, ?_⟩
      simp [seedSnapshot, Snapshot.initial, machinesFalsy, h1]
    · intro hp
      have h1 : readLastLogSnapshot rt (some content) = none := by
        rcases hp with hp | hp
        · simp [readLastLogSnapshot, hdata, hlast, hp]
        · simp [readLastLogSnapshot, hdata, hlast, hp]
      refine ⟨h1, ?_⟩
      simp [seedSnapshot, Snapshot.initial, machinesFalsy, h1]

set_option maxRecDepth 100000 in
theorem readLastLogSnapshot_last_line_only_witness :
    sampleRuntime.trim (lineOld ++ "\n" ++ lineMon8 ++ "\n") ≠ "" ∧
    readLines (sampleRuntime.trim (lineOld ++ "\n" ++ lineMon8 ++ "\n")) = [lineOld] ++ [lineMon8] ∧
    readLastLogSnapshot sampleRuntime (some (lineOld ++ "\n" ++ lineMon8 ++ "\n"))
      = some { machines := some (machinesOrEmpty
                (.array [textMachine "A" "W1" "Washer" "Available",
                         textMachine "A" "D1" "Dryer" "In Use"])),
               lastUpdated := .str "2024-01-01T08:00:00.000Z" } :=
  ⟨by decide, by decide,
    (((readLastLogSnapshot_last_line_only sampleRuntime).2.2
      (lineOld ++ "\n" ++ lineMon8 ++ "\n") [lineOld] lineMon8 (by decide) (by decide)).1
      (.str "2024-01-01T08:00:00.000Z")
      (.array [textMachine "A" "W1" "Washer" "Available",
               textMachine "A" "D1" "Dryer" "In Use"]) (by decide)).1⟩

set_option maxRecDepth 100000 in
/-- C15 as stated fails: the last line of the file is malformed and the line before it is
a valid entry, yet the result is `null` and the empty snapshot is not seeded. -/
theorem readLastLogSnapshot_ignores_earlier_valid_line :
    storeLines storeTruncatedLast = [lineMon8, lineTruncated] ∧
    sampleRuntime.jsonParse lineTruncated = none ∧
    sampleRuntime.jsonParse lineMon8
      = some (.value (.str "2024-01-01T08:00:00.000Z")
          (.array [textMachine "A" "W1" "Washer" "Available",
                   textMachine "A" "D1" "Dryer" "In Use"])) ∧
    readLastLogSnapshot sampleRuntime storeTruncatedLast = none ∧
    seedSnapshot sampleRuntime storeTruncatedLast Snapshot.initial = Snapshot.initial := by
  refine ⟨by decide, by decide, by decide, by decide, by decide⟩

/-! ## Refresh -/

theorem allMachinesOf_foldl (outcomes : List (Option (List MachineObj)))
    (acc : List MachineObj) :
    outcomes.foldl addLocation acc = acc ++ (outcomes.filterMap id).flatten := by
  induction outcomes generalizing acc with
  | nil => simp
  | cons o rest ih =>
    cases o with
    | none => simp [ih, addLocation]
    | some ms => simp [ih, addLocation]

/-- The machines of a refresh are those of the locations that could be fetched, in
order. -/
theorem allMachinesOf_eq (outcomes : List (Option (List MachineObj))) :
    allMachinesOf outcomes = (outcomes.filterMap id).flatten := by
  unfold allMachinesOf
  rw [allMachinesOf_foldl]
  simp

/-- C16: `fetchAndLogLaundry` returns `null`, and the live read answers with a server
error, exactly when the list of locations cannot be got, and then the snapshot and the
log are unchanged; otherwise it succeeds whatever locations fail, and its result, which
is put in the snapshot and, when the append succeeds, written as one entry to the log
before pruning, is the concatenation of the machines of the locations that could be
fetched. -/
theorem refresh_fails_iff_endpoint_list_fails (rt : Runtime) (cd : Codec) (now pruneNow : Int)
    (out : FetchOutcome) (st : ServerState) :
    ((fetchAndLogLaundry rt cd now pruneNow out st).2 = none ↔ out.locations = none) ∧
    ((liveRead rt cd now pruneNow out st).2 = .serverError ↔ out.locations = none) ∧
    (out.locations = none →
      (fetchAndLogLaundry rt cd now pruneNow out st).1.snapshot = st.snapshot ∧
      (fetchAndLogLaundry rt cd now pruneNow out st).1.log = st.log ∧
      (liveRead rt cd now pruneNow out st).1.snapshot = st.snapshot ∧
      (liveRead rt cd now pruneNow out st).1.log = st.log) ∧
    (∀ outcomes, out.locations = some outcomes →
      (fetchAndLogLaundry rt cd now pruneNow out st).2
        = some ((outcomes.filterMap id).flatten) ∧
      (liveRead rt cd now pruneNow out st).2 = .ok ((outcomes.filterMap id).flatten) ∧
      (fetchAndLogLaundry rt cd now pruneNow out st).1.snapshot
        = { machines := some (.array (((outcomes.filterMap id).flatten).map some)),
            lastUpdated := .str (cd.toISOString now) } ∧
      (out.appendOk = true →
        (fetchAndLogLaundry rt cd now pruneNow out st).1.log
          = (pruneOldLogEntries rt pruneNow (some (st.log.getD ""
              ++ cd.stringifyEntry (cd.toISOString now) ((outcomes.filterMap id).flatten)
              ++ "\n"))).1) ∧
      (out.appendOk = false →
        (fetchAndLogLaundry rt cd now pruneNow out st).1.log = st.log)) := by
  cases hloc : out.locations with
  | none =>
    simp [fetchAndLogLaundry, liveRead, hloc]
  | some outcomes =>
    simp only [fetchAndLogLaundry, liveRead, hloc, allMachinesOf_eq]
    cases out.appendOk <;> simp

set_option maxRecDepth 100000 in
theorem refresh_fails_iff_endpoint_list_fails_witness :
    (fetchAndLogLaundry sampleRuntime sampleCodec sampleNow sampleNow sampleOutcome
        { snapshot := Snapshot.initial, log := some (lineMon8 ++ "\n") }).2
      = some [{ dorm := .str "A", machine := .str "W1", type := .str "Washer",
                status := .str "Available" }] ∧
    (fetchAndLogLaundry sampleRuntime sampleCodec sampleNow sampleNow sampleOutcome
        { snapshot := Snapshot.initial, log := some (lineMon8 ++ "\n") }).1.log
      = some (lineMon8 ++ "\n" ++ lineRefresh ++ "\n") ∧
    ((fetchAndLogLaundry sampleRuntime sampleCodec sampleNow sampleNow failedOutcome
        { snapshot := Snapshot.initial, log := some (lineMon8 ++ "\n") }).2 = none ↔
      failedOutcome.locations = none) :=
  ⟨by decide, by decide,
    (refresh_fails_iff_endpoint_list_fails sampleRuntime sampleCodec sampleNow sampleNow
      failedOutcome { snapshot := Snapshot.initial, log := some (lineMon8 ++ "\n") }).1⟩

/-! ## Refresh triggers -/

theorem seedSnapshot_idem (rt : Runtime) (store : Option String) (s : Snapshot) :
    seedSnapshot rt store (seedSnapshot rt store s) = seedSnapshot rt store s := by
  by_cases hf : machinesFalsy s.machines = true
  · cases hr : readLastLogSnapshot rt store with
    | none =>
      have h1 : seedSnapshot rt store s = s := by simp [seedSnapshot, hf, hr]
      rw [h1, h1]
    | some last =>
      have h1 : seedSnapshot rt store s
          = { machines := last.machines, lastUpdated := last.lastUpdated } := by
        simp [seedSnapshot, hf, hr]
      rw [h1]
      unfold seedSnapshot
      split
      · simp [hr]
      · rfl
  · have h1 : seedSnapshot rt store s = s := by simp [seedSnapshot, hf]
    rw [h1, h1]

theorem step_cachedRead (rt : Runtime) (cd : Codec) (sys : System) (now : Int) :
    (step rt cd sys (.cachedRead now)).state.log = sys.state.log ∧
    (step rt cd sys (.cachedRead now)).state.snapshot
      = seedSnapshot rt sys.state.log sys.state.snapshot ∧
    (step rt cd sys (.cachedRead now)).inFlight
      = sys.inFlight
        + (if isStale rt now (seedSnapshot rt sys.state.log sys.state.snapshot) = true then 1
           else 0) := by
  refine ⟨rfl, rfl, ?_⟩
  simp only [step, cachedRead]
  split <;> simp_all

theorem run_cachedReads (rt : Runtime) (cd : Codec) (now : Int) (n : Nat) (sys : System)
    (hstale : isStale rt now (seedSnapshot rt sys.state.log sys.state.snapshot) = true) :
    (run rt cd sys (List.replicate n (.cachedRead now))).inFlight = sys.inFlight + n := by
  induction n generalizing sys with
  | zero => rfl
  | succ n ih =>
    obtain ⟨hlog, hsnap, hin⟩ := step_cachedRead rt cd sys now
    simp only [run, List.replicate_succ, List.foldl_cons]
    have := ih (step rt cd sys (.cachedRead now)) (by
      rw [hlog, hsnap, seedSnapshot_idem]
      exact hstale)
    simp only [run] at this
    rw [this, hin, if_pos hstale]
    omega

/-- C17, as amended: the code has no single-flight guard.  A timer tick and a live read
launch a refresh whatever is in flight, a cached read launches one exactly when the
snapshot is stale, again whatever is in flight; so `n` simultaneous cached reads of a
stale snapshot launch `n` refreshes. -/
theorem refreshes_launch_without_guard (rt : Runtime) (cd : Codec) (sys : System) :
    (step rt cd sys .timerTick).inFlight = sys.inFlight + 1 ∧
    (step rt cd sys .liveRead).inFlight = sys.inFlight + 1 ∧
    (∀ now, (step rt cd sys (.cachedRead now)).inFlight
      = sys.inFlight
        + (if isStale rt now (seedSnapshot rt sys.state.log sys.state.snapshot) = true then 1
           else 0)) ∧
    (∀ now n, isStale rt now (seedSnapshot rt sys.state.log sys.state.snapshot) = true →
      (run rt cd sys (List.replicate n (.cachedRead now))).inFlight = sys.inFlight + n) := by
  refine ⟨rfl, rfl, ?_, ?_⟩
  · intro now
    exact (step_cachedRead rt cd sys now).2.2
  · intro now n hstale
    exact run_cachedReads rt cd now n sys hstale

set_option maxRecDepth 100000 in
theorem refreshes_launch_without_guard_witness :
    isStale sampleRuntime (sampleNow + staleMs + 1)
        (seedSnapshot sampleRuntime (some (lineRefresh ++ "\n"))
          { machines := some (.array []), lastUpdated := .str "2024-01-02T00:00:00.000Z" })
      = true ∧
    (run sampleRuntime sampleCodec
        { state := { snapshot := { machines := some (.array []),
                                   lastUpdated := .str "2024-01-02T00:00:00.000Z" },
                     log := some (lineRefresh ++ "\n") },
          inFlight := 0 }
        (List.replicate 3 (.cachedRead (sampleNow + staleMs + 1)))).inFlight = 0 + 3 :=
  ⟨by decide,
    (refreshes_launch_without_guard sampleRuntime sampleCodec
      { state := { snapshot := { machines := some (.array []),
                                 lastUpdated := .str "2024-01-02T00:00:00.000Z" },
                   log := some (lineRefresh ++ "\n") },
        inFlight := 0 }).2.2.2 (sampleNow + staleMs + 1) 3 (by decide)⟩

set_option maxRecDepth 100000 in
/-- C17 as stated fails: with no refresh in flight and a snapshot older than 30 minutes,
two simultaneous cached reads leave two refreshes in flight; right after start, when
the first refresh is still running, they leave three. -/
theorem two_cached_reads_two_refreshes :
    (run sampleRuntime sampleCodec
        { state := { snapshot := { machines := some (.array []),
                                   lastUpdated := .str "2024-01-02T00:00:00.000Z" },
                     log := some (lineRefresh ++ "\n") },
          inFlight := 0 }
        [.cachedRead (sampleNow + staleMs + 1), .cachedRead (sampleNow + staleMs + 1)]).inFlight
      = 2 ∧
    (run sampleRuntime sampleCodec (System.start none)
        [.cachedRead sampleNow, .cachedRead sampleNow]).inFlight = 3 := by
  refine ⟨by decide, by decide⟩

/-! ## Weekly times: averages -/

theorem textualFields_elim (m : Option MachineObj) (h : textualFields m = true) :
    ∃ d x t s, m = some { dorm := .str d, machine := x, type := .str t, status := .str s } := by
  unfold textualFields at h
  split at h
  · rename_i d x t s
    exact ⟨d, x, t, s, rfl⟩
  · exact absurd h (by simp)

theorem keepMachine_textual (rt : Runtime) (f : Filters) (m : Option MachineObj)
    (h : textualFields m = true) : keepMachine rt f m = some (passesFilters rt f m) := by
  obtain ⟨d, x, t, s, rfl⟩ := textualFields_elim m h
  simp [keepMachine, fieldName_str, passesFilters]

theorem filterTry_textual (rt : Runtime) (f : Filters) (elems : List (Option MachineObj))
    (h : ∀ m ∈ elems, textualFields m = true) :
    filterTry (keepMachine rt f) elems = some (elems.filter (passesFilters rt f)) := by
  induction elems with
  | nil => rfl
  | cons m rest ih =>
    have hm := keepMachine_textual rt f m (h m (List.mem_cons_self _ _))
    have ih2 := ih (fun x hx => h x (List.mem_cons_of_mem _ hx))
    simp only [filterTry, hm, ih2, List.filter_cons]

theorem tallyMachines_textual (rt : Runtime) (ms : List (Option MachineObj))
    (h : ∀ m ∈ ms, textualFields m = true) (acc : Sums) :
    tallyMachines rt ms acc
      = some { available := acc.available + (entrySums rt ms).available,
               inUse := acc.inUse + (entrySums rt ms).inUse,
               total := acc.total + (entrySums rt ms).total } := by
  induction ms generalizing acc with
  | nil => simp [tallyMachines, entrySums]
  | cons m rest ih =>
    obtain ⟨d, x, t, s, rfl⟩ := textualFields_elim m (h m (List.mem_cons_self _ _))
    have ih2 := ih (fun y hy => h y (List.mem_cons_of_mem _ hy))
    simp only [tallyMachines, toLowerCaseOf]
    rw [ih2]
    by_cases ha : includes (rt.toLowerCase s) "available" = true
    · simp [entrySums, lowerStatus, ha, List.filter_cons]
      omega
    · by_cases hu : includes (rt.toLowerCase s) "in use" = true
      · simp [entrySums, lowerStatus, ha, hu, List.filter_cons]
        omega
      · simp [entrySums, lowerStatus, ha, hu, List.filter_cons]
        omega

theorem weeklyLine_closed (rt : Runtime) (md : Option Int) (f : Filters) (st : WeekState)
    (line : String) (h : bucketOf rt md line = none) : weeklyLine rt md f st line = st := by
  unfold bucketOf at h
  unfold weeklyLine
  cases hp : rt.jsonParse line with
  | none => rfl
  | some e =>
    cases e with
    | nullLit => rfl
    | value ts ms =>
      rw [hp] at h
      simp only at h
      by_cases hlt : dateLt (newDate rt ts) md = true
      · simp [hlt]
      · simp [hlt] at h

theorem contribution_key (rt : Runtime) (md : Option Int) (f : Filters) (line : String)
    (k : WeekKey) (t : Sums) (h : contribution rt md f line = some (k, t)) :
    bucketOf rt md line = some k := by
  unfold contribution at h
  cases hb : bucketOf rt md line with
  | none => simp [hb] at h
  | some key =>
    simp only [hb] at h
    split at h
    · split at h
      · simp only [Option.some.injEq, Prod.mk.injEq] at h
        rw [h.1]
      · cases h
    · cases h

theorem weeklyLine_open (rt : Runtime) (md : Option Int) (f : Filters) (st : WeekState)
    (line : String) (key : WeekKey) (hb : bucketOf rt md line = some key)
    (htext : textualLine rt line = true) :
    (contribution rt md f line = none →
      weeklyLine rt md f st line
        = { stats := Table.ensure key { available := 0, inUse := 0, total := 0 } st.stats,
            counts := Table.ensure key 0 st.counts }) ∧
    (∀ t, contribution rt md f line = some (key, t) →
      weeklyLine rt md f st line
        = { stats := Table.modify key (fun b =>
              { available := b.available + t.available, inUse := b.inUse + t.inUse,
                total := b.total + t.total })
              (Table.ensure key { available := 0, inUse := 0, total := 0 } st.stats),
            counts := Table.modify key (fun c => c + 1) (Table.ensure key 0 st.counts) }) := by
  unfold contribution
  rw [hb]
  unfold bucketOf at hb
  unfold textualLine at htext
  unfold weeklyLine
  cases hp : rt.jsonParse line with
  | none => simp [hp] at hb
  | some e =>
    cases e with
    | nullLit => simp [hp] at hb
    | value ts ms =>
      rw [hp] at hb htext
      simp only at hb htext
      by_cases hlt : dateLt (newDate rt ts) md = true
      · simp [hlt] at hb
      · simp only [hlt, Bool.false_eq_true, if_false, Option.some.injEq] at hb
        simp only [hlt, Bool.false_eq_true, if_false, hb]
        cases ms with
        | notArray v => simp
        | array elems =>
          simp only [List.all_eq_true] at htext
          have hfil := filterTry_textual rt f elems htext
          simp only [hfil]
          by_cases hlen : (elems.filter (passesFilters rt f)).length > 0
          · have htal := tallyMachines_textual rt (elems.filter (passesFilters rt f))
              (fun m hm => htext m (List.mem_filter.mp hm).1)
              { available := 0, inUse := 0, total := 0 }
            simp only [hlen, if_true, htal]
            constructor
            · intro h
              cases h
            · intro t ht
              simp only [Option.some.injEq, Prod.mk.injEq, true_and] at ht
              subst ht
              simp
          · simp [hlen]

theorem contributions_snoc (rt : Runtime) (md : Option Int) (f : Filters) (ls : List String)
    (l : String) (k : WeekKey) :
    (contribution rt md f l = none →
      contributions rt md f (ls ++ [l]) k = contributions rt md f ls k) ∧
    (∀ key t, contribution rt md f l = some (key, t) → key ≠ k →
      contributions rt md f (ls ++ [l]) k = contributions rt md f ls k) ∧
    (∀ t, contribution rt md f l = some (k, t) →
      contributions rt md f (ls ++ [l]) k = contributions rt md f ls k ++ [t]) := by
  refine ⟨?_, ?_, ?_⟩
  · intro h
    simp [contributions, List.filterMap_append, h]
  · intro key t h hne
    simp [contributions, List.filterMap_append, h, hne]
  · intro t h
    simp [contributions, List.filterMap_append, h]

theorem totalsOf_snoc (cs : List Sums) (t : Sums) :
    totalsOf (cs ++ [t])
      = { available := (totalsOf cs).available + t.available,
          inUse := (totalsOf cs).inUse + t.inUse,
          total := (totalsOf cs).total + t.total } := by
  simp [totalsOf]

/-- The entry of a bucket in the two tables after the scan: absent from both, or the sums
and the number of the contributions to the bucket. -/
theorem weekState_cell (rt : Runtime) (md : Option Int) (f : Filters) (lines : List String)
    (htext : textualLog rt lines = true) (k : WeekKey) :
    (Table.get? k (lines.foldl (weeklyLine rt md f) { stats := [], counts := [] }).stats = none ∧
      Table.get? k (lines.foldl (weeklyLine rt md f) { stats := [], counts := [] }).counts = none ∧
      contributions rt md f lines k = []) ∨
    (Table.get? k (lines.foldl (weeklyLine rt md f) { stats := [], counts := [] }).stats
        = some (totalsOf (contributions rt md f lines k)) ∧
      Table.get? k (lines.foldl (weeklyLine rt md f) { stats := [], counts := [] }).counts
        = some (contributions rt md f lines k).length) := by
  induction lines using List.reverseRecOn with
  | nil =>
    left
    simp [Table.get?, contributions]
  | append_singleton ls l ih =>
    have htext2 : textualLog rt ls = true ∧ textualLine rt l = true := by
      simpa [textualLog, List.all_append] using htext
    have ih2 := ih htext2.1
    rw [List.foldl_append, List.foldl_cons, List.foldl_nil]
    obtain ⟨hc0, hc1, hc2⟩ := contributions_snoc rt md f ls l k
    cases hb : bucketOf rt md l with
    | none =>
      have hcn : contribution rt md f l = none := by simp [contribution, hb]
      rw [weeklyLine_closed rt md f _ l hb, hc0 hcn]
      exact ih2
    | some key =>
      obtain ⟨hopen0, hopen1⟩ := weeklyLine_open rt md f
        (ls.foldl (weeklyLine rt md f) { stats := [], counts := [] }) l key hb htext2.2
      by_cases hk : k = key
      · subst hk
        right
        cases hc : contribution rt md f l with
        | none =>
          rw [hopen0 hc, hc0 hc]
          simp only [Table.get?_ensure, if_true]
          rcases ih2 with ⟨h1, h2, h3⟩ | ⟨h1, h2⟩
          · simp [h1, h2, h3, totalsOf]
          · simp [h1, h2]
        | some e =>
          obtain ⟨key2, t⟩ := e
          have hkey := contribution_key rt md f l key2 t hc
          rw [hb] at hkey
          cases hkey
          rw [hopen1 t hc, hc2 t hc]
          simp only [Table.get?_modify, Table.get?_ensure, if_true, totalsOf_snoc,
            List.length_append, List.length_singleton, Option.map_some']
          rcases ih2 with ⟨h1, h2, h3⟩ | ⟨h1, h2⟩
          · simp [h1, h2, h3, totalsOf]
          · simp [h1, h2]
      · have hk2 : ¬ key = k := fun e => hk e.symm
        have hsame : contributions rt md f (ls ++ [l]) k = contributions rt md f ls k := by
          cases hc : contribution rt md f l with
          | none => exact hc0 hc
          | some e =>
            obtain ⟨key2, t⟩ := e
            have hkey := contribution_key rt md f l key2 t hc
            rw [hb] at hkey
            cases hkey
            exact hc1 key t hc hk2
        have hstate : Table.get? k (weeklyLine rt md f
              (ls.foldl (weeklyLine rt md f) { stats := [], counts := [] }) l).stats
            = Table.get? k (ls.foldl (weeklyLine rt md f) { stats := [], counts := [] }).stats ∧
            Table.get? k (weeklyLine rt md f
              (ls.foldl (weeklyLine rt md f) { stats := [], counts := [] }) l).counts
            = Table.get? k (ls.foldl (weeklyLine rt md f) { stats := [], counts := [] }).counts := by
          cases hc : contribution rt md f l with
          | none =>
            rw [hopen0 hc]
            simp [Table.get?_ensure, hk]
          | some e =>
            obtain ⟨key2, t⟩ := e
            have hkey := contribution_key rt md f l key2 t hc
            rw [hb] at hkey
            cases hkey
            rw [hopen1 t hc]
            simp [Table.get?_modify, Table.get?_ensure, hk]
        rw [hstate.1, hstate.2, hsame]
        exact ih2

theorem weeklyLine_nodup (rt : Runtime) (md : Option Int) (f : Filters) (st : WeekState)
    (line : String) (h : (st.stats.map Prod.fst).Nodup) :
    ((weeklyLine rt md f st line).stats.map Prod.fst).Nodup := by
  unfold weeklyLine
  cases rt.jsonParse line with
  | none => exact h
  | some e =>
    cases e with
    | nullLit => exact h
    | value ts ms =>
      simp only
      split
      · exact h
      · have h1 := Table.nodup_ensure (dayShort rt (newDate rt ts), hourText rt (newDate rt ts))
          ({ available := 0, inUse := 0, total := 0 } : Sums) st.stats h
        cases ms with
        | notArray v => exact h1
        | array elems =>
          simp only
          cases filterTry (keepMachine rt f) elems with
          | none => exact h1
          | some filtered =>
            simp only
            split
            · cases tallyMachines rt filtered { available := 0, inUse := 0, total := 0 } with
              | none => exact h1
              | some t =>
                simp only
                rw [Table.keys_modify]
                exact h1
            · exact h1

theorem weekStateOf_nodup (rt : Runtime) (now : Int) (f : Filters) (lines : List String) :
    ((weekStateOf rt now f lines).stats.map Prod.fst).Nodup := by
  unfold weekStateOf
  apply foldl_invariant _ (fun st : WeekState => (st.stats.map Prod.fst).Nodup)
  · intro st line _ h
    exact weeklyLine_nodup rt _ f st line h
  · simp

/-- C11, as amended: on a log whose machine records have textual `dorm`, `type` and
`status`, `weeklyTimes` never emits a bucket with `count` 0; the `count` of an emitted
bucket is the number of contributing entries (in-window entries of the bucket whose
machine list is non-empty after the filters) when there is one, and 1 when there is none;
and `available`, `inUse` and `total` are the sums over the contributing entries of the
filtered machines classified available, in use when not available, and all filtered
machines, divided by `count`. -/
theorem weeklyTimes_cell_means (rt : Runtime) (now : Int) (f : Filters) (lines : List String)
    (htext : textualLog rt lines = true) :
    ∀ e ∈ weeklyTimes rt now f lines,
      e.2.count ≠ 0 ∧
      e.2.count
        = (if (contributions rt (timeClip (now - weekMs)) f lines e.1).length = 0 then 1
           else (contributions rt (timeClip (now - weekMs)) f lines e.1).length) ∧
      e.2.available
        = ((totalsOf (contributions rt (timeClip (now - weekMs)) f lines e.1)).available : Rat)
            / e.2.count ∧
      e.2.inUse
        = ((totalsOf (contributions rt (timeClip (now - weekMs)) f lines e.1)).inUse : Rat)
            / e.2.count ∧
      e.2.total
        = ((totalsOf (contributions rt (timeClip (now - weekMs)) f lines e.1)).total : Rat)
            / e.2.count := by
  intro e he
  simp only [weeklyTimes, List.mem_map] at he
  obtain ⟨⟨k, b⟩, hmem, rfl⟩ := he
  have hget := Table.get?_of_mem k b _ (weekStateOf_nodup rt now f lines) hmem
  have hcell := weekState_cell rt (timeClip (now - weekMs)) f lines htext k
  unfold weekStateOf at hget
  rcases hcell with ⟨h1, -, -⟩ | ⟨h1, h2⟩
  · rw [h1] at hget
    cases hget
  · rw [h1] at hget
    simp only [Option.some.injEq] at hget
    have hdiv : divisor (weekStateOf rt now f lines).counts k
        = (if (contributions rt (timeClip (now - weekMs)) f lines k).length = 0 then 1
           else (contributions rt (timeClip (now - weekMs)) f lines k).length) := by
      unfold divisor weekStateOf
      rw [h2]
    simp only [hdiv, ← hget]
    refine ⟨?_, trivial, trivial, trivial, trivial⟩
    split <;> omega

set_option maxRecDepth 100000 in
theorem weeklyTimes_cell_means_witness :
    textualLog sampleRuntime [lineMon8, lineEmpty, lineMon830, lineOld] = true ∧
    contributions sampleRuntime (timeClip (sampleNow - weekMs)) noFilters
        [lineMon8, lineEmpty, lineMon830, lineOld] ("Mon", "8")
      = [{ available := 1, inUse := 1, total := 2 }, { available := 2, inUse := 0, total := 2 }] ∧
    ∀ e ∈ weeklyTimes sampleRuntime sampleNow noFilters [lineMon8, lineEmpty, lineMon830, lineOld],
      e.2.count ≠ 0 ∧
      e.2.count
        = (if (contributions sampleRuntime (timeClip (sampleNow - weekMs)) noFilters
                [lineMon8, lineEmpty, lineMon830, lineOld] e.1).length = 0 then 1
           else (contributions sampleRuntime (timeClip (sampleNow - weekMs)) noFilters
                [lineMon8, lineEmpty, lineMon830, lineOld] e.1).length) ∧
      e.2.available
        = ((totalsOf (contributions sampleRuntime (timeClip (sampleNow - weekMs)) noFilters
              [lineMon8, lineEmpty, lineMon830, lineOld] e.1)).available : Rat) / e.2.count ∧
      e.2.inUse
        = ((totalsOf (contributions sampleRuntime (timeClip (sampleNow - weekMs)) noFilters
              [lineMon8, lineEmpty, lineMon830, lineOld] e.1)).inUse : Rat) / e.2.count ∧
      e.2.total
        = ((totalsOf (contributions sampleRuntime (timeClip (sampleNow - weekMs)) noFilters
              [lineMon8, lineEmpty, lineMon830, lineOld] e.1)).total : Rat) / e.2.count :=
  ⟨by decide, by decide,
    weeklyTimes_cell_means sampleRuntime sampleNow noFilters
      [lineMon8, lineEmpty, lineMon830, lineOld] (by decide)⟩

set_option maxRecDepth 100000 in
/-- C11 as stated fails: the only entry of the log has an empty machine list, so no entry
contributes to its bucket, yet the bucket is emitted with `count` 1. -/
theorem weeklyTimes_count_one_without_contribution :
    contributions sampleRuntime (timeClip (sampleNow - weekMs)) noFilters [lineEmpty]
        ("Mon", "8") = [] ∧
    (weeklyTimes sampleRuntime sampleNow noFilters [lineEmpty]).map (fun e => (e.1, e.2.count))
      = [(("Mon", "8"), 1)] := by
  refine ⟨by decide, by decide⟩

/-! ## The sort of the sample runtime -/

section ShortSort
variable {α : Type} (cmp : α → α → Option Ordering)

theorem countAndMakeRun_perm (l run rest : List α)
    (h : countAndMakeRun cmp l = some (run, rest)) : (run ++ rest).Perm l := by
  match l, h with
  | [], h =>
    simp only [countAndMakeRun, Option.some.injEq, Prod.mk.injEq] at h
    obtain ⟨rfl, rfl⟩ := h
    exact List.Perm.refl _
  | [a], h =>
    simp only [countAndMakeRun, Option.some.injEq, Prod.mk.injEq] at h
    obtain ⟨rfl, rfl⟩ := h
    exact List.Perm.refl _
  | a :: b :: tail, h =>
    simp only [countAndMakeRun] at h
    cases hc : cmp b a with
    | none => simp [hc] at h
    | some o =>
      simp only [hc] at h
      cases hn : countRun cmp (decide (o = .lt)) b tail with
      | none => simp [hn] at h
      | some n =>
        simp only [hn, Option.some.injEq, Prod.mk.injEq] at h
        obtain ⟨rfl, rfl⟩ := h
        have hsplit : (a :: b :: tail.take n) ++ tail.drop n = a :: b :: tail := by
          simp [List.take_append_drop]
        split
        · have := (List.reverse_perm (a :: b :: tail.take n)).append_right (tail.drop n)
          rw [hsplit] at this
          exact this
        · rw [hsplit]

theorem binaryInsert_perm (sorted r : List α) (pivot : α)
    (h : binaryInsert cmp sorted pivot = some r) : r.Perm (pivot :: sorted) := by
  unfold binaryInsert at h
  cases hp : searchPlace cmp pivot sorted sorted.length 0 sorted.length with
  | none => simp [hp] at h
  | some place =>
    simp only [hp, Option.some.injEq] at h
    subst h
    have h1 : (sorted.take place ++ pivot :: sorted.drop place).Perm
        (pivot :: (sorted.take place ++ sorted.drop place)) := List.perm_middle
    rw [List.take_append_drop] at h1
    exact h1

theorem insertRest_perm (rest sorted r : List α) (h : insertRest cmp sorted rest = some r) :
    r.Perm (sorted ++ rest) := by
  induction rest generalizing sorted with
  | nil =>
    simp only [insertRest, Option.some.injEq] at h
    subst h
    simp
  | cons pivot rest ih =>
    simp only [insertRest] at h
    cases hb : binaryInsert cmp sorted pivot with
    | none => simp [hb] at h
    | some next =>
      simp only [hb] at h
      have h1 := ih next h
      have h2 := binaryInsert_perm cmp sorted next pivot hb
      refine h1.trans ((h2.append_right rest).trans ?_)
      have h3 : (sorted ++ pivot :: rest).Perm (pivot :: (sorted ++ rest)) := List.perm_middle
      simpa using h3.symm

theorem shortSort_perm (l r : List α) (h : shortSort cmp l = some r) : r.Perm l := by
  unfold shortSort at h
  cases hc : countAndMakeRun cmp l with
  | none => simp [hc] at h
  | some p =>
    obtain ⟨run, rest⟩ := p
    simp only [hc] at h
    exact (insertRest_perm cmp rest run r h).trans (countAndMakeRun_perm cmp l run rest hc)

end ShortSort


section ShortSortReturns
variable {α : Type} (cmp : α → α → Option Ordering)

theorem countRun_isSome (l : List α) (htot : ∀ a ∈ l, ∀ b ∈ l, (cmp a b).isSome = true)
    (descending : Bool) (xs : List α) (previous : α) (hp : previous ∈ l)
    (hxs : ∀ x ∈ xs, x ∈ l) : (countRun cmp descending previous xs).isSome = true := by
  induction xs generalizing previous with
  | nil => rfl
  | cons current rest ih =>
    have hcur : current ∈ l := hxs current (List.mem_cons_self _ _)
    obtain ⟨o, ho⟩ := Option.isSome_iff_exists.mp (htot current hcur previous hp)
    have hrec := ih current hcur (fun x hx => hxs x (List.mem_cons_of_mem _ hx))
    obtain ⟨n, hn⟩ := Option.isSome_iff_exists.mp hrec
    simp only [countRun, ho, hn]
    split <;> rfl

theorem countAndMakeRun_isSome (l : List α)
    (htot : ∀ a ∈ l, ∀ b ∈ l, (cmp a b).isSome = true) :
    (countAndMakeRun cmp l).isSome = true := by
  match l, htot with
  | [], _ => rfl
  | [a], _ => rfl
  | a :: b :: tail, htot =>
    have ha : a ∈ a :: b :: tail := List.mem_cons_self _ _
    have hb : b ∈ a :: b :: tail := List.mem_cons_of_mem _ (List.mem_cons_self _ _)
    obtain ⟨o, ho⟩ := Option.isSome_iff_exists.mp (htot b hb a ha)
    have hrun := countRun_isSome cmp (a :: b :: tail) htot (decide (o = .lt)) tail b hb
      (fun x hx => List.mem_cons_of_mem _ (List.mem_cons_of_mem _ hx))
    obtain ⟨n, hn⟩ := Option.isSome_iff_exists.mp hrun
    simp [countAndMakeRun, ho, hn]

theorem searchPlace_isSome (pivot : α) (sorted : List α)
    (htot : ∀ x ∈ sorted, (cmp pivot x).isSome = true) (steps left right : Nat) :
    (searchPlace cmp pivot sorted steps left right).isSome = true := by
  induction steps generalizing left right with
  | zero => rfl
  | succ steps ih =>
    simp only [searchPlace]
    split
    · cases hg : sorted.get? (left + (right - left) / 2) with
      | none => rfl
      | some x =>
        obtain ⟨o, ho⟩ := Option.isSome_iff_exists.mp (htot x (List.get?_mem hg))
        simp only [ho]
        cases o <;> exact ih _ _
    · rfl

theorem insertRest_isSome (l : List α) (htot : ∀ a ∈ l, ∀ b ∈ l, (cmp a b).isSome = true)
    (rest sorted : List α) (hs : ∀ x ∈ sorted, x ∈ l) (hr : ∀ x ∈ rest, x ∈ l) :
    (insertRest cmp sorted rest).isSome = true := by
  induction rest generalizing sorted with
  | nil => rfl
  | cons pivot rest ih =>
    have hp : pivot ∈ l := hr pivot (List.mem_cons_self _ _)
    have hsearch := searchPlace_isSome cmp pivot sorted
      (fun x hx => htot pivot hp x (hs x hx)) sorted.length 0 sorted.length
    obtain ⟨place, hplace⟩ := Option.isSome_iff_exists.mp hsearch
    have hb : binaryInsert cmp sorted pivot
        = some (sorted.take place ++ pivot :: sorted.drop place) := by
      simp [binaryInsert, hplace]
    simp only [insertRest, hb]
    apply ih
    · intro x hx
      have := (binaryInsert_perm cmp sorted _ pivot hb).mem_iff.mp hx
      rcases List.mem_cons.mp this with h | h
      · rw [h]
        exact hp
      · exact hs x h
    · exact fun x hx => hr x (List.mem_cons_of_mem _ hx)

theorem shortSort_isSome (l : List α) (htot : ∀ a ∈ l, ∀ b ∈ l, (cmp a b).isSome = true) :
    (shortSort cmp l).isSome = true := by
  obtain ⟨p, hp⟩ := Option.isSome_iff_exists.mp (countAndMakeRun_isSome cmp l htot)
  obtain ⟨run, rest⟩ := p
  have hperm := countAndMakeRun_perm cmp l run rest hp
  simp only [shortSort, hp]
  exact insertRest_isSome cmp l htot rest run
    (fun x hx => hperm.mem_iff.mp (List.mem_append_left _ hx))
    (fun x hx => hperm.mem_iff.mp (List.mem_append_right _ hx))

end ShortSortReturns


section ShortSortSorted
variable {α : Type} (cmp : α → α → Option Ordering)

theorem countRun_ascending (l : List α) (hc : Consistent cmp l) (xs : List α) (previous : α)
    (n : Nat) (hp : previous ∈ l) (hxs : ∀ x ∈ xs, x ∈ l)
    (h : countRun cmp false previous xs = some n) :
    (previous :: xs.take n).Pairwise (fun a b => cmp b a ≠ some .lt) := by
  induction xs generalizing previous n with
  | nil => simp
  | cons current rest ih =>
    have hcur : current ∈ l := hxs current (List.mem_cons_self _ _)
    simp only [countRun] at h
    cases ho : cmp current previous with
    | none => simp [ho] at h
    | some o =>
      simp only [ho] at h
      by_cases hlt : o = .lt
      · simp only [hlt, decide_True, Bool.false_eq_true, if_false, Option.some.injEq] at h
        subst h
        simp
      · simp only [hlt, decide_False, if_true] at h
        cases hn : countRun cmp false current rest with
        | none => simp [hn] at h
        | some m =>
          simp only [hn, Option.some.injEq] at h
          subst h
          have hrec := ih current m hcur (fun x hx => hxs x (List.mem_cons_of_mem _ hx)) hn
          have hle : cmp current previous ≠ some .lt := by
            rw [ho]
            intro hh
            exact hlt (Option.some.inj hh)
          rw [List.take_succ_cons, List.pairwise_cons]
          refine ⟨?_, hrec⟩
          intro y hy
          rcases List.mem_cons.mp hy with hy | hy
          · rw [hy]
            exact hle
          · have hyl : y ∈ l := hxs y (List.mem_cons_of_mem _ (List.mem_of_mem_take hy))
            exact hc.trans previous hp current hcur y hyl hle
              ((List.pairwise_cons.mp hrec).1 y hy)

theorem countRun_descending (l : List α) (hc : Consistent cmp l) (xs : List α) (previous : α)
    (n : Nat) (hp : previous ∈ l) (hxs : ∀ x ∈ xs, x ∈ l)
    (h : countRun cmp true previous xs = some n) :
    (previous :: xs.take n).Pairwise (fun a b => cmp a b ≠ some .lt) := by
  induction xs generalizing previous n with
  | nil => simp
  | cons current rest ih =>
    have hcur : current ∈ l := hxs current (List.mem_cons_self _ _)
    simp only [countRun] at h
    cases ho : cmp current previous with
    | none => simp [ho] at h
    | some o =>
      simp only [ho] at h
      by_cases hlt : o = .lt
      · simp only [hlt, decide_True, if_true] at h
        cases hn : countRun cmp true current rest with
        | none => simp [hn] at h
        | some m =>
          simp only [hn, Option.some.injEq] at h
          subst h
          have hrec := ih current m hcur (fun x hx => hxs x (List.mem_cons_of_mem _ hx)) hn
          have hle : cmp previous current ≠ some .lt :=
            hc.asymm current hcur previous hp (by rw [ho, hlt])
          rw [List.take_succ_cons, List.pairwise_cons]
          refine ⟨?_, hrec⟩
          intro y hy
          rcases List.mem_cons.mp hy with hy | hy
          · rw [hy]
            exact hle
          · have hyl : y ∈ l := hxs y (List.mem_cons_of_mem _ (List.mem_of_mem_take hy))
            exact hc.trans y hyl current hcur previous hp
              ((List.pairwise_cons.mp hrec).1 y hy) hle
      · simp only [hlt, decide_False, Bool.true_eq_false, if_false, Option.some.injEq] at h
        subst h
        simp

theorem countAndMakeRun_sorted (l run rest : List α) (hc : Consistent cmp l)
    (h : countAndMakeRun cmp l = some (run, rest)) :
    run.Pairwise (fun a b => cmp b a ≠ some .lt) := by
  match l, hc, h with
  | [], _, h =>
    simp only [countAndMakeRun, Option.some.injEq, Prod.mk.injEq] at h
    rw [← h.1]
    exact List.Pairwise.nil
  | [a], _, h =>
    simp only [countAndMakeRun, Option.some.injEq, Prod.mk.injEq] at h
    rw [← h.1]
    exact List.pairwise_singleton _ _
  | a :: b :: tail, hc, h =>
    have ha : a ∈ a :: b :: tail := List.mem_cons_self _ _
    have hb : b ∈ a :: b :: tail := List.mem_cons_of_mem _ (List.mem_cons_self _ _)
    have htail : ∀ x ∈ tail, x ∈ a :: b :: tail :=
      fun x hx => List.mem_cons_of_mem _ (List.mem_cons_of_mem _ hx)
    simp only [countAndMakeRun] at h
    cases ho : cmp b a with
    | none => simp [ho] at h
    | some o =>
      simp only [ho] at h
      cases hn : countRun cmp (decide (o = .lt)) b tail with
      | none => simp [hn] at h
      | some n =>
        simp only [hn, Option.some.injEq, Prod.mk.injEq] at h
        obtain ⟨hrun, -⟩ := h
        by_cases hlt : o = .lt
        · simp only [hlt, decide_True] at hn
          rw [if_pos hlt] at hrun
          rw [← hrun, List.pairwise_reverse]
          have hrec := countRun_descending cmp _ hc tail b n hb htail hn
          have hle : cmp a b ≠ some .lt := hc.asymm b hb a ha (by rw [ho, hlt])
          rw [List.pairwise_cons]
          refine ⟨?_, hrec⟩
          intro y hy
          rcases List.mem_cons.mp hy with hy | hy
          · rw [hy]
            exact hle
          · have hyl := htail y (List.mem_of_mem_take hy)
            exact hc.trans y hyl b hb a ha ((List.pairwise_cons.mp hrec).1 y hy) hle
        · simp only [hlt, decide_False] at hn
          rw [if_neg hlt] at hrun
          rw [← hrun]
          have hrec := countRun_ascending cmp _ hc tail b n hb htail hn
          have hle : cmp b a ≠ some .lt := by
            rw [ho]
            intro hh
            exact hlt (Option.some.inj hh)
          rw [List.pairwise_cons]
          refine ⟨?_, hrec⟩
          intro y hy
          rcases List.mem_cons.mp hy with hy | hy
          · rw [hy]
            exact hle
          · have hyl := htail y (List.mem_of_mem_take hy)
            exact hc.trans a ha b hb y hyl hle ((List.pairwise_cons.mp hrec).1 y hy)

theorem searchPlace_bounds (l : List α) (hc : Consistent cmp l) (pivot : α) (hp : pivot ∈ l)
    (sorted : List α) (hs : ∀ x ∈ sorted, x ∈ l)
    (hsorted : sorted.Pairwise (fun a b => cmp b a ≠ some .lt))
    (steps left right place : Nat) (hlr : left ≤ right) (hr : right ≤ sorted.length)
    (hsteps : right - left ≤ steps)
    (hleft : ∀ x ∈ sorted.take left, cmp pivot x ≠ some .lt)
    (hright : ∀ x ∈ sorted.drop right, cmp x pivot ≠ some .lt)
    (h : searchPlace cmp pivot sorted steps left right = some place) :
    (∀ x ∈ sorted.take place, cmp pivot x ≠ some .lt) ∧
      (∀ x ∈ sorted.drop place, cmp x pivot ≠ some .lt) := by
  induction steps generalizing left right with
  | zero =>
    simp only [searchPlace, Option.some.injEq] at h
    subst h
    have : left = right := by omega
    subst this
    exact ⟨hleft, hright⟩
  | succ steps ih =>
    simp only [searchPlace] at h
    by_cases hlt : left < right
    · simp only [hlt, if_true] at h
      have hmid : left + (right - left) / 2 < sorted.length := by omega
      have hget : sorted.get? (left + (right - left) / 2)
          = some (sorted.get ⟨left + (right - left) / 2, hmid⟩) := List.get?_eq_get hmid
      generalize hxdef : sorted.get ⟨left + (right - left) / 2, hmid⟩ = x at hget
      have hxs : x ∈ sorted := List.get?_mem hget
      have hxl : x ∈ l := hs x hxs
      have hdrop : sorted.drop (left + (right - left) / 2)
          = x :: sorted.drop (left + (right - left) / 2 + 1) := by
        rw [← hxdef]
        exact (List.drop_eq_getElem_cons hmid)
      have htake : sorted.take (left + (right - left) / 2 + 1)
          = sorted.take (left + (right - left) / 2) ++ [x] := by
        rw [List.take_succ, ← List.get?_eq_getElem?, hget]
        rfl
      simp only [hget] at h
      cases ho : cmp pivot x with
      | none => simp [ho] at h
      | some o =>
        simp only [ho] at h
        by_cases hol : o = .lt
        · subst hol
          simp only at h
          refine ih left (left + (right - left) / 2) (by omega) (by omega) (by omega)
            hleft ?_ h
          intro y hy
          rw [hdrop] at hy
          have hxp : cmp x pivot ≠ some .lt := hc.asymm pivot hp x hxl ho
          rcases List.mem_cons.mp hy with hy | hy
          · rw [hy]
            exact hxp
          · have hpw : (x :: sorted.drop (left + (right - left) / 2 + 1)).Pairwise
                (fun a b => cmp b a ≠ some .lt) := by
              rw [← hdrop]
              exact hsorted.sublist (List.drop_sublist _ _)
            have hyl : y ∈ l := hs y (List.mem_of_mem_drop hy)
            exact hc.trans pivot hp x hxl y hyl hxp ((List.pairwise_cons.mp hpw).1 y hy)
        · have hnext : searchPlace cmp pivot sorted steps (left + (right - left) / 2 + 1) right
              = some place := by
            cases o with
            | lt => exact absurd rfl hol
            | eq => exact h
            | gt => exact h
          refine ih (left + (right - left) / 2 + 1) right (by omega) hr (by omega) ?_ hright
            hnext
          have hpx : cmp pivot x ≠ some .lt := by
            rw [ho]
            intro hh
            exact hol (Option.some.inj hh)
          intro y hy
          rw [htake] at hy
          rcases List.mem_append.mp hy with hy | hy
          · have hpw : (sorted.take (left + (right - left) / 2) ++ [x]).Pairwise
                (fun a b => cmp b a ≠ some .lt) := by
              rw [← htake]
              exact hsorted.sublist (List.take_sublist _ _)
            have hyl : y ∈ l := hs y (List.mem_of_mem_take hy)
            have hyx : cmp x y ≠ some .lt :=
              (List.pairwise_append.mp hpw).2.2 y hy x (List.mem_singleton_self x)
            exact hc.trans y hyl x hxl pivot hp hyx hpx
          · rw [List.mem_singleton.mp hy]
            exact hpx
    · simp only [hlt, if_false, Option.some.injEq] at h
      subst h
      have : left = right := by omega
      subst this
      exact ⟨hleft, hright⟩

theorem binaryInsert_sorted (l : List α) (hc : Consistent cmp l) (pivot : α) (hp : pivot ∈ l)
    (sorted r : List α) (hs : ∀ x ∈ sorted, x ∈ l)
    (hsorted : sorted.Pairwise (fun a b => cmp b a ≠ some .lt))
    (h : binaryInsert cmp sorted pivot = some r) :
    r.Pairwise (fun a b => cmp b a ≠ some .lt) := by
  unfold binaryInsert at h
  cases hplace : searchPlace cmp pivot sorted sorted.length 0 sorted.length with
  | none => simp [hplace] at h
  | some place =>
    simp only [hplace, Option.some.injEq] at h
    subst h
    obtain ⟨hbefore, hafter⟩ := searchPlace_bounds cmp l hc pivot hp sorted hs hsorted
      sorted.length 0 sorted.length place (Nat.zero_le _) (Nat.le_refl _) (by omega)
      (by simp) (by simp) hplace
    have hsplit : (sorted.take place ++ sorted.drop place).Pairwise
        (fun a b => cmp b a ≠ some .lt) := by
      rw [List.take_append_drop]
      exact hsorted
    obtain ⟨h1, h2, h3⟩ := List.pairwise_append.mp hsplit
    rw [List.pairwise_append]
    refine ⟨h1, List.pairwise_cons.mpr ⟨hafter, h2⟩, ?_⟩
    intro a ha b hb
    rcases List.mem_cons.mp hb with hb | hb
    · rw [hb]
      exact hbefore a ha
    · exact h3 a ha b hb

theorem insertRest_sorted (l : List α) (hc : Consistent cmp l) (rest sorted r : List α)
    (hs : ∀ x ∈ sorted, x ∈ l) (hr : ∀ x ∈ rest, x ∈ l)
    (hsorted : sorted.Pairwise (fun a b => cmp b a ≠ some .lt))
    (h : insertRest cmp sorted rest = some r) :
    r.Pairwise (fun a b => cmp b a ≠ some .lt) := by
  induction rest generalizing sorted with
  | nil =>
    simp only [insertRest, Option.some.injEq] at h
    rw [← h]
    exact hsorted
  | cons pivot rest ih =>
    have hp : pivot ∈ l := hr pivot (List.mem_cons_self _ _)
    simp only [insertRest] at h
    cases hb : binaryInsert cmp sorted pivot with
    | none => simp [hb] at h
    | some next =>
      simp only [hb] at h
      refine ih next ?_ (fun x hx => hr x (List.mem_cons_of_mem _ hx))
        (binaryInsert_sorted cmp l hc pivot hp sorted next hs hsorted hb) h
      intro x hx
      rcases List.mem_cons.mp ((binaryInsert_perm cmp sorted next pivot hb).mem_iff.mp hx)
        with h1 | h1
      · rw [h1]
        exact hp
      · exact hs x h1

theorem shortSort_sorted (l r : List α) (hc : Consistent cmp l)
    (h : shortSort cmp l = some r) : r.Pairwise (fun a b => cmp b a ≠ some .lt) := by
  unfold shortSort at h
  cases hrun : countAndMakeRun cmp l with
  | none => simp [hrun] at h
  | some p =>
    obtain ⟨run, rest⟩ := p
    simp only [hrun] at h
    have hperm := countAndMakeRun_perm cmp l run rest hrun
    exact insertRest_sorted cmp l hc rest run r
      (fun x hx => hperm.mem_iff.mp (List.mem_append_left _ hx))
      (fun x hx => hperm.mem_iff.mp (List.mem_append_right _ hx))
      (countAndMakeRun_sorted cmp l run rest hc hrun) h

end ShortSortSorted

theorem sampleRuntime_sortLaws : SortLaws sampleRuntime :=
  { perm := fun cmp l r h => shortSort_perm cmp l r h
    returns := fun cmp l h => shortSort_isSome cmp l h
    sorted := fun cmp l r hc h => shortSort_sorted cmp l r hc h }

theorem canonRuntime_sortLaws : SortLaws canonRuntime :=
  { perm := fun cmp l r h => shortSort_perm cmp l r h
    returns := fun cmp l h => shortSort_isSome cmp l h
    sorted := fun cmp l r hc h => shortSort_sorted cmp l r hc h }

/-! ## Machine analytics: the scan and the window -/

theorem scanElems_wellFormed (rt : Runtime) (week : Bool) (now : Int) (line : String)
    (hwl : wellFormedLine rt line = true)
    (hnow : -maxTime ≤ now - weekMs ∧ now - weekMs ≤ maxTime) :
    (scanElems rt (analyticsMinDate week now) line).filterMap id
      = entryRecords rt week now line := by
  obtain ⟨ts, ms, t, hp, ht, -⟩ := wellFormedLine_elim rt line hwl
  have hclip : timeClip (now - weekMs) = some (now - weekMs) := by
    unfold timeClip
    rw [if_pos hnow]
  simp only [scanElems, entryRecords, hp, newDate, ht, beforeWindow, analyticsMinDate, inWindow]
  cases week with
  | false => simp
  | true =>
    simp only [if_true, hclip, dateLt, Bool.not_true, Bool.false_or]
    by_cases h : t < now - weekMs
    · have h2 : ¬ now - t ≤ weekMs := by omega
      simp [h, h2]
    · have h2 : now - t ≤ weekMs := by omega
      simp [h, h2]

/-- On a log of well-formed entries the records the scan goes through are the records
inside the window. -/
theorem scanRecords_wellFormed (rt : Runtime) (week : Bool) (now : Int) (lines : List String)
    (hwf : wellFormedLog rt lines = true)
    (hnow : -maxTime ≤ now - weekMs ∧ now - weekMs ≤ maxTime) :
    scanRecords rt week now lines = windowRecords rt week now lines := by
  unfold scanRecords windowRecords
  induction lines with
  | nil => rfl
  | cons line rest ih =>
    simp only [wellFormedLog, List.all_cons, Bool.and_eq_true] at hwf
    simp only [List.map_cons, List.flatten_cons, List.filterMap_append]
    rw [scanElems_wellFormed rt week now line hwf.1 hnow, ih hwf.2]

theorem machineAnalytics_returns (rt : Runtime) (hs : SortLaws rt) (week : Bool) (now : Int)
    (lines : List String)
    (hids : ∀ mo ∈ scanRecords rt week now lines, textualIds mo = true) :
    ∃ rows, machineAnalytics rt week now lines = some rows := by
  have hrows : ∀ r ∈ (machineStatsOf rt week now lines).map (fun e => e.2),
      ∃ d m, r.dorm = .str d ∧ r.machine = .str m := by
    intro r hr
    obtain ⟨e, he, rfl⟩ := List.mem_map.mp hr
    obtain ⟨mo, hmo, h1, h2⟩ := machineStatsOf_from_record rt week now lines e he
    obtain ⟨d, m, hd, hm⟩ := textualIds_elim mo (hids mo hmo)
    exact ⟨d, m, h1.trans hd, h2.trans hm⟩
  apply Option.isSome_iff_exists.mp
  apply hs.returns
  intro a ha b hb
  obtain ⟨d1, m1, h1, h2⟩ := hrows a ha
  obtain ⟨d2, m2, h3, h4⟩ := hrows b hb
  rw [compareStats_text rt a b d1 m1 d2 m2 h1 h2 h3 h4]
  rfl

theorem wellFormed_row_exists (rt : Runtime) (hs : SortLaws rt) (week : Bool) (now : Int)
    (lines : List String)
    (hwf : wellFormedLog rt lines = true) (rows : List MachineStats)
    (hrows : machineAnalytics rt week now lines = some rows) :
    ∀ mo ∈ scanRecords rt week now lines, ∃ row ∈ rows, machineKey mo = rowKey row := by
  intro mo hmo
  obtain ⟨d, m, t, s, heq, hd, hm, -, -⟩ :=
    wellFormedMachine_elim _ (wellFormed_records rt week now lines hwf mo hmo)
  have hk : machineKey mo ∉ inheritedKeys := by
    cases heq
    exact machineKey_not_inherited d m t s hd hm
  have hget := machineStatsOf_get? rt week now lines (wellFormed_textualStatus rt lines hwf)
    (machineKey mo) hk
  have hsome := rowFold_isSome rt (machineKey mo) (scanRecords rt week now lines) none
    (Or.inr ⟨mo, hmo, rfl⟩)
  rw [← hget] at hsome
  obtain ⟨row, hrow⟩ := Option.isSome_iff_exists.mp hsome
  have hmem := Table.mem_of_get? _ _ _ hrow
  have hkey := (machineStatsOf_rowKey rt week now lines _ hmem).1
  simp only at hkey
  refine ⟨row, ?_, hkey⟩
  rw [mem_machineAnalytics rt hs week now lines rows hrows row, ← hkey]
  exact hmem

/-- Among records whose keys tell machines apart, the records with the key of a row are
the records of the machine of the row. -/
theorem filter_key_eq_filter_machine (recs : List MachineObj) (hsep : SeparateKeys recs)
    (row : MachineStats)
    (hrow : ∃ mo ∈ recs, row.dorm = mo.dorm ∧ row.machine = mo.machine) :
    recs.filter (fun mo => machineKey mo = rowKey row)
      = recs.filter (fun mo => mo.dorm = row.dorm ∧ mo.machine = row.machine) := by
  obtain ⟨m0, hm0, hd, hm⟩ := hrow
  have hk : rowKey row = machineKey m0 := by
    simp only [rowKey, machineKey, hd, hm]
  apply List.filter_congr
  intro mo hmo
  rw [decide_eq_decide]
  constructor
  · intro h
    have := hsep mo hmo m0 hm0 (h.trans hk)
    rw [hd, hm]
    exact this
  · rintro ⟨h1, h2⟩
    simp only [machineKey, rowKey, h1, h2]

theorem row_machineRecords (rt : Runtime) (hs : SortLaws rt) (week : Bool) (now : Int)
    (lines : List String) (hwf : wellFormedLog rt lines = true)
    (hnow : -maxTime ≤ now - weekMs ∧ now - weekMs ≤ maxTime)
    (hsep : SeparateKeys (windowRecords rt week now lines)) (rows : List MachineStats)
    (hrows : machineAnalytics rt week now lines = some rows) (row : MachineStats)
    (hrow : row ∈ rows) :
    (scanRecords rt week now lines).filter (fun mo => machineKey mo = rowKey row)
      = machineRecords rt week now lines row.dorm row.machine := by
  have hmem := (mem_machineAnalytics rt hs week now lines rows hrows row).mp hrow
  obtain ⟨mo, hmo, h1, h2⟩ := machineStatsOf_from_record rt week now lines _ hmem
  rw [scanRecords_wellFormed rt week now lines hwf hnow] at hmo ⊢
  exact filter_key_eq_filter_machine _ hsep row ⟨mo, hmo, h1, h2⟩


/-! ## Machine analytics: counters of a machine -/

/-- On a log of well-formed entries, at an instant whose `minDate` is a valid date, and
when the grouping key tells the machines inside the window apart, the request returns, every
in-window record has the row of its machine, and every row counts the in-window records of
its machine by the first-match rule. -/
theorem analytics_first_match_counts (rt : Runtime) (hs : SortLaws rt) (week : Bool)
    (now : Int) (lines : List String) (hwf : wellFormedLog rt lines = true)
    (hnow : -maxTime ≤ now - weekMs ∧ now - weekMs ≤ maxTime)
    (hsep : SeparateKeys (windowRecords rt week now lines)) :
    ∃ rows, machineAnalytics rt week now lines = some rows ∧
      (∀ mo ∈ windowRecords rt week now lines,
        ∃ row ∈ rows, row.dorm = mo.dorm ∧ row.machine = mo.machine) ∧
      ∀ row ∈ rows,
      row.total = (machineRecords rt week now lines row.dorm row.machine).length ∧
      row.available = ((machineRecords rt week now lines row.dorm row.machine).filter
        (fun mo => decide (matchedPhrase rt mo = some "available"))).length ∧
      row.inUse = ((machineRecords rt week now lines row.dorm row.machine).filter
        (fun mo => decide (matchedPhrase rt mo = some "in use"))).length ∧
      row.outOfOrder = ((machineRecords rt week now lines row.dorm row.machine).filter
        (fun mo => decide (matchedPhrase rt mo = some "out of order"))).length ∧
      row.endOfCycle = ((machineRecords rt week now lines row.dorm row.machine).filter
        (fun mo => decide (matchedPhrase rt mo = some "end of cycle"))).length ∧
      row.almostDone = ((machineRecords rt week now lines row.dorm row.machine).filter
        (fun mo => decide (matchedPhrase rt mo = some "almost done"))).length := by
  have hscan := scanRecords_wellFormed rt week now lines hwf hnow
  obtain ⟨rows, hrows⟩ := machineAnalytics_returns rt hs week now lines
    (wellFormed_textualIds rt week now lines hwf)
  refine ⟨rows, hrows, ?_, ?_⟩
  · intro mo hmo
    have hmo2 : mo ∈ scanRecords rt week now lines := by
      rw [hscan]
      exact hmo
    obtain ⟨row, hrow, hkey⟩ := wellFormed_row_exists rt hs week now lines hwf rows hrows mo hmo2
    have hmem := (mem_machineAnalytics rt hs week now lines rows hrows row).mp hrow
    obtain ⟨m0, hm0, h1, h2⟩ := machineStatsOf_from_record rt week now lines _ hmem
    rw [hscan] at hm0
    have hk0 : machineKey m0 = machineKey mo := by
      rw [hkey]
      simp only [rowKey, machineKey]
      rw [h1, h2]
    have := hsep m0 hm0 mo hmo hk0
    exact ⟨row, hrow, h1.trans this.1, h2.trans this.2⟩
  · intro row hrow
    have hf := row_eq_rowFold rt hs week now lines (wellFormed_textualStatus rt lines hwf)
      rows hrows row hrow
    have hg := row_machineRecords rt hs week now lines hwf hnow hsep rows hrows row hrow
    rw [← hg]
    refine ⟨rowFold_total rt _ _ row hf, ?_, ?_, ?_, ?_, ?_⟩
    · exact rowFold_count rt _ (fun r => r.available) .available _
        (fun mo => by simpa using (categoryOf_eq_matchedPhrase rt mo).1.symm)
        (fun _ => rfl) (fun r c => by cases c <;> rfl) _ row hf
    · exact rowFold_count rt _ (fun r => r.inUse) .inUse _
        (fun mo => by simpa using (categoryOf_eq_matchedPhrase rt mo).2.1.symm)
        (fun _ => rfl) (fun r c => by cases c <;> rfl) _ row hf
    · exact rowFold_count rt _ (fun r => r.outOfOrder) .outOfOrder _
        (fun mo => by simpa using (categoryOf_eq_matchedPhrase rt mo).2.2.1.symm)
        (fun _ => rfl) (fun r c => by cases c <;> rfl) _ row hf
    · exact rowFold_count rt _ (fun r => r.endOfCycle) .endOfCycle _
        (fun mo => by simpa using (categoryOf_eq_matchedPhrase rt mo).2.2.2.1.symm)
        (fun _ => rfl) (fun r c => by cases c <;> rfl) _ row hf
    · exact rowFold_count rt _ (fun r => r.almostDone) .almostDone _
        (fun mo => by simpa using (categoryOf_eq_matchedPhrase rt mo).2.2.2.2.1.symm)
        (fun _ => rfl) (fun r c => by cases c <;> rfl) _ row hf

set_option maxRecDepth 100000 in
theorem analytics_first_match_counts_witness :
    wellFormedLog sampleRuntime [lineOld, lineMon8, lineSun8] = true ∧
    windowRecords sampleRuntime true sampleNow [lineOld, lineMon8, lineSun8]
      = [{ dorm := .str "A", machine := .str "W1", type := .str "Washer",
           status := .str "Available" },
         { dorm := .str "A", machine := .str "D1", type := .str "Dryer",
           status := .str "In Use" },
         { dorm := .str "A", machine := .str "W1", type := .str "Washer",
           status := .str "Available" }] ∧
    ∃ rows, machineAnalytics sampleRuntime true sampleNow [lineOld, lineMon8, lineSun8]
        = some rows ∧
      (∀ mo ∈ windowRecords sampleRuntime true sampleNow [lineOld, lineMon8, lineSun8],
        ∃ row ∈ rows, row.dorm = mo.dorm ∧ row.machine = mo.machine) ∧
      ∀ row ∈ rows,
      row.total = (machineRecords sampleRuntime true sampleNow [lineOld, lineMon8, lineSun8]
        row.dorm row.machine).length ∧
      row.available = ((machineRecords sampleRuntime true sampleNow [lineOld, lineMon8, lineSun8]
        row.dorm row.machine).filter
        (fun mo => decide (matchedPhrase sampleRuntime mo = some "available"))).length ∧
      row.inUse = ((machineRecords sampleRuntime true sampleNow [lineOld, lineMon8, lineSun8]
        row.dorm row.machine).filter
        (fun mo => decide (matchedPhrase sampleRuntime mo = some "in use"))).length ∧
      row.outOfOrder = ((machineRecords sampleRuntime true sampleNow [lineOld, lineMon8, lineSun8]
        row.dorm row.machine).filter
        (fun mo => decide (matchedPhrase sampleRuntime mo = some "out of order"))).length ∧
      row.endOfCycle = ((machineRecords sampleRuntime true sampleNow [lineOld, lineMon8, lineSun8]
        row.dorm row.machine).filter
        (fun mo => decide (matchedPhrase sampleRuntime mo = some "end of cycle"))).length ∧
      row.almostDone = ((machineRecords sampleRuntime true sampleNow [lineOld, lineMon8, lineSun8]
        row.dorm row.machine).filter
        (fun mo => decide (matchedPhrase sampleRuntime mo = some "almost done"))).length :=
  ⟨by decide, by decide,
    analytics_first_match_counts sampleRuntime sampleRuntime_sortLaws true sampleNow
      [lineOld, lineMon8, lineSun8] (by decide) (by decide)
      (by unfold SeparateKeys; decide)⟩

/-- In every row of the output `total` is at least the sum of the five category counters;
on a log of well-formed entries in which the grouping key tells the machines inside the
window apart, the two are equal exactly when every in-window record of the machine of the
row has a status that contains one of the five phrases. -/
theorem analytics_total_bounds (rt : Runtime) (hs : SortLaws rt) (week : Bool) (now : Int)
    (lines : List String) :
    (∀ rows, machineAnalytics rt week now lines = some rows → ∀ row ∈ rows,
      row.available + row.inUse + row.outOfOrder + row.endOfCycle + row.almostDone
        ≤ row.total) ∧
    (wellFormedLog rt lines = true →
      (-maxTime ≤ now - weekMs ∧ now - weekMs ≤ maxTime) →
      SeparateKeys (windowRecords rt week now lines) →
      ∀ rows, machineAnalytics rt week now lines = some rows → ∀ row ∈ rows,
        (row.total = row.available + row.inUse + row.outOfOrder + row.endOfCycle
            + row.almostDone ↔
          ∀ mo ∈ machineRecords rt week now lines row.dorm row.machine,
            matchedPhrase rt mo ≠ none)) := by
  constructor
  · intro rows hrows row hrow
    have hmem := (mem_machineAnalytics rt hs week now lines rows hrows row).mp hrow
    exact matched_le_total rt week now lines _ hmem
  · intro hwf hnow hsep rows hrows row hrow
    have hf := row_eq_rowFold rt hs week now lines (wellFormed_textualStatus rt lines hwf)
      rows hrows row hrow
    have hg := row_machineRecords rt hs week now lines hwf hnow hsep rows hrows row hrow
    have ht := rowFold_total rt _ _ row hf
    have hm := rowFold_matched rt _ _ row hf
    have hm2 : row.available + row.inUse + row.outOfOrder + row.endOfCycle + row.almostDone
        = row.matched := rfl
    rw [hm2, ht, hm, eq_comm, List.filter_length_eq_length, hg]
    simp only [decide_eq_true_eq]

set_option maxRecDepth 100000 in
theorem analytics_total_bounds_witness :
    wellFormedLog sampleRuntime [lineOld, lineMon8, lineSun8] = true ∧
    machineAnalytics sampleRuntime false sampleNow [lineOld, lineMon8, lineSun8]
      = some [{ dorm := .str "A", machine := .str "D1", type := .str "Dryer", available := 0,
                inUse := 1, outOfOrder := 0, endOfCycle := 0, almostDone := 0, total := 1 },
              { dorm := .str "A", machine := .str "W1", type := .str "Washer", available := 3,
                inUse := 0, outOfOrder := 0, endOfCycle := 0, almostDone := 0, total := 3 }] ∧
    ∀ rows, machineAnalytics sampleRuntime false sampleNow [lineOld, lineMon8, lineSun8]
        = some rows → ∀ row ∈ rows,
      (row.total = row.available + row.inUse + row.outOfOrder + row.endOfCycle
          + row.almostDone ↔
        ∀ mo ∈ machineRecords sampleRuntime false sampleNow [lineOld, lineMon8, lineSun8]
            row.dorm row.machine,
          matchedPhrase sampleRuntime mo ≠ none) :=
  ⟨by decide, by decide,
    (analytics_total_bounds sampleRuntime sampleRuntime_sortLaws false sampleNow
      [lineOld, lineMon8, lineSun8]).2 (by decide) (by decide)
      (by unfold SeparateKeys; decide)⟩


/-! ## Machine analytics: order of the rows -/

theorem canonRuntime_collation : Collation canonRuntime := by
  constructor
  · intro a b
    show compare _ _ = .gt ↔ compare _ _ = .lt
    rw [compare_gt_iff_gt, compare_lt_iff_lt]
  · intro a b c h1 h2
    show compare _ _ ≠ .gt
    have h3 : compare (String.mk (composeAcute a.toList)) (String.mk (composeAcute b.toList))
        ≠ .gt := h1
    have h4 : compare (String.mk (composeAcute b.toList)) (String.mk (composeAcute c.toList))
        ≠ .gt := h2
    rw [Ne, compare_gt_iff_gt, not_lt] at h3 h4 ⊢
    exact le_trans h3 h4

/-- For two rows with textual ids whose locations the collation does not report as equal
unless they are the same text, the comparator does not put the second before the first
exactly when the two are in row order. -/
theorem compareStats_rowOrder (rt : Runtime) (hcol : Collation rt) (a b : MachineStats)
    (d1 m1 d2 m2 : String) (ha : a.dorm = .str d1) (ha2 : a.machine = .str m1)
    (hb : b.dorm = .str d2) (hb2 : b.machine = .str m2)
    (hsep : rt.localeCompare d1 d2 = .eq → d1 = d2) :
    compareStats rt b a ≠ some .lt ↔ RowOrder rt a b := by
  rw [compareStats_text rt b a d2 m2 d1 m1 hb hb2 ha ha2]
  unfold RowOrder
  rw [ha, ha2, hb, hb2]
  simp only [toStr]
  by_cases hd : d2 = d1
  · subst hd
    rw [if_pos rfl]
    have hirr : rt.localeCompare d2 d2 ≠ .lt := by
      intro h
      have := (hcol.swap d2 d2).mpr h
      rw [h] at this
      exact absurd this (by decide)
    constructor
    · intro h
      right
      refine ⟨rfl, ?_⟩
      intro hgt
      exact h (congrArg some ((hcol.swap m1 m2).mp hgt))
    · rintro (h | ⟨-, h⟩)
      · exact absurd h hirr
      · intro hlt
        exact h ((hcol.swap m1 m2).mpr (Option.some.inj hlt))
  · rw [if_neg hd]
    have hd2 : d1 ≠ d2 := fun h => hd h.symm
    constructor
    · intro h
      left
      cases hc : rt.localeCompare d1 d2 with
      | lt => rfl
      | eq => exact absurd (hsep hc) hd2
      | gt => exact absurd (congrArg some ((hcol.swap d1 d2).mp hc)) h
    · rintro (h | ⟨h, -⟩)
      · intro hlt
        have := (hcol.swap d1 d2).mpr (Option.some.inj hlt)
        rw [h] at this
        exact absurd this (by decide)
      · exact absurd (JsVal.str.inj h) hd2

/-- On a log of well-formed entries, at an instant whose `minDate` is a valid date, with a
lawful collation that does not report two different location texts of the window as
equal, the request returns a list sorted ascending by location and, among rows with the
same location, ascending by machine name. -/
theorem machineAnalytics_sorted (rt : Runtime) (hs : SortLaws rt) (hcol : Collation rt)
    (week : Bool) (now : Int) (lines : List String) (hwf : wellFormedLog rt lines = true)
    (hnow : -maxTime ≤ now - weekMs ∧ now - weekMs ≤ maxTime)
    (hsep : ∀ a ∈ windowRecords rt week now lines, ∀ b ∈ windowRecords rt week now lines,
      rt.localeCompare (toStr a.dorm) (toStr b.dorm) = .eq → a.dorm = b.dorm) :
    ∃ rows, machineAnalytics rt week now lines = some rows ∧ rows.Pairwise (RowOrder rt) := by
  have hscan := scanRecords_wellFormed rt week now lines hwf hnow
  have hids := wellFormed_textualIds rt week now lines hwf
  have hrows : ∀ r ∈ (machineStatsOf rt week now lines).map (fun e => e.2),
      ∃ mo ∈ windowRecords rt week now lines, ∃ d m, r.dorm = mo.dorm ∧ r.dorm = .str d ∧
        r.machine = .str m := by
    intro r hr
    obtain ⟨e, he, rfl⟩ := List.mem_map.mp hr
    obtain ⟨mo, hmo, h1, h2⟩ := machineStatsOf_from_record rt week now lines e he
    obtain ⟨d, m, hd, hm⟩ := textualIds_elim mo (hids mo hmo)
    rw [hscan] at hmo
    exact ⟨mo, hmo, d, m, h1, h1.trans hd, h2.trans hm⟩
  have hiff : ∀ a ∈ (machineStatsOf rt week now lines).map (fun e => e.2),
      ∀ b ∈ (machineStatsOf rt week now lines).map (fun e => e.2),
      (compareStats rt b a ≠ some .lt ↔ RowOrder rt a b) := by
    intro a ha b hb
    obtain ⟨moa, hmoa, d1, m1, ha0, h1, h2⟩ := hrows a ha
    obtain ⟨mob, hmob, d2, m2, hb0, h3, h4⟩ := hrows b hb
    refine compareStats_rowOrder rt hcol a b d1 m1 d2 m2 h1 h2 h3 h4 ?_
    intro hc
    have := hsep moa hmoa mob hmob (by
      rw [← ha0, ← hb0, h1, h3]
      exact hc)
    rw [← ha0, ← hb0, h1, h3] at this
    exact JsVal.str.inj this
  have hcons : Consistent (compareStats rt)
      ((machineStatsOf rt week now lines).map (fun e => e.2)) := by
    refine ⟨?_, ?_, ?_⟩
    · intro a ha b hb
      obtain ⟨-, -, d1, m1, -, h1, h2⟩ := hrows a ha
      obtain ⟨-, -, d2, m2, -, h3, h4⟩ := hrows b hb
      rw [compareStats_text rt a b d1 m1 d2 m2 h1 h2 h3 h4]
      rfl
    · intro a ha b hb hlt
      rw [hiff a ha b hb]
      obtain ⟨-, -, d1, m1, -, h1, h2⟩ := hrows a ha
      obtain ⟨-, -, d2, m2, -, h3, h4⟩ := hrows b hb
      have hcmp := compareStats_text rt a b d1 m1 d2 m2 h1 h2 h3 h4
      rw [hlt] at hcmp
      have hcmp2 := Option.some.inj hcmp
      unfold RowOrder
      rw [h1, h2, h3, h4]
      simp only [toStr]
      by_cases hd : d1 = d2
      · rw [if_pos hd] at hcmp2
        right
        refine ⟨by rw [hd], ?_⟩
        rw [← hcmp2]
        decide
      · rw [if_neg hd] at hcmp2
        left
        exact hcmp2.symm
    · intro a ha b hb c hc hab hbc
      rw [hiff a ha b hb] at hab
      rw [hiff b hb c hc] at hbc
      rw [hiff a ha c hc]
      exact RowOrder.trans hcol a b c hab hbc
  obtain ⟨rows, hr⟩ := machineAnalytics_returns rt hs week now lines hids
  refine ⟨rows, hr, ?_⟩
  have hsorted := hs.sorted _ _ _ hcons hr
  have hperm := hs.perm _ _ _ hr
  exact hsorted.imp_of_mem (fun {a b} ha hb h =>
    (hiff a (hperm.mem_iff.mp ha) b (hperm.mem_iff.mp hb)).mp h)

set_option maxRecDepth 100000 in
theorem machineAnalytics_sorted_witness :
    wellFormedLog sampleRuntime [lineMon8, lineSeparator, lineSun8] = true ∧
    machineAnalytics sampleRuntime false sampleNow [lineMon8, lineSeparator, lineSun8]
      = some [{ dorm := .str "A", machine := .str "D1", type := .str "Dryer", available := 0,
                inUse := 1, outOfOrder := 0, endOfCycle := 0, almostDone := 0, total := 1 },
              { dorm := .str "A", machine := .str "W1", type := .str "Washer", available := 2,
                inUse := 0, outOfOrder := 0, endOfCycle := 0, almostDone := 0, total := 2 },
              { dorm := .str "a__b", machine := .str "c", type := .str "Washer",
                available := 1, inUse := 1, outOfOrder := 0, endOfCycle := 0,
                almostDone := 0, total := 2 }] ∧
    ∃ rows, machineAnalytics sampleRuntime false sampleNow [lineMon8, lineSeparator, lineSun8]
      = some rows ∧ rows.Pairwise (RowOrder sampleRuntime) :=
  ⟨by decide, by decide,
    machineAnalytics_sorted sampleRuntime sampleRuntime_sortLaws sampleRuntime_collation false
      sampleNow [lineMon8, lineSeparator, lineSun8] (by decide) (by decide) (by decide)⟩

/-! ## Machine analytics: where the grouping key and the comparator fail -/

set_option maxRecDepth 100000 in
/-- C6 fails on the log of well-formed entries `[lineSeparator]`, for the last seven days:
machine `c` of `a__b` has one record inside the window, whose first matching phrase is
`available`, and its row has `total` 2 and `inUse` 1: the record of machine `b__c` of `a`,
which has the same key, is counted in it. -/
theorem shared_key_row_counts_another_machine :
    wellFormedLog sampleRuntime [lineSeparator] = true ∧
    machineAnalytics sampleRuntime true sampleNow [lineSeparator]
      = some [{ dorm := .str "a__b", machine := .str "c", type := .str "Washer",
                available := 1, inUse := 1, outOfOrder := 0, endOfCycle := 0,
                almostDone := 0, total := 2 }] ∧
    machineRecords sampleRuntime true sampleNow [lineSeparator] (.str "a__b") (.str "c")
      = [{ dorm := .str "a__b", machine := .str "c", type := .str "Washer",
           status := .str "Available" }] ∧
    matchedPhrase sampleRuntime
      { dorm := .str "a__b", machine := .str "c", type := .str "Washer",
        status := .str "Available" } = some "available" := by
  refine ⟨by decide, by decide, by decide, by decide⟩

set_option maxRecDepth 100000 in
/-- C7 fails on the log of well-formed entries `[lineSeparatorIdle]`: the one record of
machine `c` of `a__b` inside the window has a status with the phrase `available`, and
the row of that machine has `total` 2 above the sum 1 of its category counters: the
record of machine `b__c` of `a`, with status `Idle` and the same key, is counted in it. -/
theorem shared_key_row_total_above_matched :
    wellFormedLog sampleRuntime [lineSeparatorIdle] = true ∧
    machineAnalytics sampleRuntime false sampleNow [lineSeparatorIdle]
      = some [{ dorm := .str "a__b", machine := .str "c", type := .str "Washer",
                available := 1, inUse := 0, outOfOrder := 0, endOfCycle := 0,
                almostDone := 0, total := 2 }] ∧
    machineRecords sampleRuntime false sampleNow [lineSeparatorIdle] (.str "a__b") (.str "c")
      = [{ dorm := .str "a__b", machine := .str "c", type := .str "Washer",
           status := .str "Available" }] ∧
    (∀ mo ∈ machineRecords sampleRuntime false sampleNow [lineSeparatorIdle]
        (.str "a__b") (.str "c"), matchedPhrase sampleRuntime mo ≠ none) := by
  refine ⟨by decide, by decide, by decide, by decide⟩

set_option maxRecDepth 100000 in
/-- C8 fails on the log of well-formed entries `[lineSpellings]` under a lawful collation
that, like `localeCompare`, reports the two spellings of the location as equal: the rows
come out in the order of the log, machine `b` before machine `a` of the same location. -/
theorem equivalent_spellings_rows_out_of_order :
    wellFormedLog canonRuntime [lineSpellings] = true ∧
    canonRuntime.localeCompare "\u00e9" "e\u0301" = .eq ∧
    canonRuntime.localeCompare "a" "b" = .lt ∧
    machineAnalytics canonRuntime false sampleNow [lineSpellings]
      = some [{ dorm := .str "\u00e9", machine := .str "b", type := .str "Washer",
                available := 1, inUse := 0, outOfOrder := 0, endOfCycle := 0,
                almostDone := 0, total := 1 },
              { dorm := .str "e\u0301", machine := .str "a", type := .str "Washer",
                available := 1, inUse := 0, outOfOrder := 0, endOfCycle := 0,
                almostDone := 0, total := 1 },
              { dorm := .str "\u00e9", machine := .str "a", type := .str "Washer",
                available := 1, inUse := 0, outOfOrder := 0, endOfCycle := 0,
                almostDone := 0, total := 1 }] ∧
    ¬ RowOrder canonRuntime
        { dorm := .str "\u00e9", machine := .str "b", type := .str "Washer",
          available := 1, inUse := 0, outOfOrder := 0, endOfCycle := 0,
          almostDone := 0, total := 1 }
        { dorm := .str "\u00e9", machine := .str "a", type := .str "Washer",
          available := 1, inUse := 0, outOfOrder := 0, endOfCycle := 0,
          almostDone := 0, total := 1 } := by
  refine ⟨by decide, by decide, by decide, by decide, ?_⟩
  unfold RowOrder
  decide

end Laundry
